import Mathlib

/-
Shallow embedding of `src/copri.c` (Bernstein's "factoring into coprimes"
library) over the natural numbers.

Conventions of the embedding:
* every `mpz_t` value in the program is a non-negative integer, so it is
  embedded as a `Nat`; `mpz_mul` is `*`, `mpz_fdiv_q` on non-negative
  operands is `Nat` division, `mpz_fdiv_r` is `%`, `mpz_gcd` is `Nat.gcd`;
* an `mpz_array` is a `List Nat`; a C function that appends to an output
  array is embedded as a function returning the list of values it appends
  (all call sites pass freshly initialised output arrays or concatenate);
* the big-integer pool (`mpz_pool`) holds only scratch temporaries and has
  no observable effect, so it vanishes from the embedding;
* the two recursions of the C code whose termination is not structural
  (the while-loop shared by `gcd_ppi_ppo`/`gcd_ppg_pple`, the recursion of
  `reduce`, and the mutual recursion of `append_cb` with its inner loop)
  receive an explicit fuel argument modelling the call stack.  A fueled
  function returns `none` exactly when the modelled C execution has not
  finished within that stack depth; wrappers that pick a concrete fuel are
  accompanied by theorems showing the fuel suffices on the stated domain.
-/

namespace Copri

/-- Embedding of `two_power`: the C loop squares `rot` a total of `n` times,
computing `rot^(2^n)`. -/
def two_power (x : Nat) : Nat → Nat
  | 0 => x
  | n + 1 => two_power (x * x) n

/-- The while-loop shared by `gcd_ppi_ppo` and `gcd_ppg_pple` in the C code:
with state `(x, y)` it repeatedly takes `g = gcd x y` and, unless `g = 1`,
replaces the state by `(x * g, y / g)`.  The C loop is unbounded; the fuel
argument models its iteration count.  Returning the current state on fuel
exhaustion is unreachable from the wrappers below whenever their first
argument `a` is positive, which holds at every call site reachable from
positive library inputs. -/
def gcd_pp_loop : Nat → Nat → Nat → Nat × Nat
  | 0, x, y => (x, y)
  | fuel + 1, x, y =>
    let g := Nat.gcd x y
    if g = 1 then (x, y) else gcd_pp_loop fuel (x * g) (y / g)

/-- Embedding of `gcd_ppi_ppo`: returns `(gcd, ppi, ppo)`.  The loop starts
from `ppi = gcd a b`, `ppo = a / ppi`; fuel `a + 1` suffices because the
second state component strictly decreases while positive. -/
def gcd_ppi_ppo (a b : Nat) : Nat × Nat × Nat :=
  let g := Nat.gcd a b
  let r := gcd_pp_loop (a + 1) g (a / g)
  (g, r.1, r.2)

/-- Embedding of the `ppi_ppo` shortcut: the `(ppi, ppo)` part of
`gcd_ppi_ppo`. -/
def ppi_ppo (a b : Nat) : Nat × Nat :=
  ((gcd_ppi_ppo a b).2.1, (gcd_ppi_ppo a b).2.2)

/-- Embedding of the `ppi` shortcut. -/
def ppi (a b : Nat) : Nat := (gcd_ppi_ppo a b).2.1

/-- Embedding of `gcd_ppg_pple`: returns `(gcd, ppg, pple)`.  The loop starts
from `pple = gcd a b`, `ppg = a / pple` and updates `ppg *= g`,
`pple /= g`. -/
def gcd_ppg_pple (a b : Nat) : Nat × Nat × Nat :=
  let g := Nat.gcd a b
  let r := gcd_pp_loop (a + 1) (a / g) g
  (g, r.1, r.2)

/-- Embedding of `prod`: balanced product of `arr[f..t]`, with `n = t - f`,
left half `[f, t - n/2 - 1]`, right half `[t - n/2, t]`.  Out-of-range reads
(impossible at reachable call sites) default to `0`. -/
def prod (arr : List Nat) (f t : Nat) : Nat :=
  let n := t - f
  if n = 0 then arr.getD f 0
  else prod arr f (t - n / 2 - 1) * prod arr (t - n / 2) t
termination_by t - f
decreasing_by
  all_goals omega

/-- Embedding of `array_prod`: product of a whole array, `1` when empty. -/
def array_prod (a : List Nat) : Nat :=
  if a.length > 0 then prod a 0 (a.length - 1) else 1

/-- Embedding of `split`: appends, for each index of `p[f..t]`, the part of
`a` built from the primes of that entry; the recursion passes the computed
`b = ppi a (prod p f t)` down to both halves. -/
def split (a : Nat) (p : List Nat) (f t : Nat) : List Nat :=
  let n := t - f
  let x := prod p f t
  let b := ppi a x
  if n = 0 then [b]
  else split b p f (t - n / 2 - 1) ++ split b p (t - n / 2) t
termination_by t - f
decreasing_by
  all_goals omega

/-- Embedding of `array_split`: the empty-array case prints an error and
appends nothing. -/
def array_split (a : Nat) (p : List Nat) : List Nat :=
  if p.length > 0 then split a p 0 (p.length - 1) else []

mutual

/-- Embedding of `append_cb` (algorithm 13.2): appends the coprime base of
`{a, b}` to the output array.  The fuel models the C call stack of the
mutual recursion with the in-function while loop. -/
def append_cb : Nat → Nat → Nat → Option (List Nat)
  | 0, _, _ => none
  | fuel + 1, a, b =>
    if b = 1 then some (if a ≠ 1 then [a] else [])
    else
      let ar := ppi_ppo a b
      let e1 := if ar.2 ≠ 1 then [ar.2] else []
      let ghc := gcd_ppg_pple ar.1 b
      match append_cb_loop fuel b ghc.1 ghc.2.1 ghc.2.2 1 with
      | none => none
      | some er =>
        match append_cb fuel (b / er.2) ghc.2.2 with
        | none => none
        | some e3 => some (e1 ++ er.1 ++ e3)

/-- The while-loop of `append_cb` (steps 7-12), entered with counter `n = 1`
and accumulator `x` initially equal to `pple a1 b`; returns the values
appended by the recursive calls made inside the loop together with the final
value of `x`. -/
def append_cb_loop : Nat → Nat → Nat → Nat → Nat → Nat → Option (List Nat × Nat)
  | 0, _, _, _, _, _ => none
  | fuel + 1, b, g, h, x, n =>
    let ghc := gcd_ppg_pple h (g * g)
    let d := Nat.gcd ghc.2.2 b
    let x2 := x * d
    let y := two_power d (n - 1)
    match append_cb fuel (ghc.2.2 / y) d with
    | none => none
    | some e =>
      if ghc.2.1 = 1 then some (e, x2)
      else
        match append_cb_loop fuel b ghc.1 ghc.2.1 x2 (n + 1) with
        | none => none
        | some er => some (e ++ er.1, er.2)

end

/-- Folds `append_cb` over a list of `(p, c)` pairs, concatenating the
appended values, as the final loop of `cbextend` does. -/
def append_cb_list (fuel : Nat) : List (Nat × Nat) → Option (List Nat)
  | [] => some []
  | pc :: rest =>
    match append_cb fuel pc.1 pc.2 with
    | none => none
    | some e =>
      match append_cb_list fuel rest with
      | none => none
      | some es => some (e ++ es)

/-- Embedding of `cbextend` (algorithm 16.2).  NOTE: the C source does not
return after the empty-base step; it falls through and executes the rest of
the routine, and the embedding keeps that behaviour faithfully.  The
length-mismatch branch (a diagnosed logic error in C) appends nothing
further. -/
def cbextend (fuel : Nat) (p : List Nat) (b : Nat) : Option (List Nat) :=
  let e1 := if p.length = 0 then (if b ≠ 1 then [b] else []) else []
  let x := array_prod p
  let ar := ppi_ppo b x
  let e2 := if ar.2 ≠ 1 then [ar.2] else []
  let s := array_split ar.1 p
  if p.length ≠ s.length then some (e1 ++ e2)
  else
    match append_cb_list fuel (p.zip s) with
    | none => none
    | some e3 => some (e1 ++ e2 ++ e3)

/-- Embedding of the `bit` utility: bit `i` of `k` as `0` or `1`. -/
def bit (i k : Nat) : Nat := if k &&& (1 <<< i) ≠ 0 then 1 else 0

/-- The do-while loop of `cbmerge` choosing the iteration count: starting
from counter `b`, it increments and tests `2^(b+1) < n`, so `find_b_loop n 0`
is the first `b ≥ 1` with `2^b ≥ n`. -/
def find_b_loop (n b : Nat) : Nat :=
  if 2 ^ (b + 1) < n then find_b_loop n (b + 1) else b + 1
termination_by n - 2 ^ b
decreasing_by
  have h2 : 2 ^ b < 2 ^ (b + 1) := Nat.pow_lt_pow_succ (by norm_num)
  omega

/-- The iteration count chosen by `cbmerge` for `n = |Q|`. -/
def find_b (n : Nat) : Nat := find_b_loop n 0

/-- The selection `{q[k] : bit i k = v}` built by the two selection loops in
`cbmerge`, in index order. -/
def select_bits (q : List Nat) (i : Nat) (v : Nat) : List Nat :=
  ((List.range q.length).filter (fun k => bit i k = v)).map (fun k => q.getD k 0)

/-- The main loop of `cbmerge`, iterating `rem` more times starting at bit
index `i` with current base `s`: each round extends `s` by the product of
the bit-`i`-zero selection of `q`, then by the product of the bit-`i`-one
selection. -/
def cbmerge_loop (fuel : Nat) (q : List Nat) : Nat → Nat → List Nat → Option (List Nat)
  | _, 0, s => some s
  | i, rem + 1, s =>
    let x0 := array_prod (select_bits q i 0)
    match cbextend fuel s x0 with
    | none => none
    | some t =>
      let x1 := array_prod (select_bits q i 1)
      match cbextend fuel t x1 with
      | none => none
      | some s2 => cbmerge_loop fuel q (i + 1) rem s2

/-- Embedding of `cbmerge` (algorithm 17.3): `s` starts as a copy of `p` and
the loop runs for bit indices `i = 0 .. b - 1` where `b = find_b |q|`. -/
def cbmerge (fuel : Nat) (p q : List Nat) : Option (List Nat) :=
  cbmerge_loop fuel q 0 (find_b q.length) p

/-- Embedding of `cb` (algorithm 18.1) on the index range `[f, t]` of `s`:
a singleton appends its value unless it is `0` (warned) or `1` (skipped);
otherwise the two halves are computed recursively and merged, with the
degenerate empty-side cases forwarding the non-empty side. -/
def cb (fuel : Nat) (s : List Nat) (f t : Nat) : Option (List Nat) :=
  let n := t - f
  if n = 0 then
    let v := s.getD f 0
    some (if v = 0 then [] else if v ≠ 1 then [v] else [])
  else
    match cb fuel s f (t - n / 2 - 1) with
    | none => none
    | some p =>
      match cb fuel s (t - n / 2) t with
      | none => none
      | some q =>
        if q.length ≠ 0 ∧ p.length ≠ 0 then cbmerge fuel p q
        else if q.length = 0 ∧ p.length ≠ 0 then some p
        else if q.length ≠ 0 ∧ p.length = 0 then some q
        else some []
termination_by t - f
decreasing_by
  all_goals omega

/-- Embedding of `array_cb`: empty input prints an error and appends
nothing. -/
def array_cb (fuel : Nat) (s : List Nat) : Option (List Nat) :=
  if s.length > 0 then cb fuel s 0 (s.length - 1) else some []

/-- Embedding of `reduce` (algorithm 19.2) with explicit call-stack fuel:
if `p` does not divide `a` the result is `(0, a)`; otherwise with
`(j, b) = reduce (p^2) (a/p)` the result is `(2j+2, b/p)` when `p ∣ b` and
`(2j+1, b)` otherwise.  `none` models the non-terminating recursion, which
the C code enters e.g. for `p = 1` with `0 < a`. -/
def reduce : Nat → Nat → Nat → Option (Nat × Nat)
  | 0, _, _ => none
  | fuel + 1, p, a =>
    if a % p ≠ 0 then some (0, a)
    else
      match reduce fuel (p * p) (a / p) with
      | none => none
      | some jb =>
        if jb.2 % p = 0 then some (2 * jb.1 + 2, jb.2 / p)
        else some (2 * jb.1 + 1, jb.2)

/-- Runs `reduce` with fuel `a + 1`; the fuel suffices whenever `2 ≤ p` and
`0 < a`, which holds at every reachable call site (base elements are at
least 2).  The default value is never used on that domain. -/
def reduce_run (p a : Nat) : Nat × Nat := (reduce (a + 1) p a).getD (0, a)

/-- Embedding of `find_factor` (algorithm 20.1) on the range `[f, t]` of the
base `p`: returns the values appended to the output array (the flattened
`(a0, p, a0/p)` triples) together with the returned boolean.  The right half
is only evaluated when the left half succeeds, mirroring the C control
flow. -/
def find_factor (a0 a : Nat) (p : List Nat) (f t : Nat) : List Nat × Bool :=
  let n := t - f
  if n = 0 then
    let mc := reduce_run (p.getD f 0) a
    if mc.2 ≠ 1 then ([], false)
    else if a0 ≠ p.getD f 0 then ([a0, p.getD f 0, a0 / p.getD f 0], false)
    else ([], true)
  else
    let y := prod p f (t - n / 2 - 1)
    let bc := ppi_ppo a y
    let lr := find_factor a0 bc.1 p f (t - n / 2 - 1)
    if lr.2 = false then (lr.1, false)
    else
      let rr := find_factor a0 bc.2 p (t - n / 2) t
      (lr.1 ++ rr.1, rr.2)
termination_by t - f
decreasing_by
  all_goals omega

/-- The contiguous segment `l[f..t]` of a list, as a list. -/
def seg (l : List Nat) (f t : Nat) : List Nat := (l.drop f).take (t + 1 - f)

/-- Product of powers of the entries of `P[f..t]`, with exponents given by
`e`. -/
def pows_seg (P : List Nat) (e : Nat → Nat) (f t : Nat) : Nat :=
  ((List.range (t + 1 - f)).map (fun j => P.getD (f + j) 0 ^ e (f + j))).prod

/-- `v` is a product of powers of elements of `L`. -/
def FactorsOver (v : Nat) (L : List Nat) : Prop :=
  ∃ e : Nat → Nat, v = ((List.range L.length).map (fun j => L.getD j 0 ^ e j)).prod

/-- The contract of `append_cb a b`: for large enough fuel it returns a
fixed list whose entries are at least 2 and pairwise coprime, built from
primes of `a * b` only, over which both `a` and `b` factor. -/
def AppendGood (a b : Nat) : Prop :=
  ∃ fuel0 L, (∀ fuel, fuel0 ≤ fuel → append_cb fuel a b = some L) ∧
    (∀ v ∈ L, 2 ≤ v) ∧ List.Pairwise Nat.Coprime L ∧
    (∀ v ∈ L, ∀ q, q.Prime → q ∣ v → q ∣ a * b) ∧
    FactorsOver a L ∧ FactorsOver b L

/-- `two_power` computes `x ^ (2 ^ n)`. -/
theorem two_power_eq (x : Nat) : ∀ n, two_power x n = x ^ (2 ^ n) := by
  suffices h : ∀ n x, two_power x n = x ^ (2 ^ n) from fun n => h n x
  intro n
  induction n with
  | zero => intro x; simp [two_power]
  | succ n ih =>
    intro x
    rw [two_power, ih, ← pow_two, ← pow_mul, pow_succ, Nat.mul_comm (2 ^ n) 2]

/-- Unfolding equation for `gcd_pp_loop` at positive fuel. -/
theorem gcd_pp_loop_succ (fuel x y : Nat) :
    gcd_pp_loop (fuel + 1) x y =
      if Nat.gcd x y = 1 then (x, y)
      else gcd_pp_loop fuel (x * Nat.gcd x y) (y / Nat.gcd x y) := rfl

/-- Specification of the shared gcd loop: started with positive state
`(x, y)` and fuel above `y`, the loop exits through its `g = 1` test and its
result multiplies back to `x * y`, keeps `x` as a divisor of the first
component, keeps the second component a divisor of `y`, is a coprime pair,
and introduces no primes beyond those of `x` into the first component. -/
theorem gcd_pp_loop_spec : ∀ fuel x y, 0 < x → 0 < y → y < fuel →
    (gcd_pp_loop fuel x y).1 * (gcd_pp_loop fuel x y).2 = x * y ∧
    x ∣ (gcd_pp_loop fuel x y).1 ∧
    (gcd_pp_loop fuel x y).2 ∣ y ∧
    Nat.gcd (gcd_pp_loop fuel x y).1 (gcd_pp_loop fuel x y).2 = 1 ∧
    (∀ q, q.Prime → q ∣ (gcd_pp_loop fuel x y).1 → q ∣ x) := by
  intro fuel
  induction fuel with
  | zero => intro x y _ _ h; omega
  | succ fuel ih =>
    intro x y hx hy hfuel
    by_cases hg : Nat.gcd x y = 1
    · rw [gcd_pp_loop_succ, if_pos hg]
      exact ⟨rfl, dvd_rfl, dvd_rfl, hg, fun q _ hq => hq⟩
    · have hgdvdy : Nat.gcd x y ∣ y := Nat.gcd_dvd_right x y
      have hgdvdx : Nat.gcd x y ∣ x := Nat.gcd_dvd_left x y
      have hgpos : 0 < Nat.gcd x y := Nat.gcd_pos_of_pos_left y hx
      have hg2 : 2 ≤ Nat.gcd x y := by omega
      have hy2pos : 0 < y / Nat.gcd x y :=
        Nat.div_pos (Nat.le_of_dvd hy hgdvdy) hgpos
      have hy2lt : y / Nat.gcd x y < y := Nat.div_lt_self hy hg2
      have hrec := ih (x * Nat.gcd x y) (y / Nat.gcd x y)
        (Nat.mul_pos hx hgpos) hy2pos (by omega)
      rw [gcd_pp_loop_succ, if_neg hg]
      refine ⟨?_, ?_, ?_, hrec.2.2.2.1, ?_⟩
      · rw [hrec.1, mul_assoc, Nat.mul_div_cancel' hgdvdy]
      · exact dvd_trans (dvd_mul_right x (Nat.gcd x y)) hrec.2.1
      · exact dvd_trans hrec.2.2.1 (Nat.div_dvd_of_dvd hgdvdy)
      · intro q hq hqdvd
        rcases (Nat.Prime.dvd_mul hq).1 (hrec.2.2.2.2 q hq hqdvd) with h | h
        · exact h
        · exact dvd_trans h hgdvdx

/-- Characterisation of `gcd_ppi_ppo` for positive `a`: the first component
is `gcd a b`, the other two multiply to `a`, are coprime, the `ppi` part has
only primes of `gcd a b`, is a multiple of `gcd a b`, and the `ppo` part
divides `a`. -/
theorem gcd_ppi_ppo_spec (a b : Nat) (ha : 0 < a) :
    (gcd_ppi_ppo a b).1 = Nat.gcd a b ∧
    (gcd_ppi_ppo a b).2.1 * (gcd_ppi_ppo a b).2.2 = a ∧
    Nat.gcd (gcd_ppi_ppo a b).2.1 (gcd_ppi_ppo a b).2.2 = 1 ∧
    (∀ q, q.Prime → q ∣ (gcd_ppi_ppo a b).2.1 → q ∣ Nat.gcd a b) ∧
    Nat.gcd a b ∣ (gcd_ppi_ppo a b).2.1 ∧
    (gcd_ppi_ppo a b).2.2 ∣ a := by
  have hgpos : 0 < Nat.gcd a b := Nat.gcd_pos_of_pos_left b ha
  have hgdvda : Nat.gcd a b ∣ a := Nat.gcd_dvd_left a b
  have hy0pos : 0 < a / Nat.gcd a b := Nat.div_pos (Nat.le_of_dvd ha hgdvda) hgpos
  have hy0le : a / Nat.gcd a b ≤ a := Nat.div_le_self a (Nat.gcd a b)
  have h := gcd_pp_loop_spec (a + 1) (Nat.gcd a b) (a / Nat.gcd a b)
    hgpos hy0pos (by omega)
  refine ⟨rfl, ?_, h.2.2.2.1, h.2.2.2.2, h.2.1, ?_⟩
  · show (gcd_pp_loop (a + 1) (Nat.gcd a b) (a / Nat.gcd a b)).1 *
      (gcd_pp_loop (a + 1) (Nat.gcd a b) (a / Nat.gcd a b)).2 = a
    rw [h.1, Nat.mul_div_cancel' hgdvda]
  · exact dvd_trans h.2.2.1 (Nat.div_dvd_of_dvd hgdvda)

/-- The `ppo` part of `gcd_ppi_ppo a b` is coprime to `b` when `a` is
positive. -/
theorem ppo_coprime (a b : Nat) (ha : 0 < a) :
    Nat.Coprime (gcd_ppi_ppo a b).2.2 b := by
  have h := gcd_ppi_ppo_spec a b ha
  by_contra hne
  obtain ⟨q, hq, hqdvd⟩ := Nat.exists_prime_and_dvd hne
  have hqppo : q ∣ (gcd_ppi_ppo a b).2.2 := dvd_trans hqdvd (Nat.gcd_dvd_left _ _)
  have hqb : q ∣ b := dvd_trans hqdvd (Nat.gcd_dvd_right _ _)
  have hqa : q ∣ a := dvd_trans hqppo h.2.2.2.2.2
  have hqg : q ∣ Nat.gcd a b := Nat.dvd_gcd hqa hqb
  have hqppi : q ∣ (gcd_ppi_ppo a b).2.1 := dvd_trans hqg h.2.2.2.2.1
  have hq1 : q ∣ 1 := by
    rw [← h.2.2.1]
    exact Nat.dvd_gcd hqppi hqppo
  exact absurd (Nat.eq_one_of_dvd_one hq1) (Nat.Prime.ne_one hq)

/-- Uniqueness of decompositions `v = d * e` where every prime of `d`
divides `c` and `e` is coprime to `c`. -/
theorem pp_decomp_unique (c d e d2 e2 : Nat) (_hpos : 0 < d * e)
    (hde : d * e = d2 * e2)
    (hd : ∀ q, q.Prime → q ∣ d → q ∣ c) (he : Nat.Coprime e c)
    (hd2 : ∀ q, q.Prime → q ∣ d2 → q ∣ c) (he2 : Nat.Coprime e2 c) :
    d = d2 := by
  have key : ∀ u u2 w2, (∀ q, q.Prime → q ∣ u → q ∣ c) →
      Nat.Coprime w2 c → u ∣ u2 * w2 → u ∣ u2 := by
    intro u u2 w2 hu hw2 hdvd
    have hcop : Nat.Coprime u w2 := by
      by_contra hne
      obtain ⟨q, hq, hqdvd⟩ := Nat.exists_prime_and_dvd hne
      have hqu : q ∣ u := dvd_trans hqdvd (Nat.gcd_dvd_left _ _)
      have hqw : q ∣ w2 := dvd_trans hqdvd (Nat.gcd_dvd_right _ _)
      have hqc : q ∣ c := hu q hq hqu
      have hq1 : q ∣ 1 := hw2 ▸ Nat.dvd_gcd hqw hqc
      exact absurd (Nat.eq_one_of_dvd_one hq1) (Nat.Prime.ne_one hq)
    exact Nat.Coprime.dvd_of_dvd_mul_right hcop hdvd
  have h1 : d ∣ d2 := key d d2 e2 hd he2 (hde ▸ dvd_mul_right d e)
  have h2 : d2 ∣ d := key d2 d e hd2 he (hde ▸ dvd_mul_right d2 e2)
  exact Nat.dvd_antisymm h1 h2

/-- Every prime of `ppi v x` divides `x` (for positive `v`). -/
theorem ppi_primes (v x : Nat) (hv : 0 < v) :
    ∀ q, q.Prime → q ∣ ppi v x → q ∣ x := by
  intro q hq hdvd
  exact dvd_trans ((gcd_ppi_ppo_spec v x hv).2.2.2.1 q hq hdvd)
    (Nat.gcd_dvd_right v x)

/-- `ppi v x * ppo v x = v` for positive `v`. -/
theorem ppi_mul_ppo (v x : Nat) (hv : 0 < v) :
    ppi v x * (gcd_ppi_ppo v x).2.2 = v :=
  (gcd_ppi_ppo_spec v x hv).2.1

/-- `ppi v x` is positive for positive `v`. -/
theorem ppi_pos (v x : Nat) (hv : 0 < v) : 0 < ppi v x := by
  have h := ppi_mul_ppo v x hv
  by_contra hc
  have h0 : ppi v x = 0 := by omega
  rw [h0, Nat.zero_mul] at h
  omega

/-- A prime cannot divide both sides of a coprime pair. -/
theorem coprime_prime_dvd (m n q : Nat) (hco : Nat.Coprime m n)
    (hq : q.Prime) (h1 : q ∣ m) (h2 : q ∣ n) : False := by
  have hd : q ∣ 1 := hco ▸ Nat.dvd_gcd h1 h2
  exact absurd (Nat.eq_one_of_dvd_one hd) hq.ne_one

/-- Two numbers with no common prime divisor are coprime. -/
theorem coprime_of_primes (m n : Nat)
    (h : ∀ q, q.Prime → q ∣ m → ¬ q ∣ n) : Nat.Coprime m n := by
  by_contra hne
  obtain ⟨q, hq, hqd⟩ := Nat.exists_prime_and_dvd hne
  exact h q hq (dvd_trans hqd (Nat.gcd_dvd_left m n))
    (dvd_trans hqd (Nat.gcd_dvd_right m n))

/-- When every prime of `v` divides `x * y` and `x`, `y` are coprime, the
two `ppi` parts of `v` with respect to `x` and to `y` multiply back to
`v`. -/
theorem ppi_mul_of_coprime (v x y : Nat) (hv : 0 < v)
    (hprimes : ∀ q, q.Prime → q ∣ v → q ∣ x * y) (hxy : Nat.Coprime x y) :
    ppi v x * ppi v y = v := by
  have hx := gcd_ppi_ppo_spec v x hv
  have key : ppi v y = (gcd_ppi_ppo v x).2.2 := by
    apply pp_decomp_unique y (ppi v y) ((gcd_ppi_ppo v y).2.2)
      ((gcd_ppi_ppo v x).2.2) (ppi v x)
    · rw [ppi_mul_ppo v y hv]; exact hv
    · rw [ppi_mul_ppo v y hv, Nat.mul_comm]; exact hx.2.1.symm
    · exact ppi_primes v y hv
    · exact ppo_coprime v y hv
    · intro q hq hqd
      have hqv : q ∣ v := dvd_trans hqd hx.2.2.2.2.2
      rcases (Nat.Prime.dvd_mul hq).1 (hprimes q hq hqv) with hqx | hqy
      · exact absurd hqx (fun hqx => coprime_prime_dvd _ _ q
          (ppo_coprime v x hv) hq hqd hqx)
      · exact hqy
    · exact coprime_of_primes _ _ (fun q hq hqd hqy =>
        coprime_prime_dvd x y q hxy hq (ppi_primes v x hv q hq hqd) hqy)
  rw [key]
  exact ppi_mul_ppo v x hv

/-- Characterisation of `gcd_ppg_pple` for positive `a`: the first component
is `gcd a b`, the other two multiply to `a` and are coprime; `pple` divides
a power-of-gcd seed and `ppg` only extends the cofactor `a / gcd a b`. -/
theorem gcd_ppg_pple_spec (a b : Nat) (ha : 0 < a) :
    (gcd_ppg_pple a b).1 = Nat.gcd a b ∧
    (gcd_ppg_pple a b).2.1 * (gcd_ppg_pple a b).2.2 = a ∧
    Nat.gcd (gcd_ppg_pple a b).2.1 (gcd_ppg_pple a b).2.2 = 1 ∧
    (gcd_ppg_pple a b).2.2 ∣ Nat.gcd a b ∧
    (a / Nat.gcd a b) ∣ (gcd_ppg_pple a b).2.1 ∧
    (∀ q, q.Prime → q ∣ (gcd_ppg_pple a b).2.1 → q ∣ a / Nat.gcd a b) := by
  have hgpos : 0 < Nat.gcd a b := Nat.gcd_pos_of_pos_left b ha
  have hgdvda : Nat.gcd a b ∣ a := Nat.gcd_dvd_left a b
  have hx0pos : 0 < a / Nat.gcd a b :=
    Nat.div_pos (Nat.le_of_dvd ha hgdvda) hgpos
  have hgle : Nat.gcd a b ≤ a := Nat.le_of_dvd ha hgdvda
  have h := gcd_pp_loop_spec (a + 1) (a / Nat.gcd a b) (Nat.gcd a b)
    hx0pos hgpos (by omega)
  refine ⟨rfl, ?_, h.2.2.2.1, h.2.2.1, h.2.1, h.2.2.2.2⟩
  show (gcd_pp_loop (a + 1) (a / Nat.gcd a b) (Nat.gcd a b)).1 *
    (gcd_pp_loop (a + 1) (a / Nat.gcd a b) (Nat.gcd a b)).2 = a
  rw [h.1, Nat.div_mul_cancel hgdvda]

/-- C6: for positive `a` and `b`, `gcd_ppi_ppo a b` returns values with
`ppi * ppo = a`, `gcd ppi ppo = 1`, and a first component equal to
`gcd a b`. -/
theorem claim_C6 (a b : Nat) (ha : 0 < a) (_hb : 0 < b) :
    (gcd_ppi_ppo a b).2.1 * (gcd_ppi_ppo a b).2.2 = a ∧
    Nat.gcd (gcd_ppi_ppo a b).2.1 (gcd_ppi_ppo a b).2.2 = 1 ∧
    (gcd_ppi_ppo a b).1 = Nat.gcd a b := by
  have h := gcd_ppi_ppo_spec a b ha
  exact ⟨h.2.1, h.2.2.1, h.1⟩

/-- Witness for C6 at `a = 12`, `b = 18`. -/
theorem claim_C6_witness :
    0 < 12 ∧ 0 < 18 ∧
    ((gcd_ppi_ppo 12 18).2.1 * (gcd_ppi_ppo 12 18).2.2 = 12 ∧
     Nat.gcd (gcd_ppi_ppo 12 18).2.1 (gcd_ppi_ppo 12 18).2.2 = 1 ∧
     (gcd_ppi_ppo 12 18).1 = Nat.gcd 12 18) :=
  ⟨by decide, by decide, claim_C6 12 18 (by decide) (by decide)⟩

/-- Unfolding equation for `reduce` at positive fuel. -/
theorem reduce_succ (fuel p a : Nat) :
    reduce (fuel + 1) p a =
      if a % p ≠ 0 then some (0, a)
      else
        match reduce fuel (p * p) (a / p) with
        | none => none
        | some jb =>
          if jb.2 % p = 0 then some (2 * jb.1 + 2, jb.2 / p)
          else some (2 * jb.1 + 1, jb.2) := rfl

/-- Correctness and termination of `reduce`: with `2 ≤ p`, `0 < a` and fuel
above `a`, the recursion returns `(i, c)` with `p ^ i * c = a` and
`p ∤ c`. -/
theorem reduce_spec : ∀ fuel p a, 2 ≤ p → 0 < a → a < fuel →
    ∃ i c, reduce fuel p a = some (i, c) ∧ p ^ i * c = a ∧ ¬ p ∣ c := by
  intro fuel
  induction fuel with
  | zero => intro p a _ _ h; omega
  | succ fuel ih =>
    intro p a hp ha hfuel
    by_cases hdvd : a % p = 0
    · have hpa : p ∣ a := Nat.dvd_of_mod_eq_zero hdvd
      have ha2 : 0 < a / p := Nat.div_pos (Nat.le_of_dvd ha hpa) (by omega)
      have hlt : a / p < a := Nat.div_lt_self ha (by omega)
      have hp2 : 2 ≤ p * p := by nlinarith
      obtain ⟨j, c, heq, hjc, hnd⟩ := ih (p * p) (a / p) hp2 ha2 (by omega)
      have hpow : (p * p) ^ j = p ^ (2 * j) := by
        rw [← pow_two, ← pow_mul]
      have ha3 : a = p * (a / p) := (Nat.mul_div_cancel' hpa).symm
      have key : a = p ^ (2 * j + 1) * c := by
        rw [ha3, ← hjc, hpow]; ring
      rw [reduce_succ, if_neg (by omega), heq]
      by_cases hc : c % p = 0
      · have hpc : p ∣ c := Nat.dvd_of_mod_eq_zero hc
        have hc2 : c = p * (c / p) := (Nat.mul_div_cancel' hpc).symm
        refine ⟨2 * j + 2, c / p, by simp [hc], ?_, ?_⟩
        · rw [key]
          conv_rhs => rw [hc2]
          ring
        · intro hdv
          obtain ⟨k, hk⟩ := hdv
          exact hnd ⟨k, by rw [hc2, hk]; ring⟩
      · refine ⟨2 * j + 1, c, by simp [hc], key.symm, ?_⟩
        exact fun hdv => hc (Nat.mod_eq_zero_of_dvd hdv)
    · refine ⟨0, a, ?_, by simp, fun hdv => hdvd (Nat.mod_eq_zero_of_dvd hdv)⟩
      rw [reduce_succ, if_pos (by omega)]

/-- C7: for `2 ≤ p` and `0 < a`, `reduce` returns `(i, c)` with
`p ^ i * c = a` and `p ∤ c`; in particular `reduce 3 108 = (3, 4)`. -/
theorem claim_C7 :
    (∀ p a, 2 ≤ p → 0 < a →
      p ^ (reduce_run p a).1 * (reduce_run p a).2 = a ∧
      ¬ p ∣ (reduce_run p a).2) ∧
    reduce_run 3 108 = (3, 4) := by
  constructor
  · intro p a hp ha
    obtain ⟨i, c, heq, h1, h2⟩ := reduce_spec (a + 1) p a hp ha (by omega)
    rw [reduce_run, heq]
    exact ⟨h1, h2⟩
  · rfl

/-- Witness for C7 at `p = 5`, `a = 12`. -/
theorem claim_C7_witness :
    2 ≤ 5 ∧ 0 < 12 ∧
    (5 ^ (reduce_run 5 12).1 * (reduce_run 5 12).2 = 12 ∧
     ¬ 5 ∣ (reduce_run 5 12).2) :=
  ⟨by decide, by decide, claim_C7.1 5 12 (by decide) (by decide)⟩

/-- C10: the recursion of `reduce` terminates for every `p ≥ 2` and positive
`a` (fuel `a` suffices because each recursive call strictly decreases `a`),
and for `p = 1` the recursion never reaches the non-dividing base case: no
amount of fuel makes it return. -/
theorem claim_C10 :
    (∀ p a fuel, 2 ≤ p → 0 < a → a < fuel →
      (reduce fuel p a).isSome = true) ∧
    (∀ a fuel, reduce fuel 1 a = none) := by
  constructor
  · intro p a fuel hp ha hf
    obtain ⟨i, c, heq, _, _⟩ := reduce_spec fuel p a hp ha hf
    rw [heq]; rfl
  · intro a fuel
    induction fuel generalizing a with
    | zero => rfl
    | succ fuel ih =>
      rw [reduce_succ, if_neg (by simp [Nat.mod_one]), Nat.mul_one,
        Nat.div_one, ih a]

/-- Witness for C10 at `p = 2`, `a = 3`, fuel `4`. -/
theorem claim_C10_witness :
    2 ≤ 2 ∧ 0 < 3 ∧ 3 < 4 ∧ (reduce 4 2 3).isSome = true :=
  ⟨by decide, by decide, by decide,
    claim_C10.1 2 3 4 (by decide) (by decide) (by decide)⟩

/-- C3: the C source of `cbextend` misses the `return` after the empty-base
step, so with empty `P` and `b = 2` it appends `b` twice — once in the
empty-base branch and once as the residue `r = ppo(b, 1) = b` — instead of
appending it once and stopping as the documented behaviour ("Stop.")
requires. -/
theorem claim_C3 : cbextend 0 [] 2 = some [2, 2] := rfl

/-- Unfolding of the base case of `find_factor` (a single base element). -/
theorem find_factor_base (a0 a : Nat) (p : List Nat) (f t : Nat)
    (h : t - f = 0) :
    find_factor a0 a p f t =
      (if (reduce_run (p.getD f 0) a).2 ≠ 1 then ([], false)
       else if a0 ≠ p.getD f 0 then
         ([a0, p.getD f 0, a0 / p.getD f 0], false)
       else ([], true)) := by
  rw [find_factor.eq_def]
  simp [h]

/-- Unfolding of the recursive case of `find_factor`. -/
theorem find_factor_step (a0 a : Nat) (p : List Nat) (f t : Nat)
    (h : t - f ≠ 0) :
    find_factor a0 a p f t =
      (let y := prod p f (t - (t - f) / 2 - 1)
       let bc := ppi_ppo a y
       let lr := find_factor a0 bc.1 p f (t - (t - f) / 2 - 1)
       if lr.2 = false then (lr.1, false)
       else
         let rr := find_factor a0 bc.2 p (t - (t - f) / 2) t
         (lr.1 ++ rr.1, rr.2)) := by
  rw [find_factor.eq_def]
  simp [h]

/-- C4: in the base case of `find_factor`, when `reduce` leaves residue
`c = 1` and the original value `a0` differs from the base element, the
triple `(a0, P[from], a0 / P[from])` is appended and `false` is returned. -/
theorem claim_C4 (a0 a : Nat) (p : List Nat) (f : Nat)
    (hc : (reduce_run (p.getD f 0) a).2 = 1) (hne : a0 ≠ p.getD f 0) :
    find_factor a0 a p f f =
      ([a0, p.getD f 0, a0 / p.getD f 0], false) := by
  rw [find_factor_base a0 a p f f (Nat.sub_self f), if_neg (by omega),
    if_pos hne]

/-- Witness for C4 at `a0 = 6`, `a = 4`, `P = [2]`. -/
theorem claim_C4_witness :
    (reduce_run (([2] : List Nat).getD 0 0) 4).2 = 1 ∧ 6 ≠ ([2] : List Nat).getD 0 0 ∧
    find_factor 6 4 [2] 0 0 = ([6, 2, 3], false) :=
  ⟨by decide, by decide, claim_C4 6 4 [2] 0 (by decide) (by decide)⟩

/-- Unfolding of the base case of `prod`. -/
theorem prod_base (l : List Nat) (f t : Nat) (h : t - f = 0) :
    prod l f t = l.getD f 0 := by
  rw [prod.eq_def]
  simp [h]

/-- Unfolding of the recursive case of `prod`. -/
theorem prod_step (l : List Nat) (f t : Nat) (h : t - f ≠ 0) :
    prod l f t =
      prod l f (t - (t - f) / 2 - 1) * prod l (t - (t - f) / 2) t := by
  rw [prod.eq_def]
  simp [h]

/-- Unfolding of the base case of `split`. -/
theorem split_base (a : Nat) (p : List Nat) (f t : Nat) (h : t - f = 0) :
    split a p f t = [ppi a (prod p f t)] := by
  rw [split.eq_def]
  simp [h]

/-- Unfolding of the recursive case of `split`. -/
theorem split_step (a : Nat) (p : List Nat) (f t : Nat) (h : t - f ≠ 0) :
    split a p f t =
      split (ppi a (prod p f t)) p f (t - (t - f) / 2 - 1) ++
      split (ppi a (prod p f t)) p (t - (t - f) / 2) t := by
  rw [split.eq_def]
  simp [h]

/-- Every in-range entry divides the balanced product of its range. -/
theorem getD_dvd_prod (l : List Nat) :
    ∀ d f t i, t - f = d → f ≤ i → i ≤ t → l.getD i 0 ∣ prod l f t := by
  intro d
  induction d using Nat.strong_induction_on with
  | _ d ih =>
    intro f t i hd hfi hit
    by_cases h0 : t - f = 0
    · have hif : i = f := by omega
      rw [prod_base l f t h0, hif]
    · rw [prod_step l f t h0]
      by_cases hmid : i ≤ t - (t - f) / 2 - 1
      · exact dvd_mul_of_dvd_left
          (ih (t - (t - f) / 2 - 1 - f) (by omega) f (t - (t - f) / 2 - 1) i
            rfl hfi hmid) _
      · exact dvd_mul_of_dvd_right
          (ih (t - (t - (t - f) / 2)) (by omega) (t - (t - f) / 2) t i
            rfl (by omega) hit) _

/-- A prime dividing a balanced product divides some in-range entry. -/
theorem prime_dvd_prod (l : List Nat) :
    ∀ d f t q, t - f = d → f ≤ t → q.Prime → q ∣ prod l f t →
    ∃ i, f ≤ i ∧ i ≤ t ∧ q ∣ l.getD i 0 := by
  intro d
  induction d using Nat.strong_induction_on with
  | _ d ih =>
    intro f t q hd hft hq hdvd
    by_cases h0 : t - f = 0
    · exact ⟨f, le_refl f, hft, by rwa [prod_base l f t h0] at hdvd⟩
    · rw [prod_step l f t h0] at hdvd
      rcases (Nat.Prime.dvd_mul hq).1 hdvd with hl | hr
      · obtain ⟨i, h1, h2, h3⟩ := ih (t - (t - f) / 2 - 1 - f) (by omega) f
          (t - (t - f) / 2 - 1) q rfl (by omega) hq hl
        exact ⟨i, h1, by omega, h3⟩
      · obtain ⟨i, h1, h2, h3⟩ := ih (t - (t - (t - f) / 2)) (by omega)
          (t - (t - f) / 2) t q rfl (by omega) hq hr
        exact ⟨i, by omega, h2, h3⟩

/-- Balanced products over index ranges whose entries are pairwise coprime
are coprime. -/
theorem coprime_prod_prod (l : List Nat) (f1 t1 f2 t2 : Nat)
    (h1 : f1 ≤ t1) (h2 : f2 ≤ t2)
    (hco : ∀ i j, f1 ≤ i → i ≤ t1 → f2 ≤ j → j ≤ t2 →
      Nat.Coprime (l.getD i 0) (l.getD j 0)) :
    Nat.Coprime (prod l f1 t1) (prod l f2 t2) := by
  apply coprime_of_primes
  intro q hq hqd hqd2
  obtain ⟨i, hi1, hi2, hdi⟩ := prime_dvd_prod l (t1 - f1) f1 t1 q rfl h1 hq hqd
  obtain ⟨j, hj1, hj2, hdj⟩ := prime_dvd_prod l (t2 - f2) f2 t2 q rfl h2 hq hqd2
  exact coprime_prime_dvd _ _ q (hco i j hi1 hi2 hj1 hj2) hq hdi hdj

/-- A balanced product of positive in-range entries is positive. -/
theorem prod_pos_of_pos (l : List Nat) :
    ∀ d f t, t - f = d → f ≤ t →
    (∀ j, f ≤ j → j ≤ t → 0 < l.getD j 0) → 0 < prod l f t := by
  intro d
  induction d using Nat.strong_induction_on with
  | _ d ih =>
    intro f t hd hft hpos
    by_cases h0 : t - f = 0
    · rw [prod_base l f t h0]
      exact hpos f (le_refl f) (by omega)
    · rw [prod_step l f t h0]
      exact Nat.mul_pos
        (ih (t - (t - f) / 2 - 1 - f) (by omega) f (t - (t - f) / 2 - 1) rfl
          (by omega) (fun j hj1 hj2 => hpos j hj1 (by omega)))
        (ih (t - (t - (t - f) / 2)) (by omega) (t - (t - f) / 2) t rfl
          (by omega) (fun j hj1 hj2 => hpos j (by omega) hj2))

/-- Main specification of `split` over an index range of a pairwise-coprime
positive base: it yields one value per index, their product is
`ppi a (prod P f t)`, and the value at offset `j` only involves primes of
`P[f + j]`. -/
theorem split_spec (P : List Nat)
    (hco : ∀ i j, i < j → j < P.length →
      Nat.Coprime (P.getD i 0) (P.getD j 0)) :
    ∀ d f t a, t - f = d → f ≤ t → t < P.length → 0 < a →
    (split a P f t).length = t + 1 - f ∧
    (split a P f t).prod = ppi a (prod P f t) ∧
    (∀ j, j < (split a P f t).length → ∀ q, q.Prime →
      q ∣ (split a P f t).getD j 0 → q ∣ P.getD (f + j) 0) := by
  intro d
  induction d using Nat.strong_induction_on with
  | _ d ih =>
    intro f t a hd hft hlen ha
    by_cases h0 : t - f = 0
    · have htf : t = f := by omega
      subst htf
      rw [split_base a P t t (by omega)]
      refine ⟨by simp only [List.length_singleton]; omega, by simp, ?_⟩
      intro j hj q hq hqd
      simp only [List.length_singleton] at hj
      have hj0 : j = 0 := by omega
      subst hj0
      have hqd2 : q ∣ ppi a (prod P t t) := by simpa using hqd
      have hqp := ppi_primes a (prod P t t) ha q hq hqd2
      rw [prod_base P t t (by omega)] at hqp
      simpa using hqp
    · have hmidlt : t - (t - f) / 2 - 1 < t := by omega
      have hmidge : f ≤ t - (t - f) / 2 - 1 := by omega
      set b := ppi a (prod P f t) with hb_def
      have hb : 0 < b := ppi_pos a (prod P f t) ha
      have ihL := ih (t - (t - f) / 2 - 1 - f) (by omega) f
        (t - (t - f) / 2 - 1) b rfl hmidge (by omega) hb
      have ihR := ih (t - (t - (t - f) / 2)) (by omega) (t - (t - f) / 2) t b
        rfl (by omega) hlen hb
      rw [split_step a P f t h0, ← hb_def]
      constructor
      · rw [List.length_append, ihL.1, ihR.1]; omega
      constructor
      · rw [List.prod_append, ihL.2.1, ihR.2.1]
        have hsplit : ppi b (prod P f (t - (t - f) / 2 - 1)) *
            ppi b (prod P (t - (t - f) / 2) t) = b := by
          apply ppi_mul_of_coprime
          · exact hb
          · intro q hq hqd
            rw [← prod_step P f t h0]
            exact ppi_primes a (prod P f t) ha q hq hqd
          · exact coprime_prod_prod P f (t - (t - f) / 2 - 1)
              (t - (t - f) / 2) t hmidge (by omega)
              (fun i j hi1 hi2 hj1 hj2 => hco i j (by omega) (by omega))
        rw [hsplit]
      · intro j hj q hq hqd
        rw [List.length_append, ihL.1, ihR.1] at hj
        by_cases hjL : j < (split b P f (t - (t - f) / 2 - 1)).length
        · rw [List.getD_append _ _ _ _ hjL] at hqd
          exact ihL.2.2 j hjL q hq hqd
        · push_neg at hjL
          rw [List.getD_append_right _ _ _ _ hjL] at hqd
          have hlenL : (split b P f (t - (t - f) / 2 - 1)).length =
              t - (t - f) / 2 - f := by rw [ihL.1]; omega
          have hidx : j - (split b P f (t - (t - f) / 2 - 1)).length <
              (split b P (t - (t - f) / 2) t).length := by
            rw [hlenL] at hjL ⊢
            rw [ihR.1]
            omega
          have := ihR.2.2 _ hidx q hq hqd
          have harith : t - (t - f) / 2 +
              (j - (split b P f (t - (t - f) / 2 - 1)).length) = f + j := by
            rw [hlenL] at hjL ⊢
            omega
          rwa [harith] at this

/-- C5 counterexample: for the positive but not pairwise-coprime base
`P = [2, 2]` and `a = 2`, `split` returns `[2, 2]`, whose product `4`
differs from `ppi 2 (prod P) = 2`, so the claim fails for arbitrary
positive `P`. -/
theorem claim_C5_counterexample :
    0 < 2 ∧ (∀ v ∈ ([2, 2] : List Nat), 0 < v) ∧ ([2, 2] : List Nat) ≠ [] ∧
    (array_split 2 [2, 2]).length = 2 ∧
    (array_split 2 [2, 2]).prod ≠ ppi 2 (array_prod [2, 2]) := by
  have hs : array_split 2 [2, 2] = [2, 2] := by
    simp [array_split, split_step, split_base, prod_step, prod_base]
    all_goals decide
  have hp : array_prod [2, 2] = 4 := by
    simp [array_prod, prod_step, prod_base]
  rw [hs, hp]
  decide

/-- C5 (amended with `P` pairwise coprime): `split a P` appends exactly
`|P|` values in positional correspondence with `P`, their product is
`ppi a (prod P)`, and the value at position `i` uses only primes of
`P[i]`. -/
theorem claim_C5 (a : Nat) (P : List Nat) (ha : 0 < a) (hne : P ≠ [])
    (_hpos : ∀ v ∈ P, 0 < v) (hco : List.Pairwise Nat.Coprime P) :
    (array_split a P).length = P.length ∧
    (array_split a P).prod = ppi a (array_prod P) ∧
    (∀ i, i < P.length → ∀ q, q.Prime →
      q ∣ (array_split a P).getD i 0 → q ∣ P.getD i 0) := by
  have hlen : 0 < P.length := List.length_pos.mpr hne
  have hco2 : ∀ i j, i < j → j < P.length →
      Nat.Coprime (P.getD i 0) (P.getD j 0) := by
    intro i j hij hj
    have hi : i < P.length := lt_trans hij hj
    rw [List.getD_eq_getElem P 0 hi, List.getD_eq_getElem P 0 hj]
    exact List.pairwise_iff_getElem.mp hco i j hi hj hij
  have h := split_spec P hco2 (P.length - 1 - 0) 0 (P.length - 1) a rfl
    (by omega) (by omega) ha
  rw [array_split, array_prod, if_pos hlen, if_pos hlen]
  refine ⟨by rw [h.1]; omega, h.2.1, ?_⟩
  intro i hi q hq hqd
  have hres := h.2.2 i (by rw [h.1]; omega) q hq hqd
  simpa using hres

/-- Witness for C5 at `a = 12`, `P = [2, 9]`. -/
theorem claim_C5_witness :
    (array_split 12 [2, 9]).length = ([2, 9] : List Nat).length ∧
    (array_split 12 [2, 9]).prod = ppi 12 (array_prod [2, 9]) ∧
    (∀ i, i < ([2, 9] : List Nat).length → ∀ q, q.Prime →
      q ∣ (array_split 12 [2, 9]).getD i 0 →
      q ∣ ([2, 9] : List Nat).getD i 0) :=
  claim_C5 12 [2, 9] (by decide) (by decide) (by decide) (by decide)

/-- `pows_seg` over a one-element range. -/
theorem pows_seg_base (P : List Nat) (e : Nat → Nat) (f : Nat) :
    pows_seg P e f f = P.getD f 0 ^ e f := by
  unfold pows_seg
  have h1 : f + 1 - f = 1 := by omega
  rw [h1]
  simp [List.range_succ]

/-- Splitting `pows_seg` at a midpoint. -/
theorem pows_seg_split (P : List Nat) (e : Nat → Nat) (f t mid : Nat)
    (hf : f ≤ mid) (hmt : mid < t) :
    pows_seg P e f t = pows_seg P e f mid * pows_seg P e (mid + 1) t := by
  unfold pows_seg
  have h1 : t + 1 - f = (mid + 1 - f) + (t - mid) := by omega
  rw [h1, List.range_add, List.map_append, List.prod_append]
  congr 1
  rw [List.map_map]
  have h2 : t + 1 - (mid + 1) = t - mid := by omega
  rw [h2]
  apply congrArg List.prod
  apply List.map_congr_left
  intro j hj
  simp only [Function.comp_apply]
  have h3 : f + (mid + 1 - f + j) = mid + 1 + j := by omega
  rw [h3]

/-- `pows_seg` over a base of entries at least 2 is positive. -/
theorem pows_seg_pos (P : List Nat) (e : Nat → Nat) (f t : Nat)
    (h2 : ∀ k, f ≤ k → k ≤ t → 2 ≤ P.getD k 0) :
    0 < pows_seg P e f t := by
  unfold pows_seg
  apply List.prod_pos
  intro x hx
  obtain ⟨j, hj, rfl⟩ := List.mem_map.1 hx
  rw [List.mem_range] at hj
  exact Nat.pos_pow_of_pos _ (by have := h2 (f + j) (by omega) (by omega); omega)

/-- A prime dividing `pows_seg P e f t` divides some in-range entry. -/
theorem prime_dvd_pows_seg (P : List Nat) (e : Nat → Nat) (f t q : Nat)
    (hq : q.Prime) (hd : q ∣ pows_seg P e f t) :
    ∃ i, f ≤ i ∧ i ≤ t ∧ q ∣ P.getD i 0 := by
  unfold pows_seg at hd
  obtain ⟨x, hx, hqx⟩ := (Nat.Prime.prime hq).dvd_prod_iff.1 hd
  obtain ⟨j, hj, rfl⟩ := List.mem_map.1 hx
  rw [List.mem_range] at hj
  exact ⟨f + j, by omega, by omega, hq.dvd_of_dvd_pow hqx⟩

/-- `reduce` applied to a perfect power of its first argument leaves
residue 1. -/
theorem pow_reduce_residue (p k : Nat) (hp : 2 ≤ p) :
    (reduce_run p (p ^ k)).2 = 1 := by
  have hpos : 0 < p ^ k := Nat.pos_pow_of_pos k (by omega)
  obtain ⟨i, c, heq, h1, h2⟩ := reduce_spec (p ^ k + 1) p (p ^ k) hp hpos
    (by omega)
  rw [reduce_run, heq]
  show c = 1
  have hik : i ≤ k := (Nat.pow_dvd_pow_iff_le_right (by omega : 1 < p)).1
    ⟨c, h1.symm⟩
  have hc : c = p ^ (k - i) := by
    apply Nat.eq_of_mul_eq_mul_left (Nat.pos_pow_of_pos i (by omega : 0 < p))
    rw [h1, ← pow_add]
    congr 1
    omega
  by_cases hki : k - i = 0
  · rw [hc, hki, pow_zero]
  · exact absurd (hc ▸ dvd_pow_self p hki) h2

/-- First projection of the `ppi_ppo` shortcut. -/
theorem ppi_ppo_fst (a b : Nat) : (ppi_ppo a b).1 = ppi a b := rfl

/-- Second projection of the `ppi_ppo` shortcut. -/
theorem ppi_ppo_snd (a b : Nat) : (ppi_ppo a b).2 = (gcd_ppi_ppo a b).2.2 := rfl

/-- On a product of powers of a pairwise-coprime segment, the `ppi`/`ppo`
decomposition with respect to the balanced product of a left sub-segment
splits the exponent product at the midpoint. -/
theorem ppi_ppo_eq_pows (P : List Nat)
    (h2 : ∀ k, k < P.length → 2 ≤ P.getD k 0)
    (hco : ∀ i j, i < j → j < P.length →
      Nat.Coprime (P.getD i 0) (P.getD j 0))
    (e : Nat → Nat) (f mid t : Nat) (hf : f ≤ mid) (hmt : mid < t)
    (hlen : t < P.length) :
    ppi (pows_seg P e f t) (prod P f mid) = pows_seg P e f mid ∧
    (gcd_ppi_ppo (pows_seg P e f t) (prod P f mid)).2.2 =
      pows_seg P e (mid + 1) t := by
  have hv : 0 < pows_seg P e f t :=
    pows_seg_pos P e f t (fun k hk1 hk2 => h2 k (by omega))
  have hvL : 0 < pows_seg P e f mid :=
    pows_seg_pos P e f mid (fun k hk1 hk2 => h2 k (by omega))
  have hsplitv : pows_seg P e f t =
      pows_seg P e f mid * pows_seg P e (mid + 1) t :=
    pows_seg_split P e f t mid hf hmt
  have hd1 : ppi (pows_seg P e f t) (prod P f mid) = pows_seg P e f mid := by
    apply pp_decomp_unique (prod P f mid) _
      ((gcd_ppi_ppo (pows_seg P e f t) (prod P f mid)).2.2)
      (pows_seg P e f mid) (pows_seg P e (mid + 1) t)
    · rw [ppi_mul_ppo _ _ hv]; exact hv
    · rw [ppi_mul_ppo _ _ hv]; exact hsplitv
    · exact ppi_primes _ _ hv
    · exact ppo_coprime _ _ hv
    · intro q hq hqd
      obtain ⟨i, hi1, hi2, hqi⟩ := prime_dvd_pows_seg P e f mid q hq hqd
      exact dvd_trans hqi (getD_dvd_prod P (mid - f) f mid i rfl hi1 hi2)
    · apply coprime_of_primes
      intro q hq hqR hqy
      obtain ⟨i2, hi21, hi22, hq2⟩ :=
        prime_dvd_pows_seg P e (mid + 1) t q hq hqR
      obtain ⟨i1, hi11, hi12, hq1⟩ :=
        prime_dvd_prod P (mid - f) f mid q rfl hf hq hqy
      exact coprime_prime_dvd _ _ q (hco i1 i2 (by omega) (by omega)) hq hq1 hq2
  refine ⟨hd1, ?_⟩
  have hmul := ppi_mul_ppo (pows_seg P e f t) (prod P f mid) hv
  rw [hd1] at hmul
  nth_rewrite 2 [hsplitv] at hmul
  exact Nat.eq_of_mul_eq_mul_left hvL hmul

/-- Main specification of `find_factor` on a value that is a product of
powers of a pairwise-coprime base segment of entries at least 2: the result
is `true` exactly when every segment entry equals the original value `a0`,
and the output array consists of `(a0, p, a0 / p)` triples for segment
entries `p ≠ a0`. -/
theorem find_factor_spec (P : List Nat)
    (h2 : ∀ k, k < P.length → 2 ≤ P.getD k 0)
    (hco : ∀ i j, i < j → j < P.length →
      Nat.Coprime (P.getD i 0) (P.getD j 0))
    (a0 : Nat) :
    ∀ d f t, t - f = d → f ≤ t → t < P.length → ∀ e : Nat → Nat,
    ((find_factor a0 (pows_seg P e f t) P f t).2 = true ↔
      (∀ i, f ≤ i → i ≤ t → P.getD i 0 = a0)) ∧
    ∃ ps : List Nat,
      (∀ x ∈ ps, (∃ i, f ≤ i ∧ i ≤ t ∧ x = P.getD i 0) ∧ x ≠ a0) ∧
      (find_factor a0 (pows_seg P e f t) P f t).1 =
        ps.flatMap (fun x => [a0, x, a0 / x]) := by
  intro d
  induction d using Nat.strong_induction_on with
  | _ d ih =>
    intro f t hd hft hlen e
    by_cases h0 : t - f = 0
    · have htf : t = f := by omega
      subst htf
      have hp2 : 2 ≤ P.getD t 0 := h2 t hlen
      have hres : (reduce_run (P.getD t 0) (pows_seg P e t t)).2 = 1 := by
        rw [pows_seg_base]; exact pow_reduce_residue _ _ hp2
      rw [find_factor_base a0 _ P t t (by omega),
        if_neg (fun hcon => hcon hres)]
      by_cases ha0 : a0 = P.getD t 0
      · rw [if_neg (fun hcon => hcon ha0)]
        refine ⟨⟨fun _ i hi1 hi2 => ?_, fun _ => rfl⟩, [], by simp, by simp⟩
        have hit : i = t := by omega
        rw [hit, ← ha0]
      · rw [if_pos ha0]
        constructor
        · constructor
          · intro hcon; simp at hcon
          · intro hall
            exact absurd (hall t (le_refl t) (le_refl t)).symm ha0
        · refine ⟨[P.getD t 0], ?_, by simp [List.flatMap]⟩
          intro x hx
          have hxe : x = P.getD t 0 := by simpa using hx
          exact ⟨⟨t, le_refl t, le_refl t, hxe⟩,
            fun hxa => ha0 (hxa ▸ hxe.symm).symm⟩
    · have hmid1 : f ≤ t - (t - f) / 2 - 1 := by omega
      have hmid2 : t - (t - f) / 2 - 1 < t := by omega
      have hdec := ppi_ppo_eq_pows P h2 hco e f (t - (t - f) / 2 - 1) t
        hmid1 hmid2 hlen
      have hplus : (t - (t - f) / 2 - 1) + 1 = t - (t - f) / 2 := by omega
      have hdec2 := hdec.2
      rw [hplus] at hdec2
      obtain ⟨iffL, psL, hpsL1, hpsL2⟩ :=
        ih (t - (t - f) / 2 - 1 - f) (by omega) f (t - (t - f) / 2 - 1) rfl
          hmid1 (by omega) e
      obtain ⟨iffR, psR, hpsR1, hpsR2⟩ :=
        ih (t - (t - (t - f) / 2)) (by omega) (t - (t - f) / 2) t rfl
          (by omega) hlen e
      rw [find_factor_step a0 _ P f t h0]
      simp only []
      rw [ppi_ppo_fst, ppi_ppo_snd, hdec.1, hdec2]
      by_cases hbL : (find_factor a0
          (pows_seg P e f (t - (t - f) / 2 - 1)) P f
          (t - (t - f) / 2 - 1)).2 = false
      · rw [if_pos hbL]
        constructor
        · constructor
          · intro hcon; simp at hcon
          · intro hall
            have hLt : (find_factor a0
                (pows_seg P e f (t - (t - f) / 2 - 1)) P f
                (t - (t - f) / 2 - 1)).2 = true :=
              iffL.mpr (fun i hi1 hi2 => hall i hi1 (by omega))
            rw [hbL] at hLt
            simp at hLt
        · refine ⟨psL, ?_, by simpa using hpsL2⟩
          intro x hx
          obtain ⟨⟨i, hi1, hi2, hxi⟩, hxa⟩ := hpsL1 x hx
          exact ⟨⟨i, hi1, by omega, hxi⟩, hxa⟩
      · rw [if_neg hbL]
        have hbLt : (find_factor a0
            (pows_seg P e f (t - (t - f) / 2 - 1)) P f
            (t - (t - f) / 2 - 1)).2 = true := by
          cases hb2 : (find_factor a0
              (pows_seg P e f (t - (t - f) / 2 - 1)) P f
              (t - (t - f) / 2 - 1)).2
          · exact absurd hb2 hbL
          · rfl
        constructor
        · constructor
          · intro hR2
            have hallR := iffR.mp (by simpa using hR2)
            have hallL := iffL.mp hbLt
            intro i hi1 hi2
            by_cases hiM : i ≤ t - (t - f) / 2 - 1
            · exact hallL i hi1 hiM
            · exact hallR i (by omega) hi2
          · intro hall
            show (find_factor a0 (pows_seg P e (t - (t - f) / 2) t) P
              (t - (t - f) / 2) t).2 = true
            exact iffR.mpr (fun i hi1 hi2 => hall i (by omega) hi2)
        · refine ⟨psL ++ psR, ?_, ?_⟩
          · intro x hx
            rcases List.mem_append.1 hx with h | h
            · obtain ⟨⟨i, hi1, hi2, hxi⟩, hxa⟩ := hpsL1 x h
              exact ⟨⟨i, hi1, by omega, hxi⟩, hxa⟩
            · obtain ⟨⟨i, hi1, hi2, hxi⟩, hxa⟩ := hpsR1 x h
              exact ⟨⟨i, by omega, hi2, hxi⟩, hxa⟩
          · show (find_factor a0 (pows_seg P e f (t - (t - f) / 2 - 1)) P f
                (t - (t - f) / 2 - 1)).1 ++
              (find_factor a0 (pows_seg P e (t - (t - f) / 2) t) P
                (t - (t - f) / 2) t).1 =
              (psL ++ psR).flatMap (fun x => [a0, x, a0 / x])
            rw [List.flatMap_append, hpsL2, hpsR2]

/-- C2 counterexample: `6 = 2^1 * 3^1` factors over the pairwise-coprime
base `[2, 3]` of entries at least 2, yet `find_factor 6 6 [2, 3]` emits the
triple `(6, 2, 3)` and returns `false`, refuting "returns true". -/
theorem claim_C2_counterexample :
    (∀ v ∈ ([2, 3] : List Nat), 2 ≤ v) ∧
    List.Pairwise Nat.Coprime [2, 3] ∧
    6 = 2 ^ 1 * 3 ^ 1 ∧
    (find_factor 6 6 [2, 3] 0 1).2 = false ∧
    (find_factor 6 6 [2, 3] 0 1).1 = [6, 2, 3] := by
  have hval : find_factor 6 6 [2, 3] 0 1 = ([6, 2, 3], false) := by
    simp [find_factor_step, find_factor_base, prod_base, prod_step]
    all_goals decide
  refine ⟨by decide, by decide, by decide, by rw [hval], by rw [hval]⟩

/-- C2 (amended): over a pairwise-coprime base `P` of entries at least 2,
with `a` a product of powers of all of `P`, `find_factor a a P` returns
`true` exactly when `P = [a]`; in general it returns `false` and the output
array is a concatenation of triples `(a, p, a / p)` for base elements
`p ≠ a` — each a genuine non-trivial factorisation of `a` whenever `p`
divides `a`. -/
theorem claim_C2 (a : Nat) (P : List Nat) (e : Nat → Nat) (hne : P ≠ [])
    (h2 : ∀ v ∈ P, 2 ≤ v) (hco : List.Pairwise Nat.Coprime P)
    (ha : a = pows_seg P e 0 (P.length - 1)) :
    ((find_factor a a P 0 (P.length - 1)).2 = true ↔ P = [a]) ∧
    ∃ ps : List Nat,
      (∀ x ∈ ps, x ∈ P ∧ x ≠ a) ∧
      (find_factor a a P 0 (P.length - 1)).1 =
        ps.flatMap (fun x => [a, x, a / x]) ∧
      (∀ x ∈ ps, x ∣ a → a = x * (a / x) ∧ 1 < x ∧ x < a) := by
  have hlen : 0 < P.length := List.length_pos.mpr hne
  have h2i : ∀ k, k < P.length → 2 ≤ P.getD k 0 := by
    intro k hk
    rw [List.getD_eq_getElem P 0 hk]
    exact h2 _ (List.getElem_mem hk)
  have hco2 : ∀ i j, i < j → j < P.length →
      Nat.Coprime (P.getD i 0) (P.getD j 0) := by
    intro i j hij hj
    have hi : i < P.length := lt_trans hij hj
    rw [List.getD_eq_getElem P 0 hi, List.getD_eq_getElem P 0 hj]
    exact List.pairwise_iff_getElem.mp hco i j hi hj hij
  have hspec := find_factor_spec P h2i hco2 a (P.length - 1 - 0) 0
    (P.length - 1) rfl (by omega) (by omega) e
  rw [← ha] at hspec
  obtain ⟨hiff, ps, hps1, hps2⟩ := hspec
  have hapos : 0 < a := by
    rw [ha]
    exact pows_seg_pos P e 0 (P.length - 1) (fun k hk1 hk2 => h2i k (by omega))
  constructor
  · rw [hiff]
    constructor
    · intro hall
      have hlen1 : P.length = 1 := by
        by_contra hl
        have h01 : P.getD 0 0 = a := hall 0 (by omega) (by omega)
        have h11 : P.getD 1 0 = a := hall 1 (by omega) (by omega)
        have hcop := hco2 0 1 (by omega) (by omega)
        rw [h01, h11] at hcop
        have ha1 : a = 1 := by
          rw [Nat.Coprime, Nat.gcd_self] at hcop
          exact hcop
        have h2a : 2 ≤ a := h01 ▸ h2i 0 (by omega)
        omega
      obtain ⟨x, hx⟩ := List.length_eq_one.mp hlen1
      have hx0 : P.getD 0 0 = a := hall 0 (by omega) (by omega)
      rw [hx] at hx0 ⊢
      simp only [List.getD] at hx0
      simp at hx0
      rw [hx0]
    · intro hPa i hi1 hi2
      have hi0 : i = 0 := by
        rw [hPa] at hi2
        simp at hi2
        omega
      rw [hi0, hPa]
      simp
  · refine ⟨ps, ?_, hps2, ?_⟩
    · intro x hx
      obtain ⟨⟨i, hi1, hi2, hxi⟩, hxa⟩ := hps1 x hx
      refine ⟨?_, hxa⟩
      rw [hxi, List.getD_eq_getElem P 0 (by omega)]
      exact List.getElem_mem _
    · intro x hx hdvd
      obtain ⟨⟨i, hi1, hi2, hxi⟩, hxa⟩ := hps1 x hx
      have hx2 : 2 ≤ x := by rw [hxi]; exact h2i i (by omega)
      exact ⟨(Nat.mul_div_cancel' hdvd).symm, by omega,
        Nat.lt_of_le_of_ne (Nat.le_of_dvd hapos hdvd) hxa⟩

/-- Witness for C2 at `a = 6`, `P = [2, 3]`, exponents all 1. -/
theorem claim_C2_witness :
    ((find_factor 6 6 [2, 3] 0 1).2 = true ↔ ([2, 3] : List Nat) = [6]) ∧
    ∃ ps : List Nat,
      (∀ x ∈ ps, x ∈ ([2, 3] : List Nat) ∧ x ≠ 6) ∧
      (find_factor 6 6 [2, 3] 0 1).1 = ps.flatMap (fun x => [6, x, 6 / x]) ∧
      (∀ x ∈ ps, x ∣ 6 → 6 = x * (6 / x) ∧ 1 < x ∧ x < 6) :=
  claim_C2 6 [2, 3] (fun _ => 1) (by decide) (by decide) (by decide)
    (by decide)

/-- Characterisation of the do-while loop choosing `b` in `cbmerge`:
`find_b_loop n b` is the least `c > b` with `n ≤ 2 ^ c`. -/
theorem find_b_loop_spec (n : Nat) : ∀ d b, n - 2 ^ b = d →
    n ≤ 2 ^ find_b_loop n b ∧ b + 1 ≤ find_b_loop n b ∧
    (∀ c, b + 1 ≤ c → n ≤ 2 ^ c → find_b_loop n b ≤ c) := by
  intro d
  induction d using Nat.strong_induction_on with
  | _ d ih =>
    intro b hd
    by_cases hc : 2 ^ (b + 1) < n
    · rw [find_b_loop.eq_def, if_pos hc]
      have h2 : 2 ^ b < 2 ^ (b + 1) := Nat.pow_lt_pow_succ (by norm_num)
      obtain ⟨h1, h2b, h3⟩ := ih (n - 2 ^ (b + 1)) (by omega) (b + 1) rfl
      refine ⟨h1, by omega, ?_⟩
      intro c hc1 hcn
      have hcb : b + 2 ≤ c := by
        by_contra hcc
        have hcb1 : c = b + 1 := by omega
        rw [hcb1] at hcn
        omega
      exact h3 c hcb hcn
    · rw [find_b_loop.eq_def, if_neg hc]
      exact ⟨by omega, le_refl _, fun c hc1 _ => hc1⟩

/-- `gcd_ppi_ppo` applied to `a = 1` returns `(1, 1, 1)`. -/
theorem gcd_ppi_ppo_one (x : Nat) : gcd_ppi_ppo 1 x = (1, 1, 1) := by
  simp only [gcd_ppi_ppo]
  rw [Nat.gcd_one_left]
  decide

/-- `ppi 1 x = 1`. -/
theorem ppi_one (x : Nat) : ppi 1 x = 1 := by
  rw [ppi, gcd_ppi_ppo_one]

/-- `split` of the value 1 over any range yields a list of 1s (note: this is
precisely how 1s enter output arrays through `split`). -/
theorem split_one (P : List Nat) : ∀ d f t, t - f = d → f ≤ t →
    split 1 P f t = List.replicate (t + 1 - f) 1 := by
  intro d
  induction d using Nat.strong_induction_on with
  | _ d ih =>
    intro f t hd hft
    by_cases h0 : t - f = 0
    · rw [split_base 1 P f t h0, ppi_one]
      have h1 : t + 1 - f = 1 := by omega
      rw [h1]
      rfl
    · rw [split_step 1 P f t h0, ppi_one,
        ih (t - (t - f) / 2 - 1 - f) (by omega) f (t - (t - f) / 2 - 1) rfl
          (by omega),
        ih (t - (t - (t - f) / 2)) (by omega) (t - (t - f) / 2) t rfl
          (by omega),
        ← List.replicate_add]
      congr 1
      omega

/-- `append_cb` with second argument 1 and positive fuel appends exactly its
first argument, when that differs from 1. -/
theorem append_cb_one (fuel a : Nat) (hf : 0 < fuel) (ha : a ≠ 1) :
    append_cb fuel a 1 = some [a] := by
  cases fuel with
  | zero => omega
  | succ fuel => simp [append_cb, ha]

/-- Folding `append_cb` over pairs `(p, 1)` with positive fuel reproduces
the list of first components. -/
theorem append_cb_list_ones (fuel : Nat) (hf : 0 < fuel) :
    ∀ l : List Nat, 1 ∉ l →
    append_cb_list fuel (l.zip (List.replicate l.length 1)) = some l := by
  intro l
  induction l with
  | nil => intro _; rfl
  | cons a l ihl =>
    intro h1
    have ha : a ≠ 1 := fun hcon => h1 (by rw [hcon]; exact List.mem_cons_self 1 l)
    have hl : 1 ∉ l := fun hcon => h1 (List.mem_cons_of_mem a hcon)
    rw [List.length_cons, List.replicate_succ, List.zip_cons_cons]
    simp [append_cb_list, append_cb_one fuel a hf ha, ihl hl]

/-- `cbextend` by the value 1 with positive fuel reproduces the base `P`
when `P` does not contain 1: nothing new is printed and each `(P[i], 1)`
pair reduces to re-appending `P[i]`. -/
theorem cbextend_one (fuel : Nat) (P : List Nat) (hf : 0 < fuel)
    (h1 : 1 ∉ P) : cbextend fuel P 1 = some P := by
  by_cases hP : P = []
  · subst hP; rfl
  · have hlen : 0 < P.length := List.length_pos.mpr hP
    have har : ppi_ppo 1 (array_prod P) = (1, 1) := by
      rw [ppi_ppo, gcd_ppi_ppo_one]
    have hsplit : array_split 1 P = List.replicate P.length 1 := by
      rw [array_split, if_pos hlen,
        split_one P (P.length - 1 - 0) 0 (P.length - 1) rfl (by omega)]
      congr 1
      omega
    simp only [cbextend]
    rw [har, hsplit]
    simp [hP, append_cb_list_ones fuel hf P h1]

/-- One unrolling of the `cbmerge` loop. -/
theorem cbmerge_loop_succ (fuel : Nat) (q : List Nat) (i rem : Nat)
    (s : List Nat) :
    cbmerge_loop fuel q i (rem + 1) s =
      (match cbextend fuel s (array_prod (select_bits q i 0)) with
       | none => none
       | some t =>
         match cbextend fuel t (array_prod (select_bits q i 1)) with
         | none => none
         | some s2 => cbmerge_loop fuel q (i + 1) rem s2) := rfl

/-- The `cbmerge` loop at its exit test. -/
theorem cbmerge_loop_zero (fuel : Nat) (q : List Nat) (i : Nat)
    (s : List Nat) : cbmerge_loop fuel q i 0 s = some s := rfl

/-- `cbmerge` with empty `Q` runs one degenerate round (since the chosen
iteration count is 1, not 0) and reproduces `P`. -/
theorem cbmerge_empty (fuel : Nat) (P : List Nat) (hf : 0 < fuel)
    (h1 : 1 ∉ P) : cbmerge fuel P [] = some P := by
  have hfb : find_b 0 = 1 := by
    rw [find_b, find_b_loop.eq_def]
    norm_num
  have hsel : ∀ v, select_bits [] 0 v = [] := fun v => by simp [select_bits]
  show cbmerge_loop fuel [] 0 (find_b 0) P = some P
  rw [hfb, cbmerge_loop_succ, hsel 0, hsel 1,
    show array_prod ([] : List Nat) = 1 from rfl,
    cbextend_one fuel P hf h1]
  simp [cbextend_one fuel P hf h1, cbmerge_loop_zero]

/-- C9 counterexample: the iteration count chosen for `n = 0` is 1, not 0
(the do-while body runs at least once). -/
theorem claim_C9_counterexample : find_b 0 = 1 ∧ find_b 0 ≠ 0 := by
  have h : find_b 0 = 1 := by
    rw [find_b, find_b_loop.eq_def]
    norm_num
  exact ⟨h, by omega⟩

/-- C9 (amended): `b` is the smallest integer `b ≥ 1` with `2^b ≥ n` for
every `n` including `n = 0`, where `b = 1` (not 0); the single degenerate
round for empty `Q` still reproduces `P` (for bases not containing 1, as
all coprime bases are). -/
theorem claim_C9 :
    (∀ n, 1 ≤ find_b n ∧ n ≤ 2 ^ find_b n ∧
      ∀ c, 1 ≤ c → n ≤ 2 ^ c → find_b n ≤ c) ∧
    find_b 0 = 1 ∧
    (∀ fuel P, 0 < fuel → 1 ∉ P → cbmerge fuel P [] = some P) := by
  refine ⟨?_, ?_, fun fuel P hf h1 => cbmerge_empty fuel P hf h1⟩
  · intro n
    obtain ⟨h1, h2, h3⟩ := find_b_loop_spec n (n - 2 ^ 0) 0 rfl
    exact ⟨h2, h1, fun c hc1 hc2 => h3 c hc1 hc2⟩
  · rw [find_b, find_b_loop.eq_def]
    norm_num

/-- Witness for C9 at `n = 5` and the degenerate merge at `P = [2, 3]`. -/
theorem claim_C9_witness :
    (1 ≤ find_b 5 ∧ 5 ≤ 2 ^ find_b 5 ∧
      ∀ c, 1 ≤ c → 5 ≤ 2 ^ c → find_b 5 ≤ c) ∧
    cbmerge 1 [2, 3] [] = some [2, 3] :=
  ⟨claim_C9.1 5, claim_C9.2.2 1 [2, 3] (by decide) (by decide)⟩

/-- Unfolding of `append_cb` at positive fuel. -/
theorem append_cb_succ (fuel a b : Nat) :
    append_cb (fuel + 1) a b =
      if b = 1 then some (if a ≠ 1 then [a] else [])
      else
        match append_cb_loop fuel b (gcd_ppg_pple (ppi_ppo a b).1 b).1
            (gcd_ppg_pple (ppi_ppo a b).1 b).2.1
            (gcd_ppg_pple (ppi_ppo a b).1 b).2.2 1 with
        | none => none
        | some er =>
          match append_cb fuel (b / er.2)
              (gcd_ppg_pple (ppi_ppo a b).1 b).2.2 with
          | none => none
          | some e3 =>
            some ((if (ppi_ppo a b).2 ≠ 1 then [(ppi_ppo a b).2] else []) ++
              er.1 ++ e3) := by
  simp only [append_cb]

/-- Unfolding of `append_cb_loop` at positive fuel. -/
theorem append_cb_loop_succ (fuel b g h x n : Nat) :
    append_cb_loop (fuel + 1) b g h x n =
      (match append_cb fuel
          ((gcd_ppg_pple h (g * g)).2.2 /
            two_power (Nat.gcd (gcd_ppg_pple h (g * g)).2.2 b) (n - 1))
          (Nat.gcd (gcd_ppg_pple h (g * g)).2.2 b) with
       | none => none
       | some e =>
         if (gcd_ppg_pple h (g * g)).2.1 = 1 then
           some (e, x * Nat.gcd (gcd_ppg_pple h (g * g)).2.2 b)
         else
           match append_cb_loop fuel b (gcd_ppg_pple h (g * g)).1
               (gcd_ppg_pple h (g * g)).2.1
               (x * Nat.gcd (gcd_ppg_pple h (g * g)).2.2 b) (n + 1) with
           | none => none
           | some er => some (e ++ er.1, er.2)) := by
  simp only [append_cb_loop]

/-- Neither `append_cb` nor its loop ever appends the value 1: every
`array_add` site in them is guarded by a comparison against 1. -/
theorem append_cb_no_one : ∀ fuel : Nat,
    (∀ a b l, append_cb fuel a b = some l → 1 ∉ l) ∧
    (∀ b g h x n r, append_cb_loop fuel b g h x n = some r → 1 ∉ r.1) := by
  intro fuel
  induction fuel with
  | zero =>
    constructor
    · intro a b l hl; simp [append_cb] at hl
    · intro b g h x n r hr; simp [append_cb_loop] at hr
  | succ fuel ih =>
    constructor
    · intro a b l hl
      rw [append_cb_succ] at hl
      by_cases hb : b = 1
      · rw [if_pos hb] at hl
        have hl2 := Option.some.inj hl
        intro hmem
        rw [← hl2] at hmem
        by_cases ha : a = 1
        · simp [ha] at hmem
        · simp [ha] at hmem
          exact ha hmem.symm
      · rw [if_neg hb] at hl
        split at hl
        · exact absurd hl (by simp)
        · rename_i er hloop
          split at hl
          · exact absurd hl (by simp)
          · rename_i e3 hrec
            have hl2 := Option.some.inj hl
            intro hmem
            rw [← hl2] at hmem
            rcases List.mem_append.1 hmem with hm | hm
            · rcases List.mem_append.1 hm with hm2 | hm2
              · by_cases hr1 : (ppi_ppo a b).2 = 1
                · simp [hr1] at hm2
                · simp [hr1] at hm2
                  exact hr1 hm2.symm
              · exact ih.2 _ _ _ _ _ _ hloop hm2
            · exact ih.1 _ _ _ hrec hm
    · intro b g h x n r hr
      rw [append_cb_loop_succ] at hr
      split at hr
      · exact absurd hr (by simp)
      · rename_i e hrec
        split at hr
        · have hr2 := Option.some.inj hr
          intro hmem
          rw [← hr2] at hmem
          exact ih.1 _ _ _ hrec hmem
        · split at hr
          · exact absurd hr (by simp)
          · rename_i er hloop
            have hr2 := Option.some.inj hr
            intro hmem
            rw [← hr2] at hmem
            rcases List.mem_append.1 hmem with hm | hm
            · exact ih.1 _ _ _ hrec hm
            · exact ih.2 _ _ _ _ _ _ hloop hm

/-- `append_cb_list` never produces a list containing 1. -/
theorem append_cb_list_no_one (fuel : Nat) :
    ∀ ps l, append_cb_list fuel ps = some l → 1 ∉ l := by
  intro ps
  induction ps with
  | nil =>
    intro l hl
    have hl2 := Option.some.inj hl
    rw [← hl2]
    simp
  | cons pc rest ihr =>
    intro l hl
    rw [append_cb_list] at hl
    split at hl
    · exact absurd hl (by simp)
    · rename_i e hrec
      split at hl
      · exact absurd hl (by simp)
      · rename_i es hrest
        have hl2 := Option.some.inj hl
        intro hmem
        rw [← hl2] at hmem
        rcases List.mem_append.1 hmem with hm | hm
        · exact (append_cb_no_one fuel).1 _ _ _ hrec hm
        · exact ihr _ hrest hm

/-- `cbextend` never appends the value 1. -/
theorem cbextend_no_one (fuel : Nat) (p : List Nat) (b : Nat) (l : List Nat)
    (hl : cbextend fuel p b = some l) : 1 ∉ l := by
  rw [cbextend] at hl
  split at hl
  · have hl2 := Option.some.inj hl
    intro hmem
    rw [← hl2] at hmem
    rcases List.mem_append.1 hmem with hm | hm
    · by_cases hp : p.length = 0
      · simp only [hp, if_pos] at hm
        by_cases hb : b = 1
        · simp [hb] at hm
        · simp [hb] at hm
          exact hb hm.symm
      · simp [hp] at hm
    · by_cases hr : (ppi_ppo b (array_prod p)).2 = 1
      · simp [hr] at hm
      · simp [hr] at hm
        exact hr hm.symm
  · split at hl
    · exact absurd hl (by simp)
    · rename_i e3 hlist
      have hl2 := Option.some.inj hl
      intro hmem
      rw [← hl2] at hmem
      rcases List.mem_append.1 hmem with hm | hm
      · rcases List.mem_append.1 hm with hm2 | hm2
        · by_cases hp : p.length = 0
          · simp only [hp, if_pos] at hm2
            by_cases hb : b = 1
            · simp [hb] at hm2
            · simp [hb] at hm2
              exact hb hm2.symm
          · simp [hp] at hm2
        · by_cases hr : (ppi_ppo b (array_prod p)).2 = 1
          · simp [hr] at hm2
          · simp [hr] at hm2
            exact hr hm2.symm
      · exact append_cb_list_no_one fuel _ _ hlist hm

/-- The `cbmerge` loop preserves absence of 1. -/
theorem cbmerge_loop_no_one (fuel : Nat) (q : List Nat) :
    ∀ rem i s out, cbmerge_loop fuel q i rem s = some out → 1 ∉ s →
    1 ∉ out := by
  intro rem
  induction rem with
  | zero =>
    intro i s out hout hs
    rw [cbmerge_loop_zero] at hout
    rw [← Option.some.inj hout]
    exact hs
  | succ rem ihr =>
    intro i s out hout hs
    rw [cbmerge_loop_succ] at hout
    split at hout
    · exact absurd hout (by simp)
    · rename_i t ht
      split at hout
      · exact absurd hout (by simp)
      · rename_i s2 hs2
        exact ihr _ _ _ hout (cbextend_no_one fuel t _ s2 hs2)

/-- `cbmerge` never appends 1 when the first base is free of 1. -/
theorem cbmerge_no_one (fuel : Nat) (p q out : List Nat)
    (hout : cbmerge fuel p q = some out) (hp : 1 ∉ p) : 1 ∉ out :=
  cbmerge_loop_no_one fuel q _ _ _ _ hout hp

/-- Unfolding of the base case of `cb`. -/
theorem cb_base (fuel : Nat) (s : List Nat) (f t : Nat) (h : t - f = 0) :
    cb fuel s f t =
      some (if s.getD f 0 = 0 then []
        else if s.getD f 0 ≠ 1 then [s.getD f 0] else []) := by
  rw [cb.eq_def]
  simp [h]

/-- Unfolding of the recursive case of `cb`. -/
theorem cb_step (fuel : Nat) (s : List Nat) (f t : Nat) (h : t - f ≠ 0) :
    cb fuel s f t =
      (match cb fuel s f (t - (t - f) / 2 - 1) with
       | none => none
       | some p =>
         match cb fuel s (t - (t - f) / 2) t with
         | none => none
         | some q =>
           if q.length ≠ 0 ∧ p.length ≠ 0 then cbmerge fuel p q
           else if q.length = 0 ∧ p.length ≠ 0 then some p
           else if q.length ≠ 0 ∧ p.length = 0 then some q
           else some []) := by
  rw [cb.eq_def]
  simp [h]

/-- `cb` never appends the value 1 to its output. -/
theorem cb_no_one (fuel : Nat) (s : List Nat) :
    ∀ d f t out, t - f = d → cb fuel s f t = some out → 1 ∉ out := by
  intro d
  induction d using Nat.strong_induction_on with
  | _ d ih =>
    intro f t out hd hout
    by_cases h0 : t - f = 0
    · rw [cb_base fuel s f t h0] at hout
      have h2 := Option.some.inj hout
      intro hmem
      rw [← h2] at hmem
      by_cases hz : s.getD f 0 = 0
      · rw [if_pos hz] at hmem
        simp at hmem
      · rw [if_neg hz] at hmem
        by_cases h1 : s.getD f 0 = 1
        · rw [if_neg (fun hc => hc h1)] at hmem
          simp at hmem
        · rw [if_pos h1] at hmem
          rw [List.mem_singleton] at hmem
          exact h1 hmem.symm
    · rw [cb_step fuel s f t h0] at hout
      split at hout
      · exact absurd hout (by simp)
      · rename_i p hp
        split at hout
        · exact absurd hout (by simp)
        · rename_i q hq
          have hpn : 1 ∉ p :=
            ih (t - (t - f) / 2 - 1 - f) (by omega) f (t - (t - f) / 2 - 1) p
              rfl hp
          have hqn : 1 ∉ q :=
            ih (t - (t - (t - f) / 2)) (by omega) (t - (t - f) / 2) t q rfl hq
          split at hout
          · exact cbmerge_no_one fuel p q out hout hpn
          · split at hout
            · rw [← Option.some.inj hout]; exact hpn
            · split at hout
              · rw [← Option.some.inj hout]; exact hqn
              · rw [← Option.some.inj hout]; simp

/-- Every value `split` appends is at least 1 when its input is positive. -/
theorem split_ge_one (P : List Nat) :
    ∀ d f t a, t - f = d → 0 < a → ∀ v ∈ split a P f t, 1 ≤ v := by
  intro d
  induction d using Nat.strong_induction_on with
  | _ d ih =>
    intro f t a hd ha v hv
    by_cases h0 : t - f = 0
    · rw [split_base a P f t h0] at hv
      have hv2 : v = ppi a (prod P f t) := by simpa using hv
      rw [hv2]
      exact ppi_pos a (prod P f t) ha
    · rw [split_step a P f t h0] at hv
      have hb : 0 < ppi a (prod P f t) := ppi_pos a (prod P f t) ha
      rcases List.mem_append.1 hv with hm | hm
      · exact ih (t - (t - f) / 2 - 1 - f) (by omega) f (t - (t - f) / 2 - 1)
          _ rfl hb v hm
      · exact ih (t - (t - (t - f) / 2)) (by omega) (t - (t - f) / 2) t _ rfl
          hb v hm

/-- C8 counterexample: `split` does append the value 1 — e.g. splitting
`a = 1` over the base `[2]` appends exactly `[1]` (this is reachable:
`cbextend` calls `split` with `a = ppi(b, prod P)`, which is 1 whenever `b`
shares no factor with `P`). -/
theorem claim_C8_counterexample : array_split 1 [2] = [1] := by
  rw [array_split, if_pos (show ([2] : List Nat).length > 0 by norm_num)]
  show split 1 [2] 0 0 = [1]
  rw [split_one [2] 0 0 0 rfl (by omega)]
  rfl

/-- C8 (amended): `append_cb`, `cbextend` and `cb` never append the value 1
to an output array (every add is guarded); `split` appends only values at
least 1 when its input value is positive, but among them the value 1 can
occur. -/
theorem claim_C8 :
    (∀ fuel a b l, append_cb fuel a b = some l → 1 ∉ l) ∧
    (∀ fuel p b l, cbextend fuel p b = some l → 1 ∉ l) ∧
    (∀ fuel s f t out, cb fuel s f t = some out → 1 ∉ out) ∧
    (∀ a P f t, 0 < a → ∀ v ∈ split a P f t, 1 ≤ v) :=
  ⟨fun fuel a b l hl => (append_cb_no_one fuel).1 a b l hl,
   fun fuel p b l hl => cbextend_no_one fuel p b l hl,
   fun fuel s f t out hout => cb_no_one fuel s (t - f) f t out rfl hout,
   fun a P f t ha v hv => split_ge_one P (t - f) f t a rfl ha v hv⟩

/-- Witness for C8: the `cbextend` part at the empty base with `b = 2` and
the `split` part at `a = 5`, `P = [2]`. -/
theorem claim_C8_witness :
    (1 ∉ ([2, 2] : List Nat)) ∧ (∀ v ∈ split 5 [2] 0 0, 1 ≤ v) :=
  ⟨claim_C8.2.1 0 [] 2 [2, 2] rfl,
   claim_C8.2.2.2 5 [2] 0 0 (by decide)⟩

/-- Factorisation extensionality: two positive naturals with the same
exponent at every prime are equal. -/
theorem fact_ext (m n : Nat) (hm : m ≠ 0) (hn : n ≠ 0)
    (h : ∀ q, q.Prime → m.factorization q = n.factorization q) : m = n := by
  apply Nat.eq_of_factorization_eq hm hn
  intro p
  by_cases hp : p.Prime
  · exact h p hp
  · rw [Nat.factorization_eq_zero_of_non_prime m hp,
      Nat.factorization_eq_zero_of_non_prime n hp]

/-- A prime divides a positive natural exactly when its exponent is
positive. -/
theorem fact_pos_iff (n q : Nat) (hn : n ≠ 0) (hq : q.Prime) :
    q ∣ n ↔ 0 < n.factorization q := by
  constructor
  · exact fun h => Nat.Prime.factorization_pos_of_dvd hq hn h
  · intro h
    by_contra hd
    have h0 : n.factorization q = 0 :=
      (Nat.factorization_eq_zero_iff n q).mpr (Or.inr (Or.inl hd))
    omega

/-- Divisibility follows from pointwise domination of prime exponents. -/
theorem dvd_of_fact_le (m n : Nat) (hm : m ≠ 0) (hn : n ≠ 0)
    (h : ∀ q, q.Prime → m.factorization q ≤ n.factorization q) : m ∣ n := by
  rw [← Nat.factorization_le_iff_dvd hm hn, Finsupp.le_def]
  intro p
  by_cases hp : p.Prime
  · exact h p hp
  · rw [Nat.factorization_eq_zero_of_non_prime m hp]
    exact Nat.zero_le _

/-- Prime exponents of a product add. -/
theorem fact_mul_apply (m n q : Nat) (hm : m ≠ 0) (hn : n ≠ 0) :
    (m * n).factorization q = m.factorization q + n.factorization q := by
  rw [Nat.factorization_mul hm hn, Finsupp.add_apply]

/-- Prime exponents of a gcd are pointwise minima. -/
theorem fact_gcd_apply (m n q : Nat) (hm : m ≠ 0) (hn : n ≠ 0) :
    (Nat.gcd m n).factorization q =
      min (m.factorization q) (n.factorization q) := by
  rw [Nat.factorization_gcd hm hn, Finsupp.inf_apply]

/-- Prime exponents of an exact quotient subtract. -/
theorem fact_div_apply (m n q : Nat) (h : m ∣ n) :
    (n / m).factorization q = n.factorization q - m.factorization q := by
  rw [Nat.factorization_div h, Finsupp.tsub_apply]

/-- Prime exponents of a power scale. -/
theorem fact_pow_apply (m k q : Nat) :
    (m ^ k).factorization q = k * m.factorization q := by
  rw [Nat.factorization_pow, Finsupp.smul_apply, smul_eq_mul]

/-- A positive natural with no prime in its factorisation is 1. -/
theorem eq_one_of_fact_eq_zero (n : Nat) (hn : n ≠ 0)
    (h : ∀ q, q.Prime → n.factorization q = 0) : n = 1 := by
  apply fact_ext n 1 hn one_ne_zero
  intro q hq
  rw [h q hq, Nat.factorization_one]
  rfl

/-- Per-prime characterisation of the shared gcd loop: primes present in
the initial first component absorb the full exponent of both components,
all other primes stay entirely in the second component. -/
theorem gcd_pp_loop_fact (fuel x y : Nat) (hx : 0 < x) (hy : 0 < y)
    (hfuel : y < fuel) (q : Nat) (hq : q.Prime) :
    (0 < x.factorization q →
      (gcd_pp_loop fuel x y).1.factorization q
          = x.factorization q + y.factorization q ∧
      (gcd_pp_loop fuel x y).2.factorization q = 0) ∧
    (x.factorization q = 0 →
      (gcd_pp_loop fuel x y).1.factorization q = 0 ∧
      (gcd_pp_loop fuel x y).2.factorization q = y.factorization q) := by
  obtain ⟨hprod, hxdvd, hydvd, hcop, hprimes⟩ :=
    gcd_pp_loop_spec fuel x y hx hy hfuel
  have hXY : 0 < (gcd_pp_loop fuel x y).1 * (gcd_pp_loop fuel x y).2 := by
    rw [hprod]; exact Nat.mul_pos hx hy
  have hX0 : (gcd_pp_loop fuel x y).1 ≠ 0 := by
    intro h0; rw [h0, Nat.zero_mul] at hXY; omega
  have hY0 : (gcd_pp_loop fuel x y).2 ≠ 0 := by
    intro h0; rw [h0, Nat.mul_zero] at hXY; omega
  have hsum : (gcd_pp_loop fuel x y).1.factorization q +
      (gcd_pp_loop fuel x y).2.factorization q
      = x.factorization q + y.factorization q := by
    rw [← fact_mul_apply _ _ q hX0 hY0, ← fact_mul_apply x y q (by omega)
      (by omega), hprod]
  constructor
  · intro hpos
    have hqx : q ∣ x := (fact_pos_iff x q (by omega) hq).mpr hpos
    have hqX : q ∣ (gcd_pp_loop fuel x y).1 := dvd_trans hqx hxdvd
    have hqY : ¬ q ∣ (gcd_pp_loop fuel x y).2 := fun hdY =>
      coprime_prime_dvd _ _ q hcop hq hqX hdY
    have hYz : (gcd_pp_loop fuel x y).2.factorization q = 0 := by
      by_contra hne
      exact hqY ((fact_pos_iff _ q hY0 hq).mpr (by omega))
    exact ⟨by omega, hYz⟩
  · intro hzero
    have hqx : ¬ q ∣ x := fun h => by
      have := (fact_pos_iff x q (by omega) hq).mp h
      omega
    have hqX : ¬ q ∣ (gcd_pp_loop fuel x y).1 := fun h => hqx (hprimes q hq h)
    have hXz : (gcd_pp_loop fuel x y).1.factorization q = 0 := by
      by_contra hne
      exact hqX ((fact_pos_iff _ q hX0 hq).mpr (by omega))
    exact ⟨hXz, by omega⟩

/-- Per-prime characterisation of `gcd_ppi_ppo`: `ppi` keeps exactly the
full exponent of the primes shared with `b`, `ppo` keeps the others. -/
theorem gcd_ppi_ppo_fact (a b q : Nat) (ha : 0 < a) (hb : 0 < b)
    (hq : q.Prime) :
    (gcd_ppi_ppo a b).2.1.factorization q
        = (if 0 < b.factorization q then a.factorization q else 0) ∧
    (gcd_ppi_ppo a b).2.2.factorization q
        = (if 0 < b.factorization q then 0 else a.factorization q) := by
  have hg : Nat.gcd a b ∣ a := Nat.gcd_dvd_left a b
  have hgpos : 0 < Nat.gcd a b := Nat.gcd_pos_of_pos_left b ha
  have hy0pos : 0 < a / Nat.gcd a b := Nat.div_pos (Nat.le_of_dvd ha hg) hgpos
  have hy0le : a / Nat.gcd a b ≤ a := Nat.div_le_self a (Nat.gcd a b)
  have hloop := gcd_pp_loop_fact (a + 1) (Nat.gcd a b) (a / Nat.gcd a b)
    hgpos hy0pos (by omega) q hq
  have hgq : (Nat.gcd a b).factorization q
      = min (a.factorization q) (b.factorization q) :=
    fact_gcd_apply a b q (by omega) (by omega)
  have hyq : (a / Nat.gcd a b).factorization q
      = a.factorization q - (Nat.gcd a b).factorization q :=
    fact_div_apply (Nat.gcd a b) a q hg
  have hmle : min (a.factorization q) (b.factorization q)
      ≤ a.factorization q := Nat.min_le_left _ _
  have hppi : (gcd_ppi_ppo a b).2.1
      = (gcd_pp_loop (a + 1) (Nat.gcd a b) (a / Nat.gcd a b)).1 := rfl
  have hppo : (gcd_ppi_ppo a b).2.2
      = (gcd_pp_loop (a + 1) (Nat.gcd a b) (a / Nat.gcd a b)).2 := rfl
  rw [hppi, hppo]
  by_cases hvb : 0 < b.factorization q
  · by_cases hva : 0 < a.factorization q
    · have hminpos : 0 < min (a.factorization q) (b.factorization q) :=
        lt_min_iff.mpr ⟨hva, hvb⟩
      have hc := hloop.1 (by rw [hgq]; omega)
      simp only [if_pos hvb]
      refine ⟨?_, hc.2⟩
      rw [hc.1, hgq, hyq, hgq]
      omega
    · have hmin0 : min (a.factorization q) (b.factorization q) = 0 := by
        omega
      have hc := hloop.2 (by rw [hgq]; omega)
      simp only [if_pos hvb]
      refine ⟨?_, ?_⟩
      · rw [hc.1]; omega
      · rw [hc.2, hyq, hgq]; omega
  · have hmin0 : min (a.factorization q) (b.factorization q) = 0 := by
      have := Nat.min_le_right (a.factorization q) (b.factorization q)
      omega
    have hc := hloop.2 (by rw [hgq]; omega)
    simp only [if_neg hvb]
    refine ⟨hc.1, ?_⟩
    rw [hc.2, hyq, hgq]
    omega

/-- Per-prime characterisation of `gcd_ppg_pple`: `ppg` keeps exactly the
full exponent of each prime whose exponent in `a` exceeds its exponent in
`b`, `pple` keeps the others. -/
theorem gcd_ppg_pple_fact (a b q : Nat) (ha : 0 < a) (hb : 0 < b)
    (hq : q.Prime) :
    (gcd_ppg_pple a b).2.1.factorization q
        = (if b.factorization q < a.factorization q
            then a.factorization q else 0) ∧
    (gcd_ppg_pple a b).2.2.factorization q
        = (if b.factorization q < a.factorization q
            then 0 else a.factorization q) := by
  have hg : Nat.gcd a b ∣ a := Nat.gcd_dvd_left a b
  have hgpos : 0 < Nat.gcd a b := Nat.gcd_pos_of_pos_left b ha
  have hx0pos : 0 < a / Nat.gcd a b := Nat.div_pos (Nat.le_of_dvd ha hg) hgpos
  have hgle : Nat.gcd a b ≤ a := Nat.le_of_dvd ha hg
  have hloop := gcd_pp_loop_fact (a + 1) (a / Nat.gcd a b) (Nat.gcd a b)
    hx0pos hgpos (by omega) q hq
  have hgq : (Nat.gcd a b).factorization q
      = min (a.factorization q) (b.factorization q) :=
    fact_gcd_apply a b q (by omega) (by omega)
  have hxq : (a / Nat.gcd a b).factorization q
      = a.factorization q - (Nat.gcd a b).factorization q :=
    fact_div_apply (Nat.gcd a b) a q hg
  have hmle : min (a.factorization q) (b.factorization q)
      ≤ a.factorization q := Nat.min_le_left _ _
  have hmlb : min (a.factorization q) (b.factorization q)
      ≤ b.factorization q := Nat.min_le_right _ _
  have hppg : (gcd_ppg_pple a b).2.1
      = (gcd_pp_loop (a + 1) (a / Nat.gcd a b) (Nat.gcd a b)).1 := rfl
  have hpple : (gcd_ppg_pple a b).2.2
      = (gcd_pp_loop (a + 1) (a / Nat.gcd a b) (Nat.gcd a b)).2 := rfl
  rw [hppg, hpple]
  by_cases hlt : b.factorization q < a.factorization q
  · have hmin : min (a.factorization q) (b.factorization q)
        = b.factorization q := by omega
    have hc := hloop.1 (by rw [hxq, hgq]; omega)
    simp only [if_pos hlt]
    refine ⟨?_, hc.2⟩
    rw [hc.1, hxq, hgq]
    omega
  · have hmin : min (a.factorization q) (b.factorization q)
        = a.factorization q := by omega
    have hc := hloop.2 (by rw [hxq, hgq]; omega)
    simp only [if_neg hlt]
    refine ⟨hc.1, ?_⟩
    rw [hc.2, hgq]
    omega

/-- Both non-gcd components of `gcd_ppg_pple` are positive for positive
first argument. -/
theorem gcd_ppg_pple_pos (a b : Nat) (ha : 0 < a) :
    0 < (gcd_ppg_pple a b).2.1 ∧ 0 < (gcd_ppg_pple a b).2.2 := by
  have h := (gcd_ppg_pple_spec a b ha).2.1
  have hne : (gcd_ppg_pple a b).2.1 * (gcd_ppg_pple a b).2.2 ≠ 0 := by
    rw [h]; omega
  have := Nat.mul_ne_zero_iff.mp hne
  omega

/-- The `ppo` component of `gcd_ppi_ppo` is positive for positive first
argument. -/
theorem gcd_ppi_ppo_pos (a b : Nat) (ha : 0 < a) :
    0 < (gcd_ppi_ppo a b).2.2 := by
  have h := (gcd_ppi_ppo_spec a b ha).2.1
  have hne : (gcd_ppi_ppo a b).2.1 * (gcd_ppi_ppo a b).2.2 ≠ 0 := by
    rw [h]; omega
  have := Nat.mul_ne_zero_iff.mp hne
  omega

/-- An in-range `getD` entry of a list is a member. -/
theorem getD_mem_of_lt (l : List Nat) (j : Nat) (hj : j < l.length) :
    l.getD j 0 ∈ l := by
  rw [List.getD_eq_getElem l 0 hj]
  exact List.getElem_mem hj

/-- Splitting off the last factor of a product over `range (n + 1)`. -/
theorem range_map_prod_succ (F : Nat → Nat) (n : Nat) :
    ((List.range (n + 1)).map F).prod = ((List.range n).map F).prod * F n := by
  rw [List.range_succ, List.map_append, List.prod_append]
  simp

/-- Splitting off the last summand of a sum over `range (n + 1)`. -/
theorem range_map_sum_succ (F : Nat → Nat) (n : Nat) :
    ((List.range (n + 1)).map F).sum = ((List.range n).map F).sum + F n := by
  rw [List.range_succ, List.map_append, List.sum_append]
  simp

/-- 1 factors over any base. -/
theorem fo_one (L : List Nat) : FactorsOver 1 L := by
  refine ⟨fun _ => 0, ?_⟩
  have h : ∀ x ∈ (List.range L.length).map (fun j => L.getD j 0 ^ 0), x = 1 := by
    intro x hx
    rw [List.mem_map] at hx
    obtain ⟨j, _, hjx⟩ := hx
    rw [← hjx, pow_zero]
  rw [List.prod_eq_one h]

/-- A product over `range n` of powers with exponent 1 at `i` and 0
elsewhere collapses to the `i`-th value. -/
theorem prod_pow_indicator (a : Nat → Nat) :
    ∀ n i, i < n →
    ((List.range n).map (fun j => a j ^ (if j = i then 1 else 0))).prod = a i := by
  intro n
  induction n with
  | zero => intro i hi; omega
  | succ n ih =>
    intro i hi
    rw [range_map_prod_succ]
    by_cases hin : i = n
    · subst hin
      rw [if_pos rfl, pow_one]
      have h1 : ((List.range i).map
          (fun j => a j ^ (if j = i then 1 else 0))).prod = 1 := by
        apply List.prod_eq_one
        intro x hx
        rw [List.mem_map] at hx
        obtain ⟨j, hj, hjx⟩ := hx
        rw [List.mem_range] at hj
        rw [← hjx, if_neg (by omega), pow_zero]
      rw [h1, one_mul]
    · rw [if_neg (fun h => hin (by omega)), pow_zero, mul_one]
      exact ih i (by omega)

/-- Every member of a base factors over it. -/
theorem fo_mem (L : List Nat) (x : Nat) (hx : x ∈ L) : FactorsOver x L := by
  obtain ⟨i, hi, hxi⟩ := List.mem_iff_getElem.mp hx
  refine ⟨fun j => if j = i then 1 else 0, ?_⟩
  rw [prod_pow_indicator (fun j => L.getD j 0) L.length i hi,
    List.getD_eq_getElem L 0 hi, hxi]

/-- Products of values factoring over a base factor over it. -/
theorem fo_mul (L : List Nat) (u v : Nat) (hu : FactorsOver u L)
    (hv : FactorsOver v L) : FactorsOver (u * v) L := by
  obtain ⟨e, he⟩ := hu
  obtain ⟨f, hf⟩ := hv
  refine ⟨fun j => e j + f j, ?_⟩
  rw [he, hf, ← List.prod_map_mul]
  apply congrArg
  apply List.map_congr_left
  intro j _
  rw [pow_add]

/-- Powers of values factoring over a base factor over it. -/
theorem fo_pow (L : List Nat) (u : Nat) (hu : FactorsOver u L) :
    ∀ k, FactorsOver (u ^ k) L := by
  intro k
  induction k with
  | zero => rw [pow_zero]; exact fo_one L
  | succ k ih => rw [pow_succ]; exact fo_mul L _ u ih hu

/-- A product of a list of values each factoring over a base factors over
it. -/
theorem fo_list_prod (L : List Nat) (l : List Nat)
    (h : ∀ x ∈ l, FactorsOver x L) : FactorsOver l.prod L := by
  induction l with
  | nil => exact fo_one L
  | cons a l ih =>
    rw [List.prod_cons]
    exact fo_mul L a l.prod (h a (List.mem_cons_self a l))
      (ih (fun x hx => h x (List.mem_cons_of_mem a hx)))

/-- Factoring over a base is transitive along elementwise factoring. -/
theorem fo_elem (L M : List Nat) (v : Nat) (hv : FactorsOver v L)
    (hLM : ∀ x ∈ L, FactorsOver x M) : FactorsOver v M := by
  obtain ⟨e, he⟩ := hv
  rw [he]
  apply fo_list_prod
  intro x hx
  rw [List.mem_map] at hx
  obtain ⟨j, hj, hjx⟩ := hx
  rw [List.mem_range] at hj
  rw [← hjx]
  exact fo_pow M _ (hLM _ (getD_mem_of_lt L j hj)) (e j)

/-- Factoring over a base extends to a left-extended base. -/
theorem fo_append_left (L M : List Nat) (v : Nat) (hv : FactorsOver v L) :
    FactorsOver v (L ++ M) :=
  fo_elem L (L ++ M) v hv
    (fun x hx => fo_mem (L ++ M) x (List.mem_append_left M hx))

/-- Factoring over a base extends to a right-extended base. -/
theorem fo_append_right (L M : List Nat) (v : Nat) (hv : FactorsOver v M) :
    FactorsOver v (L ++ M) :=
  fo_elem M (L ++ M) v hv
    (fun x hx => fo_mem (L ++ M) x (List.mem_append_right L hx))

/-- Only 1 factors over the empty base. -/
theorem fo_nil (v : Nat) (hv : FactorsOver v []) : v = 1 := by
  obtain ⟨e, he⟩ := hv
  simpa using he

/-- A value factoring over a base of positive entries is positive. -/
theorem fo_pos (L : List Nat) (v : Nat) (hL : ∀ x ∈ L, 1 ≤ x)
    (hv : FactorsOver v L) : 0 < v := by
  obtain ⟨e, he⟩ := hv
  rw [he]
  apply List.prod_pos
  intro x hx
  rw [List.mem_map] at hx
  obtain ⟨j, hj, hjx⟩ := hx
  rw [List.mem_range] at hj
  rw [← hjx]
  exact pow_pos (hL _ (getD_mem_of_lt L j hj)) (e j)

/-- A prime dividing a value that factors over a base divides a base
element. -/
theorem fo_prime (L : List Nat) (v q : Nat) (hv : FactorsOver v L)
    (hq : q.Prime) (hqv : q ∣ v) : ∃ u ∈ L, q ∣ u := by
  obtain ⟨e, he⟩ := hv
  rw [he] at hqv
  obtain ⟨x, hx, hqx⟩ := (Prime.dvd_prod_iff (Nat.Prime.prime hq)).mp hqv
  rw [List.mem_map] at hx
  obtain ⟨j, hj, hjx⟩ := hx
  rw [List.mem_range] at hj
  rw [← hjx] at hqx
  exact ⟨L.getD j 0, getD_mem_of_lt L j hj, hq.dvd_of_dvd_pow hqx⟩

/-- Sum of a function over a duplicate-free list of keys, when the function
vanishes away from a single key. -/
theorem map_sum_eq_single (F : Nat → Nat) :
    ∀ l : List Nat, l.Nodup → ∀ k0, (∀ k ∈ l, k ≠ k0 → F k = 0) →
    (l.map F).sum = if k0 ∈ l then F k0 else 0 := by
  intro l
  induction l with
  | nil => intro _ k0 _; simp
  | cons a l ih =>
    intro hnd k0 hz
    rw [List.map_cons, List.sum_cons]
    rw [List.nodup_cons] at hnd
    rw [ih hnd.2 k0 (fun k hk hkk => hz k (List.mem_cons_of_mem _ hk) hkk)]
    by_cases hak : a = k0
    · subst hak
      rw [if_neg hnd.1, if_pos (List.mem_cons_self a l)]
      omega
    · rw [hz a (List.mem_cons_self a l) hak]
      by_cases hmem : k0 ∈ l
      · rw [if_pos hmem, if_pos (List.mem_cons_of_mem _ hmem)]
        omega
      · rw [if_neg hmem, if_neg (by
          rw [List.mem_cons]
          push_neg
          exact ⟨fun h => hak h.symm, hmem⟩)]

/-- Prime exponent of a product of a list of positive values: the exponents
add up. -/
theorem list_prod_fact (q : Nat) :
    ∀ l : List Nat, (∀ x ∈ l, x ≠ 0) →
    (l.prod).factorization q = (l.map (fun x => x.factorization q)).sum := by
  intro l
  induction l with
  | nil => simp
  | cons a l ih =>
    intro hpos
    have hprodne : l.prod ≠ 0 := by
      have : 0 < l.prod := List.prod_pos (fun x hx => by
        have := hpos x (List.mem_cons_of_mem a hx); omega)
      omega
    rw [List.prod_cons, List.map_cons, List.sum_cons,
      fact_mul_apply a l.prod q (hpos a (List.mem_cons_self a l)) hprodne,
      ih (fun x hx => hpos x (List.mem_cons_of_mem a hx))]

/-- Prime exponent of a product of powers over an index range: the
weighted exponents add up. -/
theorem pows_range_fact (a e : Nat → Nat) (q n : Nat)
    (ha : ∀ j, j < n → a j ≠ 0) :
    (((List.range n).map (fun j => a j ^ e j)).prod).factorization q
      = ((List.range n).map (fun j => e j * (a j).factorization q)).sum := by
  rw [list_prod_fact q _ (by
    intro x hx
    rw [List.mem_map] at hx
    obtain ⟨j, hj, hjx⟩ := hx
    rw [List.mem_range] at hj
    rw [← hjx]
    have h1 : 0 < a j := by have := ha j hj; omega
    have h2 : 0 < a j ^ e j := pow_pos h1 (e j)
    omega)]
  rw [List.map_map]
  apply congrArg
  apply List.map_congr_left
  intro j hj
  rw [List.mem_range] at hj
  show (a j ^ e j).factorization q = e j * (a j).factorization q
  exact fact_pow_apply (a j) (e j) q

/-- Specialisation of `pows_range_fact` to the entries of a list. -/
theorem pows_getD_fact (L : List Nat) (e : Nat → Nat) (q : Nat)
    (hL : ∀ j, j < L.length → L.getD j 0 ≠ 0) :
    (((List.range L.length).map
        (fun j => L.getD j 0 ^ e j)).prod).factorization q
      = ((List.range L.length).map
        (fun j => e j * (L.getD j 0).factorization q)).sum :=
  pows_range_fact (fun j => L.getD j 0) e q L.length hL

/-- Entries of a pairwise-coprime list at distinct indices are coprime. -/
theorem pairwise_getD_coprime (L : List Nat) (hco : List.Pairwise Nat.Coprime L)
    (k j : Nat) (hk : k < L.length) (hj : j < L.length) (hkj : k ≠ j) :
    Nat.Coprime (L.getD k 0) (L.getD j 0) := by
  rw [List.pairwise_iff_getElem] at hco
  rw [List.getD_eq_getElem L 0 hk, List.getD_eq_getElem L 0 hj]
  rcases Nat.lt_or_ge k j with h | h
  · exact hco k j hk hj h
  · exact Nat.Coprime.symm (hco j k hj hk (by omega))

/-- The gcd of two values factoring over a pairwise-coprime base of
positive entries factors over the base: the gcd is the product of the
pointwise minimal powers. -/
theorem fo_gcd (L : List Nat) (hL : ∀ x ∈ L, 1 ≤ x)
    (hco : List.Pairwise Nat.Coprime L) (u v : Nat)
    (hu : FactorsOver u L) (hv : FactorsOver v L) :
    FactorsOver (Nat.gcd u v) L := by
  obtain ⟨e, he⟩ := hu
  obtain ⟨f, hf⟩ := hv
  have hgetDne : ∀ j, j < L.length → L.getD j 0 ≠ 0 := fun j hj => by
    have := hL _ (getD_mem_of_lt L j hj); omega
  have hupos : 0 < u := fo_pos L u hL ⟨e, he⟩
  have hvpos : 0 < v := fo_pos L v hL ⟨f, hf⟩
  refine ⟨fun j => min (e j) (f j), ?_⟩
  set w := ((List.range L.length).map
    (fun j => L.getD j 0 ^ min (e j) (f j))).prod with hw
  have hwpos : 0 < w := fo_pos L w hL ⟨fun j => min (e j) (f j), hw⟩
  have hgcdpos : 0 < Nat.gcd u v := Nat.gcd_pos_of_pos_left v hupos
  apply fact_ext _ _ (by omega) (by omega)
  intro q hq
  rw [fact_gcd_apply u v q (by omega) (by omega), hw,
    pows_getD_fact L (fun j => min (e j) (f j)) q hgetDne]
  rw [he, hf, pows_getD_fact L e q hgetDne, pows_getD_fact L f q hgetDne]
  by_cases hex : ∃ j0, j0 < L.length ∧ q ∣ L.getD j0 0
  · obtain ⟨j0, hj0, hqj0⟩ := hex
    have hzero : ∀ k, k < L.length → k ≠ j0 →
        (L.getD k 0).factorization q = 0 := by
      intro k hk hkj
      by_contra hne
      have hdvd : q ∣ L.getD k 0 :=
        (fact_pos_iff _ q (hgetDne k hk) hq).mpr (by omega)
      exact coprime_prime_dvd _ _ q
        (pairwise_getD_coprime L hco k j0 hk hj0 hkj) hq hdvd hqj0
    have hsum : ∀ g : Nat → Nat,
        ((List.range L.length).map
          (fun j => g j * (L.getD j 0).factorization q)).sum
        = g j0 * (L.getD j0 0).factorization q := by
      intro g
      rw [map_sum_eq_single (fun j => g j * (L.getD j 0).factorization q)
        (List.range L.length) (List.nodup_range L.length) j0
        (fun k hk hkj => by
          rw [List.mem_range] at hk
          show g k * (L.getD k 0).factorization q = 0
          rw [hzero k hk hkj, Nat.mul_zero])]
      rw [if_pos (List.mem_range.mpr hj0)]
    rw [hsum e, hsum f, hsum (fun j => min (e j) (f j))]
    rcases Nat.le_total (e j0) (f j0) with h | h
    · rw [Nat.min_eq_left h, Nat.min_eq_left (Nat.mul_le_mul_right _ h)]
    · rw [Nat.min_eq_right h, Nat.min_eq_right (Nat.mul_le_mul_right _ h)]
  · push_neg at hex
    have hzero : ∀ k, k < L.length → (L.getD k 0).factorization q = 0 := by
      intro k hk
      by_contra hne
      exact hex k hk ((fact_pos_iff _ q (hgetDne k hk) hq).mpr (by omega))
    have hsum : ∀ g : Nat → Nat,
        ((List.range L.length).map
          (fun j => g j * (L.getD j 0).factorization q)).sum = 0 := by
      intro g
      apply List.sum_eq_zero
      intro x hx
      rw [List.mem_map] at hx
      obtain ⟨j, hj, hjx⟩ := hx
      rw [List.mem_range] at hj
      rw [← hjx, hzero j hj, Nat.mul_zero]
    rw [hsum e, hsum f, hsum (fun j => min (e j) (f j))]
    omega

/-- Fuel monotonicity of `append_cb` and its loop: a successful run is
reproduced by any larger fuel. -/
theorem append_cb_mono : ∀ fuel fuel2 : Nat, fuel ≤ fuel2 →
    (∀ a b l, append_cb fuel a b = some l → append_cb fuel2 a b = some l) ∧
    (∀ b g h x n r, append_cb_loop fuel b g h x n = some r →
      append_cb_loop fuel2 b g h x n = some r) := by
  intro fuel
  induction fuel with
  | zero =>
    intro fuel2 _
    constructor
    · intro a b l hl; simp [append_cb] at hl
    · intro b g h x n r hr; simp [append_cb_loop] at hr
  | succ fuel ih =>
    intro fuel2 hle
    obtain ⟨fuel3, rfl⟩ : ∃ fuel3, fuel2 = fuel3 + 1 := ⟨fuel2 - 1, by omega⟩
    have ih2 := ih fuel3 (by omega)
    constructor
    · intro a b l hl
      rw [append_cb_succ] at hl
      rw [append_cb_succ]
      by_cases hb : b = 1
      · rw [if_pos hb] at hl
        rw [if_pos hb]
        exact hl
      · rw [if_neg hb] at hl
        rw [if_neg hb]
        split at hl
        · exact absurd hl (by simp)
        · rename_i er hloop
          rw [ih2.2 _ _ _ _ _ _ hloop]
          simp only []
          split at hl
          · exact absurd hl (by simp)
          · rename_i e3 hrec
            rw [ih2.1 _ _ _ hrec]
            exact hl
    · intro b g h x n r hr
      rw [append_cb_loop_succ] at hr
      rw [append_cb_loop_succ]
      split at hr
      · exact absurd hr (by simp)
      · rename_i e hrec
        rw [ih2.1 _ _ _ hrec]
        simp only []
        split at hr
        · rename_i hg1
          rw [if_pos hg1]
          exact hr
        · rename_i hg1
          rw [if_neg hg1]
          split at hr
          · exact absurd hr (by simp)
          · rename_i er hloop
            rw [ih2.2 _ _ _ _ _ _ hloop]
            simp only []
            exact hr

/-- Fuel monotonicity of `append_cb_list`. -/
theorem append_cb_list_mono (fuel fuel2 : Nat) (hle : fuel ≤ fuel2) :
    ∀ ps l, append_cb_list fuel ps = some l →
      append_cb_list fuel2 ps = some l := by
  intro ps
  induction ps with
  | nil => intro l hl; exact hl
  | cons pc rest ih =>
    intro l hl
    simp only [append_cb_list] at hl ⊢
    split at hl
    · exact absurd hl (by simp)
    · rename_i e he
      rw [(append_cb_mono fuel fuel2 hle).1 _ _ _ he]
      simp only []
      split at hl
      · exact absurd hl (by simp)
      · rename_i es hes
        rw [ih _ hes]
        exact hl

/-- Fuel monotonicity of `cbextend`. -/
theorem cbextend_mono (fuel fuel2 : Nat) (hle : fuel ≤ fuel2) :
    ∀ p b l, cbextend fuel p b = some l → cbextend fuel2 p b = some l := by
  intro p b l hl
  simp only [cbextend] at hl ⊢
  split at hl
  · rename_i hlen
    rw [if_pos hlen]
    exact hl
  · rename_i hlen
    rw [if_neg hlen]
    split at hl
    · exact absurd hl (by simp)
    · rename_i e3 he3
      rw [append_cb_list_mono fuel fuel2 hle _ _ he3]
      simp only []
      exact hl

/-- Fuel monotonicity of the `cbmerge` loop. -/
theorem cbmerge_loop_mono (fuel fuel2 : Nat) (hle : fuel ≤ fuel2)
    (q : List Nat) : ∀ rem i s l, cbmerge_loop fuel q i rem s = some l →
      cbmerge_loop fuel2 q i rem s = some l := by
  intro rem
  induction rem with
  | zero => intro i s l hl; exact hl
  | succ rem ih =>
    intro i s l hl
    rw [cbmerge_loop_succ] at hl
    rw [cbmerge_loop_succ]
    split at hl
    · exact absurd hl (by simp)
    · rename_i t ht
      rw [cbextend_mono fuel fuel2 hle _ _ _ ht]
      simp only []
      split at hl
      · exact absurd hl (by simp)
      · rename_i s2 hs2
        rw [cbextend_mono fuel fuel2 hle _ _ _ hs2]
        simp only []
        exact ih _ _ _ hl

/-- Fuel monotonicity of `cbmerge`. -/
theorem cbmerge_mono (fuel fuel2 : Nat) (hle : fuel ≤ fuel2)
    (p q out : List Nat) (h : cbmerge fuel p q = some out) :
    cbmerge fuel2 p q = some out :=
  cbmerge_loop_mono fuel fuel2 hle q _ _ _ _ h

/-- Fuel monotonicity of `cb`. -/
theorem cb_mono (fuel fuel2 : Nat) (hle : fuel ≤ fuel2) (s : List Nat) :
    ∀ d f t out, t - f = d → cb fuel s f t = some out →
      cb fuel2 s f t = some out := by
  intro d
  induction d using Nat.strong_induction_on with
  | _ d ih =>
    intro f t out hd hout
    by_cases h0 : t - f = 0
    · rw [cb_base fuel s f t h0] at hout
      rw [cb_base fuel2 s f t h0]
      exact hout
    · rw [cb_step fuel s f t h0] at hout
      rw [cb_step fuel2 s f t h0]
      split at hout
      · exact absurd hout (by simp)
      · rename_i p hp
        rw [ih (t - (t - f) / 2 - 1 - f) (by omega) f (t - (t - f) / 2 - 1) p
          rfl hp]
        simp only []
        split at hout
        · exact absurd hout (by simp)
        · rename_i q hq
          rw [ih (t - (t - (t - f) / 2)) (by omega) (t - (t - f) / 2) t q rfl
            hq]
          simp only []
          split at hout
          · rename_i hcond
            rw [if_pos hcond]
            exact cbmerge_mono fuel fuel2 hle p q out hout
          · rename_i hcond
            rw [if_neg hcond]
            split at hout
            · rename_i hcond2
              rw [if_pos hcond2]
              exact hout
            · rename_i hcond2
              rw [if_neg hcond2]
              split at hout
              · rename_i hcond3
                rw [if_pos hcond3]
                exact hout
              · rename_i hcond3
                rw [if_neg hcond3]
                exact hout

/-- `two_power` at base 1 is 1. -/
theorem two_power_one (m : Nat) : two_power 1 m = 1 := by
  rw [two_power_eq, one_pow]

/-- `gcd_ppg_pple` degenerates at first argument 1. -/
theorem gcd_ppg_pple_one (x : Nat) : gcd_ppg_pple 1 x = (1, 1, 1) := by
  rw [gcd_ppg_pple]
  simp [Nat.gcd_one_left, gcd_pp_loop]

/-- `append_cb` on the pair `(1, 1)` appends nothing. -/
theorem append_cb_one_one (fuel : Nat) (hf : 0 < fuel) :
    append_cb fuel 1 1 = some [] := by
  obtain ⟨F, rfl⟩ : ∃ F, fuel = F + 1 := ⟨fuel - 1, by omega⟩
  rw [append_cb_succ]
  simp

/-- Contract of the `append_cb` while-loop.  Entered at counter `n` with a
state `(g, h)` that holds, per prime `q` of `a1`, the window data of
Bernstein's algorithm — `h` carries the full exponent of the primes whose
exponent exceeds `2^(n-1)` times their exponent in `b`, and `g` carries
exactly `2^(n-1)` times the `b`-exponent on those primes — the loop
terminates (given the bound `K` on the remaining doublings) and returns a
list of pairwise-coprime values at least 2 involving only primes still
live at window `n`, over which `h` factors, together with `x` times the
product `w` of the per-iteration gcds. -/
theorem append_cb_loop_contract (a1 b : Nat) (ha1 : 0 < a1) (hb : 0 < b)
    (hrec : ∀ a2 b2, 0 < a2 → 0 < b2 → a2 * b2 ≤ a1 → AppendGood a2 b2) :
    ∀ K n g h x, 1 ≤ n → 0 < g → 0 < h → 0 < x →
    (∀ q, q.Prime → 2 ^ (n - 1) * b.factorization q < a1.factorization q →
      g.factorization q = 2 ^ (n - 1) * b.factorization q) →
    (∀ q, q.Prime → h.factorization q =
      (if 2 ^ (n - 1) * b.factorization q < a1.factorization q
        then a1.factorization q else 0)) →
    (∀ q, q.Prime → 0 < a1.factorization q →
      a1.factorization q ≤ 2 ^ (n - 1 + K) * b.factorization q) →
    ∃ fuel0 E w, (∀ fuel, fuel0 ≤ fuel →
        append_cb_loop fuel b g h x n = some (E, x * w)) ∧
      (∀ v ∈ E, 2 ≤ v) ∧ List.Pairwise Nat.Coprime E ∧
      (∀ v ∈ E, ∀ q, q.Prime → q ∣ v →
        2 ^ (n - 1) * b.factorization q < a1.factorization q) ∧
      FactorsOver h E ∧ FactorsOver w E ∧ 0 < w ∧
      (∀ q, q.Prime → w.factorization q =
        (if 2 ^ (n - 1) * b.factorization q < a1.factorization q
          then b.factorization q else 0)) := by
  intro K
  induction K with
  | zero =>
    intro n g h x hn hg0 hh0 hx0 hHg hHh hK
    have hnolive : ∀ q, q.Prime →
        ¬ 2 ^ (n - 1) * b.factorization q < a1.factorization q := by
      intro q hq hlt
      have hpos : 0 < a1.factorization q := by omega
      have := hK q hq hpos
      rw [Nat.add_zero] at this
      omega
    have hone : h = 1 := by
      apply eq_one_of_fact_eq_zero h (by omega)
      intro q hq
      rw [hHh q hq, if_neg (hnolive q hq)]
    subst hone
    refine ⟨2, [], 1, ?_, by simp, List.Pairwise.nil, by simp, fo_one [],
      fo_one [], Nat.one_pos, ?_⟩
    · intro fuel hfuel
      obtain ⟨F, rfl⟩ : ∃ F, fuel = F + 1 := ⟨fuel - 1, by omega⟩
      rw [append_cb_loop_succ]
      rw [gcd_ppg_pple_one]
      show (match append_cb F (1 / two_power (Nat.gcd 1 b) (n - 1))
          (Nat.gcd 1 b) with
        | none => none
        | some e =>
          if (1 : Nat) = 1 then some (e, x * Nat.gcd 1 b)
          else
            match append_cb_loop F b 1 1 (x * Nat.gcd 1 b) (n + 1) with
            | none => none
            | some er => some (e ++ er.1, er.2)) = some ([], x * 1)
      rw [Nat.gcd_one_left, two_power_one, Nat.div_one,
        append_cb_one_one F (by omega)]
      simp
    · intro q hq
      rw [if_neg (hnolive q hq)]
      simp [Nat.factorization_one]
  | succ K ih =>
    intro n g h x hn hg0 hh0 hx0 hHg hHh hK
    have hgg0 : 0 < g * g := Nat.mul_pos hg0 hg0
    set g2 := (gcd_ppg_pple h (g * g)).1 with hg2def
    set h2 := (gcd_ppg_pple h (g * g)).2.1 with hh2def
    set c := (gcd_ppg_pple h (g * g)).2.2 with hcdef
    set d := Nat.gcd c b with hddef
    set y := two_power d (n - 1) with hydef
    have hspec := gcd_ppg_pple_spec h (g * g) hh0
    have hcomp := gcd_ppg_pple_pos h (g * g) hh0
    have hh20 : 0 < h2 := hcomp.1
    have hc0 : 0 < c := hcomp.2
    have hg20 : 0 < g2 := by
      rw [hg2def, hspec.1]
      exact Nat.gcd_pos_of_pos_left _ hh0
    have hd0 : 0 < d := Nat.gcd_pos_of_pos_left b hc0
    have hy0 : 0 < y := by
      rw [hydef, two_power_eq]
      exact pow_pos hd0 _
    have hpowmono : ∀ q : Nat, 2 ^ (n - 1) * b.factorization q
        ≤ 2 ^ n * b.factorization q := fun q =>
      Nat.mul_le_mul_right _ (Nat.pow_le_pow_right (by norm_num) (by omega))
    have hpowsucc : 2 * 2 ^ (n - 1) = 2 ^ n := by
      have h2 : 2 ^ (n - 1 + 1) = 2 ^ (n - 1) * 2 := pow_succ 2 (n - 1)
      have h3 : n - 1 + 1 = n := by omega
      rw [h3] at h2
      omega
    have hvgg : ∀ q, (g * g).factorization q = 2 * g.factorization q := by
      intro q
      have := fact_mul_apply g g q (by omega) (by omega)
      omega
    have hh2char : ∀ q, q.Prime → h2.factorization q =
        (if 2 ^ n * b.factorization q < a1.factorization q
          then a1.factorization q else 0) := by
      intro q hq
      have hfact := (gcd_ppg_pple_fact h (g * g) q hh0 hgg0 hq).1
      have hvh := hHh q hq
      by_cases hLn : 2 ^ (n - 1) * b.factorization q < a1.factorization q
      · have hvg := hHg q hq hLn
        have hvgg2 : (g * g).factorization q
            = 2 ^ n * b.factorization q := by
          rw [hvgg q, hvg, ← hpowsucc]
          ring
        rw [if_pos hLn] at hvh
        rw [← hh2def] at hfact
        rw [hfact, hvgg2, hvh]
      · rw [if_neg hLn] at hvh
        have hnot : ¬ 2 ^ n * b.factorization q < a1.factorization q := by
          have := hpowmono q
          omega
        rw [← hh2def] at hfact
        rw [hfact, hvh, if_neg hnot, if_neg (Nat.not_lt_zero _)]
    have hcchar : ∀ q, q.Prime → c.factorization q =
        (if 2 ^ (n - 1) * b.factorization q < a1.factorization q ∧
            ¬ 2 ^ n * b.factorization q < a1.factorization q
          then a1.factorization q else 0) := by
      intro q hq
      have hfact := (gcd_ppg_pple_fact h (g * g) q hh0 hgg0 hq).2
      have hvh := hHh q hq
      rw [← hcdef] at hfact
      by_cases hLn : 2 ^ (n - 1) * b.factorization q < a1.factorization q
      · have hvg := hHg q hq hLn
        have hvgg2 : (g * g).factorization q
            = 2 ^ n * b.factorization q := by
          rw [hvgg q, hvg, ← hpowsucc]
          ring
        rw [if_pos hLn] at hvh
        by_cases hLn1 : 2 ^ n * b.factorization q < a1.factorization q
        · rw [hfact, hvgg2, hvh, if_pos hLn1,
            if_neg (by intro hand; exact hand.2 hLn1)]
        · rw [hfact, hvgg2, hvh, if_neg hLn1, if_pos ⟨hLn, hLn1⟩]
      · rw [if_neg hLn] at hvh
        rw [hfact, hvh, if_neg (Nat.not_lt_zero _),
          if_neg (by intro hand; exact hLn hand.1)]
    have hg2char : ∀ q, q.Prime →
        2 ^ n * b.factorization q < a1.factorization q →
        g2.factorization q = 2 ^ n * b.factorization q := by
      intro q hq hLn1
      have hLn : 2 ^ (n - 1) * b.factorization q < a1.factorization q := by
        have := hpowmono q
        omega
      have hvh := hHh q hq
      rw [if_pos hLn] at hvh
      have hvg := hHg q hq hLn
      have hvgg2 : (g * g).factorization q = 2 ^ n * b.factorization q := by
        rw [hvgg q, hvg, ← hpowsucc]
        ring
      have : g2.factorization q = min (h.factorization q)
          ((g * g).factorization q) := by
        rw [hg2def, hspec.1]
        exact fact_gcd_apply h (g * g) q (by omega) (by omega)
      rw [this, hvh, hvgg2]
      omega
    have hdchar : ∀ q, q.Prime → d.factorization q =
        (if 2 ^ (n - 1) * b.factorization q < a1.factorization q ∧
            ¬ 2 ^ n * b.factorization q < a1.factorization q
          then b.factorization q else 0) := by
      intro q hq
      have hgcd : d.factorization q = min (c.factorization q)
          (b.factorization q) := by
        rw [hddef]
        exact fact_gcd_apply c b q (by omega) (by omega)
      rw [hgcd, hcchar q hq]
      by_cases hwin : 2 ^ (n - 1) * b.factorization q < a1.factorization q ∧
          ¬ 2 ^ n * b.factorization q < a1.factorization q
      · rw [if_pos hwin, if_pos hwin]
        have h1 : 1 ≤ 2 ^ (n - 1) := Nat.one_le_two_pow
        have h2 : 1 * b.factorization q ≤ 2 ^ (n - 1) * b.factorization q :=
          Nat.mul_le_mul_right _ h1
        omega
      · rw [if_neg hwin, if_neg hwin]
        omega
    have hychar : ∀ q, q.Prime → y.factorization q =
        (if 2 ^ (n - 1) * b.factorization q < a1.factorization q ∧
            ¬ 2 ^ n * b.factorization q < a1.factorization q
          then 2 ^ (n - 1) * b.factorization q else 0) := by
      intro q hq
      have : y.factorization q = 2 ^ (n - 1) * d.factorization q := by
        rw [hydef, two_power_eq]
        exact fact_pow_apply d (2 ^ (n - 1)) q
      rw [this, hdchar q hq]
      by_cases hwin : 2 ^ (n - 1) * b.factorization q < a1.factorization q ∧
          ¬ 2 ^ n * b.factorization q < a1.factorization q
      · rw [if_pos hwin, if_pos hwin]
      · rw [if_neg hwin, if_neg hwin, Nat.mul_zero]
    have hyc : y ∣ c := by
      apply dvd_of_fact_le y c (by omega) (by omega)
      intro q hq
      rw [hychar q hq, hcchar q hq]
      by_cases hwin : 2 ^ (n - 1) * b.factorization q < a1.factorization q ∧
          ¬ 2 ^ n * b.factorization q < a1.factorization q
      · rw [if_pos hwin, if_pos hwin]
        omega
      · rw [if_neg hwin, if_neg hwin]
    have hcy0 : 0 < c / y := Nat.div_pos (Nat.le_of_dvd hc0 hyc) hy0
    have hcychar : ∀ q, q.Prime → (c / y).factorization q =
        (if 2 ^ (n - 1) * b.factorization q < a1.factorization q ∧
            ¬ 2 ^ n * b.factorization q < a1.factorization q
          then a1.factorization q - 2 ^ (n - 1) * b.factorization q
          else 0) := by
      intro q hq
      rw [fact_div_apply y c q hyc, hcchar q hq, hychar q hq]
      by_cases hwin : 2 ^ (n - 1) * b.factorization q < a1.factorization q ∧
          ¬ 2 ^ n * b.factorization q < a1.factorization q
      · rw [if_pos hwin, if_pos hwin, if_pos hwin]
      · rw [if_neg hwin, if_neg hwin, if_neg hwin]
    have hcyd0 : 0 < (c / y) * d := Nat.mul_pos hcy0 hd0
    have hchildle : (c / y) * d ≤ a1 := by
      apply Nat.le_of_dvd ha1
      apply dvd_of_fact_le _ _ (by omega) (by omega)
      intro q hq
      rw [fact_mul_apply _ _ q (by omega) (by omega), hcychar q hq,
        hdchar q hq]
      by_cases hwin : 2 ^ (n - 1) * b.factorization q < a1.factorization q ∧
          ¬ 2 ^ n * b.factorization q < a1.factorization q
      · rw [if_pos hwin, if_pos hwin]
        have h1 : 1 ≤ 2 ^ (n - 1) := Nat.one_le_two_pow
        have h2 : 1 * b.factorization q ≤ 2 ^ (n - 1) * b.factorization q :=
          Nat.mul_le_mul_right _ h1
        omega
      · rw [if_neg hwin, if_neg hwin]
        omega
    obtain ⟨fuelA, L, hLrun, hL2, hLco, hLprimes, hLfoa, hLfob⟩ :=
      hrec (c / y) d hcy0 hd0 hchildle
    have hLwindow : ∀ v ∈ L, ∀ q, q.Prime → q ∣ v →
        2 ^ (n - 1) * b.factorization q < a1.factorization q ∧
        ¬ 2 ^ n * b.factorization q < a1.factorization q := by
      intro v hv q hq hqv
      have hqcd : q ∣ (c / y) * d := hLprimes v hv q hq hqv
      have hpos : 0 < ((c / y) * d).factorization q :=
        (fact_pos_iff _ q (by omega) hq).mp hqcd
      rw [fact_mul_apply _ _ q (by omega) (by omega), hcychar q hq,
        hdchar q hq] at hpos
      by_cases hwin : 2 ^ (n - 1) * b.factorization q < a1.factorization q ∧
          ¬ 2 ^ n * b.factorization q < a1.factorization q
      · exact hwin
      · rw [if_neg hwin, if_neg hwin] at hpos
        omega
    have hfoc : FactorsOver c L := by
      have h1 : FactorsOver y L := by
        rw [hydef, two_power_eq]
        exact fo_pow L d hLfob _
      have h2 : FactorsOver ((c / y) * y) L := fo_mul L _ _ hLfoa h1
      rwa [Nat.div_mul_cancel hyc] at h2
    have hmul : h2 * c = h := hspec.2.1
    by_cases hexit : h2 = 1
    · have hnolive1 : ∀ q, q.Prime →
          ¬ 2 ^ n * b.factorization q < a1.factorization q := by
        intro q hq hlt
        have := hh2char q hq
        rw [hexit, Nat.factorization_one, if_pos hlt] at this
        have hz : (0 : Nat) = a1.factorization q := this
        omega
      have hhc : h = c := by
        rw [← hmul, hexit, Nat.one_mul]
      refine ⟨fuelA + 1, L, d, ?_, hL2, hLco, ?_, ?_, hLfob, hd0, ?_⟩
      · intro fuel hfuel
        obtain ⟨F, rfl⟩ : ∃ F, fuel = F + 1 := ⟨fuel - 1, by omega⟩
        rw [append_cb_loop_succ, ← hcdef, ← hddef, ← hydef,
          hLrun F (by omega)]
        simp only []
        rw [← hh2def, if_pos hexit]
      · intro v hv q hq hqv
        exact (hLwindow v hv q hq hqv).1
      · rw [hhc]
        exact hfoc
      · intro q hq
        rw [hdchar q hq]
        by_cases hLn : 2 ^ (n - 1) * b.factorization q < a1.factorization q
        · rw [if_pos ⟨hLn, hnolive1 q hq⟩, if_pos hLn]
        · rw [if_neg (by intro hand; exact hLn hand.1), if_neg hLn]
    · have hrecK := ih (n + 1) g2 h2 (x * d) (by omega) hg20 hh20
        (Nat.mul_pos hx0 hd0)
        (fun q hq hlt => by
          rw [Nat.add_sub_cancel] at hlt ⊢
          exact hg2char q hq hlt)
        (fun q hq => by
          rw [Nat.add_sub_cancel]
          exact hh2char q hq)
        (fun q hq hpos => by
          have := hK q hq hpos
          have harith : n - 1 + (K + 1) = n + 1 - 1 + K := by omega
          rwa [harith] at this)
      obtain ⟨fuelB, E2, w2, hE2run, hE22, hE2co, hE2primes, hE2foh,
        hE2fow, hw20, hw2char⟩ := hrecK
      have hE2primes2 : ∀ v ∈ E2, ∀ q, q.Prime → q ∣ v →
          2 ^ n * b.factorization q < a1.factorization q := by
        intro v hv q hq hqv
        have := hE2primes v hv q hq hqv
        rwa [Nat.add_sub_cancel] at this
      refine ⟨max fuelA fuelB + 1, L ++ E2, d * w2, ?_, ?_, ?_, ?_, ?_, ?_,
        Nat.mul_pos hd0 hw20, ?_⟩
      · intro fuel hfuel
        obtain ⟨F, rfl⟩ : ∃ F, fuel = F + 1 := ⟨fuel - 1, by omega⟩
        rw [append_cb_loop_succ, ← hcdef, ← hddef, ← hydef,
          hLrun F (by omega)]
        simp only []
        rw [← hh2def, if_neg hexit, hE2run F (by omega)]
        simp only []
        rw [← Nat.mul_assoc]
      · intro v hv
        rcases List.mem_append.1 hv with hm | hm
        · exact hL2 v hm
        · exact hE22 v hm
      · rw [List.pairwise_append]
        refine ⟨hLco, hE2co, ?_⟩
        intro u hu v hv
        apply coprime_of_primes
        intro q hq hqu hqv
        have h1 := hLwindow u hu q hq hqu
        have h2 := hE2primes2 v hv q hq hqv
        exact h1.2 h2
      · intro v hv q hq hqv
        rcases List.mem_append.1 hv with hm | hm
        · exact (hLwindow v hm q hq hqv).1
        · have := hE2primes2 v hm q hq hqv
          have := hpowmono q
          omega
      · have hfo1 : FactorsOver c (L ++ E2) := fo_append_left L E2 c hfoc
        have hfo2 : FactorsOver h2 (L ++ E2) :=
          fo_append_right L E2 h2 hE2foh
        have hfo3 : FactorsOver (h2 * c) (L ++ E2) :=
          fo_mul _ _ _ hfo2 hfo1
        rwa [hmul] at hfo3
      · exact fo_mul _ _ _ (fo_append_left L E2 d hLfob)
          (fo_append_right L E2 w2 hE2fow)
      · intro q hq
        have hvw2 := hw2char q hq
        rw [Nat.add_sub_cancel] at hvw2
        rw [fact_mul_apply d w2 q (by omega) (by omega), hdchar q hq, hvw2]
        have := hpowmono q
        by_cases hLn1 : 2 ^ n * b.factorization q < a1.factorization q
        · rw [if_pos hLn1, if_neg (by intro hand; exact hand.2 hLn1),
            if_pos (by omega)]
          omega
        · by_cases hLn : 2 ^ (n - 1) * b.factorization q <
              a1.factorization q
          · rw [if_pos ⟨hLn, hLn1⟩, if_neg hLn1, if_pos hLn]
            omega
          · rw [if_neg (by intro hand; exact hLn hand.1), if_neg hLn1,
              if_neg hLn]

/-- The `b = 1` base case of `append_cb` satisfies the full contract. -/
theorem append_cb_base_good (a : Nat) (ha : 0 < a) : AppendGood a 1 := by
  by_cases ha1 : a = 1
  · subst ha1
    exact ⟨1, [], fun fuel hf => append_cb_one_one fuel hf, by simp,
      List.Pairwise.nil, by simp, fo_one [], fo_one []⟩
  · refine ⟨1, [a], fun fuel hf => append_cb_one fuel a hf ha1, ?_,
      List.pairwise_singleton Nat.Coprime a, ?_,
      fo_mem [a] a (List.mem_singleton.mpr rfl), fo_one [a]⟩
    · intro v hv
      rw [List.mem_singleton] at hv
      omega
    · intro v hv q hq hqv
      rw [List.mem_singleton] at hv
      subst hv
      rw [Nat.mul_one]
      exact hqv

/-- Full contract of `append_cb`, by strong induction on a bound for the
product of its arguments: positive inputs yield, for all large enough
fuel, a fixed pairwise-coprime list of values at least 2 built from the
primes of `a * b`, over which both `a` and `b` factor. -/
theorem append_cb_contract : ∀ m a b, 0 < a → 0 < b → a * b ≤ m →
    AppendGood a b := by
  intro m
  induction m using Nat.strong_induction_on with
  | _ m ih =>
    intro a b ha hb hm
    by_cases hb1 : b = 1
    · subst hb1
      exact append_cb_base_good a ha
    · have hb2 : 2 ≤ b := by omega
      have hppi := gcd_ppi_ppo_spec a b ha
      set a1 := (gcd_ppi_ppo a b).2.1 with ha1def
      set r := (gcd_ppi_ppo a b).2.2 with hrdef
      have ha1r : a1 * r = a := hppi.2.1
      have hprodne := Nat.mul_ne_zero_iff.mp
        (show a1 * r ≠ 0 by rw [ha1r]; omega)
      have ha10 : 0 < a1 := by omega
      have hr0 : 0 < r := by omega
      have ha1fact : ∀ q, q.Prime → a1.factorization q =
          (if 0 < b.factorization q then a.factorization q else 0) :=
        fun q hq => (gcd_ppi_ppo_fact a b q ha (by omega) hq).1
      have hrb : Nat.Coprime r b := ppo_coprime a b ha
      set g0 := (gcd_ppg_pple a1 b).1 with hg0def
      set h0 := (gcd_ppg_pple a1 b).2.1 with hh0def
      set c0 := (gcd_ppg_pple a1 b).2.2 with hc0def
      have hgspec := gcd_ppg_pple_spec a1 b ha10
      have hcomp := gcd_ppg_pple_pos a1 b ha10
      have hh00 : 0 < h0 := hcomp.1
      have hc00 : 0 < c0 := hcomp.2
      have hg00 : 0 < g0 := by
        rw [hg0def, hgspec.1]
        exact Nat.gcd_pos_of_pos_left b ha10
      have hc0char : ∀ q, q.Prime → c0.factorization q =
          (if b.factorization q < a1.factorization q
            then 0 else a1.factorization q) :=
        fun q hq => (gcd_ppg_pple_fact a1 b q ha10 (by omega) hq).2
      have ha1vb : ∀ q, q.Prime → 0 < a1.factorization q →
          0 < b.factorization q := by
        intro q hq hpos
        by_contra hneg
        rw [ha1fact q hq, if_neg hneg] at hpos
        omega
      have ha1va : ∀ q, q.Prime → 0 < a1.factorization q →
          0 < a.factorization q := by
        intro q hq hpos
        by_cases hvb : 0 < b.factorization q
        · rw [ha1fact q hq, if_pos hvb] at hpos
          exact hpos
        · rw [ha1fact q hq, if_neg hvb] at hpos
          omega
      have ha1lea : a1 ≤ a := Nat.le_of_dvd ha ⟨r, ha1r.symm⟩
      have hrecA : ∀ a2 b2, 0 < a2 → 0 < b2 → a2 * b2 ≤ a1 →
          AppendGood a2 b2 := by
        intro a2 b2 h2 h3 h4
        have h5 : a * 2 ≤ a * b := Nat.mul_le_mul_left a hb2
        exact ih a1 (by omega) a2 b2 h2 h3 h4
      have hKbound : ∀ q, q.Prime → 0 < a1.factorization q →
          a1.factorization q ≤ 2 ^ (1 - 1 + a1) * b.factorization q := by
        intro q hq hpos
        have hvb := ha1vb q hq hpos
        have hlt : a1.factorization q < a1 := Nat.factorization_lt q (by omega)
        have hlt2 : a1 < 2 ^ a1 := Nat.lt_two_pow a1
        have h6 : 2 ^ a1 * 1 ≤ 2 ^ a1 * b.factorization q :=
          Nat.mul_le_mul_left _ hvb
        have h7 : (1 : Nat) - 1 + a1 = a1 := by omega
        rw [h7]
        omega
      have hHg0 : ∀ q, q.Prime →
          2 ^ (1 - 1) * b.factorization q < a1.factorization q →
          g0.factorization q = 2 ^ (1 - 1) * b.factorization q := by
        intro q hq hlt
        have hpow0 : (2 : Nat) ^ (1 - 1) = 1 := by norm_num
        rw [hpow0, one_mul] at hlt ⊢
        have hmin : g0.factorization q = min (a1.factorization q)
            (b.factorization q) := by
          rw [hg0def, hgspec.1]
          exact fact_gcd_apply a1 b q (by omega) (by omega)
        rw [hmin]
        omega
      have hHh0 : ∀ q, q.Prime → h0.factorization q =
          (if 2 ^ (1 - 1) * b.factorization q < a1.factorization q
            then a1.factorization q else 0) := by
        intro q hq
        have hpow0 : (2 : Nat) ^ (1 - 1) = 1 := by norm_num
        rw [hpow0, one_mul]
        exact (gcd_ppg_pple_fact a1 b q ha10 (by omega) hq).1
      obtain ⟨fuelA, E, w, hErun, hE2, hEco, hEprimes, hEfoh, hEfow, hw0,
        hwchar⟩ := append_cb_loop_contract a1 b ha10 (by omega) hrecA a1 1
        g0 h0 c0 (le_refl 1) hg00 hh00 hc00 hHg0 hHh0 hKbound
      have hEprimes2 : ∀ v ∈ E, ∀ q, q.Prime → q ∣ v →
          b.factorization q < a1.factorization q := by
        intro v hv q hq hqv
        have := hEprimes v hv q hq hqv
        have hpow0 : (2 : Nat) ^ (1 - 1) = 1 := by norm_num
        rw [hpow0, one_mul] at this
        exact this
      have hwchar2 : ∀ q, q.Prime → w.factorization q =
          (if b.factorization q < a1.factorization q
            then b.factorization q else 0) := by
        intro q hq
        have := hwchar q hq
        have hpow0 : (2 : Nat) ^ (1 - 1) = 1 := by norm_num
        rw [hpow0, one_mul] at this
        exact this
      set x2 := c0 * w with hx2def
      have hx20 : 0 < x2 := Nat.mul_pos hc00 hw0
      have hx2char : ∀ q, q.Prime → x2.factorization q =
          (if b.factorization q < a1.factorization q
            then b.factorization q else a1.factorization q) := by
        intro q hq
        rw [hx2def, fact_mul_apply c0 w q (by omega) (by omega),
          hc0char q hq, hwchar2 q hq]
        by_cases hlt : b.factorization q < a1.factorization q
        · rw [if_pos hlt, if_pos hlt, if_pos hlt]
          omega
        · rw [if_neg hlt, if_neg hlt, if_neg hlt]
          omega
      have hx2dvd : x2 ∣ b := by
        apply dvd_of_fact_le x2 b (by omega) (by omega)
        intro q hq
        rw [hx2char q hq]
        by_cases hlt : b.factorization q < a1.factorization q
        · rw [if_pos hlt]
        · rw [if_neg hlt]
          omega
      set b2 := b / x2 with hb2def
      have hb20 : 0 < b2 := Nat.div_pos (Nat.le_of_dvd (by omega) hx2dvd)
        hx20
      have hb2x2 : b2 * x2 = b := Nat.div_mul_cancel hx2dvd
      have hb2dvd : b2 ∣ b := ⟨x2, hb2x2.symm⟩
      have hb2char : ∀ q, q.Prime → b2.factorization q =
          b.factorization q - x2.factorization q := by
        intro q hq
        rw [hb2def]
        exact fact_div_apply x2 b q hx2dvd
      have hc0le : c0 ≤ a1 := Nat.le_of_dvd ha10 ⟨h0, by
        rw [Nat.mul_comm]
        exact hgspec.2.1.symm⟩
      have hchild : AppendGood b2 c0 := by
        by_cases hc01 : c0 = 1
        · rw [hc01]
          exact append_cb_base_good b2 hb20
        · have hc02 : 2 ≤ c0 := by omega
          have hx22 : 2 ≤ x2 := by
            have : 1 * 1 ≤ c0 * w := Nat.mul_le_mul (by omega) (by omega)
            have h2w : c0 * 1 ≤ c0 * w := Nat.mul_le_mul_left c0 (by omega)
            rw [hx2def]
            omega
          have hb2le : b2 ≤ b / 2 := by
            rw [hb2def]
            exact Nat.div_le_div_left hx22 (by norm_num)
          have h1 : b2 * c0 ≤ (b / 2) * a1 := Nat.mul_le_mul hb2le hc0le
          have h2 : (b / 2) * a1 ≤ (b / 2) * a :=
            Nat.mul_le_mul_left _ ha1lea
          have h3 : (b / 2) * a < b * a :=
            mul_lt_mul_of_pos_right (Nat.div_lt_self (by omega)
              (by norm_num)) ha
          have h4 : b * a = a * b := Nat.mul_comm b a
          exact ih (b2 * c0) (by omega) b2 c0 hb20 (by omega) (le_refl _)
      obtain ⟨fuelC, L3, hL3run, hL32, hL3co, hL3primes, hL3foa, hL3fob⟩ :=
        hchild
      have hL3primesb : ∀ v ∈ L3, ∀ q, q.Prime → q ∣ v → q ∣ b := by
        intro v hv q hq hqv
        have hqbc := hL3primes v hv q hq hqv
        rcases (Nat.Prime.dvd_mul hq).1 hqbc with hqb2 | hqc0
        · exact dvd_trans hqb2 hb2dvd
        · have hpos : 0 < c0.factorization q :=
            (fact_pos_iff c0 q (by omega) hq).mp hqc0
          rw [hc0char q hq] at hpos
          by_cases hlt : b.factorization q < a1.factorization q
          · rw [if_pos hlt] at hpos
            omega
          · rw [if_neg hlt] at hpos
            have hvb : 0 < b.factorization q := ha1vb q hq (by omega)
            exact (fact_pos_iff b q (by omega) hq).mpr hvb
      have hEprimesb : ∀ v ∈ E, ∀ q, q.Prime → q ∣ v → q ∣ b := by
        intro v hv q hq hqv
        have hlt := hEprimes2 v hv q hq hqv
        have hvb : 0 < b.factorization q := ha1vb q hq (by omega)
        exact (fact_pos_iff b q (by omega) hq).mpr hvb
      set e1 : List Nat := if r ≠ 1 then [r] else [] with he1def
      have he1mem : ∀ v ∈ e1, v = r := by
        intro v hv
        rw [he1def] at hv
        by_cases hr1 : r ≠ 1
        · rw [if_pos hr1] at hv
          exact List.mem_singleton.mp hv
        · rw [if_neg hr1] at hv
          simp at hv
      have hre1 : r ≠ 1 → r ∈ e1 := by
        intro hr1
        rw [he1def, if_pos hr1]
        exact List.mem_singleton.mpr rfl
      refine ⟨max fuelA fuelC + 1, e1 ++ E ++ L3, ?_, ?_, ?_, ?_, ?_, ?_⟩
      · intro fuel hfuel
        obtain ⟨F, rfl⟩ : ∃ F, fuel = F + 1 := ⟨fuel - 1, by omega⟩
        rw [append_cb_succ, if_neg hb1]
        have hfst : (ppi_ppo a b).1 = a1 := rfl
        have hsnd : (ppi_ppo a b).2 = r := rfl
        rw [hfst, hsnd, ← hg0def, ← hh0def, ← hc0def,
          hErun F (by omega)]
        simp only []
        rw [← hb2def, hL3run F (by omega)]
      · intro v hv
        rcases List.mem_append.1 hv with hm | hm
        · rcases List.mem_append.1 hm with hm2 | hm2
          · have hvr := he1mem v hm2
            subst hvr
            have : r ≠ 1 := by
              intro hr1
              rw [he1def, hr1] at hm2
              simp at hm2
            omega
          · exact hE2 v hm2
        · exact hL32 v hm
      · rw [List.pairwise_append]
        refine ⟨?_, hL3co, ?_⟩
        · rw [List.pairwise_append]
          refine ⟨?_, hEco, ?_⟩
          · rw [he1def]
            by_cases hr1 : r ≠ 1
            · rw [if_pos hr1]
              exact List.pairwise_singleton Nat.Coprime r
            · rw [if_neg hr1]
              exact List.Pairwise.nil
          · intro u hu v hv
            have hur := he1mem u hu
            subst hur
            apply coprime_of_primes
            intro q hq hqr hqv
            exact coprime_prime_dvd r b q hrb hq hqr
              (hEprimesb v hv q hq hqv)
        · intro u hu v hv
          rcases List.mem_append.1 hu with hm | hm
          · have hur := he1mem u hm
            subst hur
            apply coprime_of_primes
            intro q hq hqr hqv
            exact coprime_prime_dvd r b q hrb hq hqr
              (hL3primesb v hv q hq hqv)
          · apply coprime_of_primes
            intro q hq hqu hqv
            have hlt := hEprimes2 u hm q hq hqu
            have hqbc := hL3primes v hv q hq hqv
            have hpos : 0 < (b2 * c0).factorization q :=
              (fact_pos_iff (b2 * c0) q
                (by have := Nat.mul_pos hb20 hc00; omega) hq).mp hqbc
            rw [fact_mul_apply b2 c0 q (by omega) (by omega),
              hb2char q hq, hx2char q hq, hc0char q hq, if_pos hlt,
              if_pos hlt] at hpos
            omega
      · intro v hv q hq hqv
        rcases List.mem_append.1 hv with hm | hm
        · rcases List.mem_append.1 hm with hm2 | hm2
          · have hvr := he1mem v hm2
            subst hvr
            have hra : r ∣ a := ⟨a1, by rw [Nat.mul_comm]; exact ha1r.symm⟩
            exact dvd_mul_of_dvd_left (dvd_trans hqv hra) b
          · have hlt := hEprimes2 v hm2 q hq hqv
            have hva : 0 < a.factorization q := ha1va q hq (by omega)
            exact dvd_mul_of_dvd_left
              ((fact_pos_iff a q (by omega) hq).mpr hva) b
        · exact dvd_mul_of_dvd_right (hL3primesb v hm q hq hqv) a
      · have hfo_r : FactorsOver r (e1 ++ E ++ L3) := by
          by_cases hr1 : r = 1
          · rw [hr1]
            exact fo_one _
          · exact fo_mem _ r (List.mem_append_left L3
              (List.mem_append_left E (hre1 hr1)))
        have hfo_h0 : FactorsOver h0 (e1 ++ E ++ L3) :=
          fo_append_left _ L3 h0 (fo_append_right e1 E h0 hEfoh)
        have hfo_c0 : FactorsOver c0 (e1 ++ E ++ L3) :=
          fo_append_right _ L3 c0 hL3fob
        have hfo : FactorsOver (h0 * c0 * r) (e1 ++ E ++ L3) :=
          fo_mul _ _ _ (fo_mul _ _ _ hfo_h0 hfo_c0) hfo_r
        rw [hgspec.2.1] at hfo
        rwa [ha1r] at hfo
      · have hfo_b2 : FactorsOver b2 (e1 ++ E ++ L3) :=
          fo_append_right _ L3 b2 hL3foa
        have hfo_c0 : FactorsOver c0 (e1 ++ E ++ L3) :=
          fo_append_right _ L3 c0 hL3fob
        have hfo_w : FactorsOver w (e1 ++ E ++ L3) :=
          fo_append_left _ L3 w (fo_append_right e1 E w hEfow)
        have hfo : FactorsOver (b2 * (c0 * w)) (e1 ++ E ++ L3) :=
          fo_mul _ _ _ hfo_b2 (fo_mul _ _ _ hfo_c0 hfo_w)
        rw [← hx2def] at hfo
        rwa [hb2x2] at hfo

/-- `ppi v x` is `v` itself when every prime of `v` divides `x`. -/
theorem ppi_eq_self (v x : Nat) (hv : 0 < v)
    (h : ∀ q, q.Prime → q ∣ v → q ∣ x) : ppi v x = v := by
  apply pp_decomp_unique x (ppi v x) ((gcd_ppi_ppo v x).2.2) v 1
  · rw [ppi_mul_ppo v x hv]
    exact hv
  · rw [ppi_mul_ppo v x hv, Nat.mul_one]
  · exact ppi_primes v x hv
  · exact ppo_coprime v x hv
  · exact h
  · exact Nat.coprime_one_left x

/-- `array_prod` of a list of positive values is positive. -/
theorem array_prod_pos (l : List Nat) (h : ∀ v ∈ l, 0 < v) :
    0 < array_prod l := by
  rw [array_prod]
  by_cases hlen : l.length > 0
  · rw [if_pos hlen]
    apply prod_pos_of_pos l (l.length - 1 - 0) 0 (l.length - 1) rfl (by omega)
    intro j _ hj2
    exact h _ (getD_mem_of_lt l j (by omega))
  · rw [if_neg hlen]
    norm_num

/-- A prime dividing `array_prod` divides some entry. -/
theorem array_prod_prime (l : List Nat) (q : Nat) (hq : q.Prime)
    (hd : q ∣ array_prod l) : ∃ u ∈ l, q ∣ u := by
  rw [array_prod] at hd
  by_cases hlen : l.length > 0
  · rw [if_pos hlen] at hd
    obtain ⟨i, _, h2, h3⟩ := prime_dvd_prod l (l.length - 1 - 0) 0
      (l.length - 1) q rfl (by omega) hq hd
    exact ⟨l.getD i 0, getD_mem_of_lt l i (by omega), h3⟩
  · rw [if_neg hlen] at hd
    exact absurd (Nat.eq_one_of_dvd_one hd) hq.ne_one

/-- Every in-range entry divides `array_prod`. -/
theorem getD_dvd_array_prod (l : List Nat) (i : Nat) (hi : i < l.length) :
    l.getD i 0 ∣ array_prod l := by
  rw [array_prod, if_pos (by omega)]
  exact getD_dvd_prod l (l.length - 1 - 0) 0 (l.length - 1) i rfl (by omega)
    (by omega)

/-- Contract of the final loop of `cbextend`: folding `append_cb` over a
list of pairs whose first components are at least 2 and pairwise coprime
and whose second components are positive with all primes inside the first
component. -/
theorem append_cb_list_contract : ∀ ps : List (Nat × Nat),
    (∀ pc ∈ ps, 2 ≤ pc.1 ∧ 0 < pc.2 ∧
      (∀ q, q.Prime → q ∣ pc.2 → q ∣ pc.1)) →
    List.Pairwise (fun u v => Nat.Coprime u.1 v.1) ps →
    ∃ fuel0 En, (∀ fuel, fuel0 ≤ fuel → append_cb_list fuel ps = some En) ∧
      (∀ v ∈ En, 2 ≤ v) ∧ List.Pairwise Nat.Coprime En ∧
      (∀ v ∈ En, ∀ q, q.Prime → q ∣ v → ∃ pc ∈ ps, q ∣ pc.1) ∧
      (∀ pc ∈ ps, FactorsOver pc.1 En ∧ FactorsOver pc.2 En) := by
  intro ps
  induction ps with
  | nil =>
    intro _ _
    exact ⟨0, [], fun fuel _ => rfl, by simp, List.Pairwise.nil, by simp,
      by simp⟩
  | cons pc rest ih =>
    intro hps hco
    rw [List.pairwise_cons] at hco
    obtain ⟨hpc1, hpc2, hpcpr⟩ := hps pc (List.mem_cons_self pc rest)
    obtain ⟨fuelA, L0, hL0run, hL02, hL0co, hL0primes, hL0foa, hL0fob⟩ :=
      append_cb_contract (pc.1 * pc.2) pc.1 pc.2 (by omega) hpc2 (le_refl _)
    obtain ⟨fuelB, En, hEnrun, hEn2, hEnco, hEnprimes, hEnfo⟩ :=
      ih (fun u hu => hps u (List.mem_cons_of_mem pc hu)) hco.2
    have hL0p1 : ∀ v ∈ L0, ∀ q, q.Prime → q ∣ v → q ∣ pc.1 := by
      intro v hv q hq hqv
      rcases (Nat.Prime.dvd_mul hq).1 (hL0primes v hv q hq hqv) with h | h
      · exact h
      · exact hpcpr q hq h
    refine ⟨max fuelA fuelB, L0 ++ En, ?_, ?_, ?_, ?_, ?_⟩
    · intro fuel hfuel
      simp only [append_cb_list]
      rw [hL0run fuel (by omega)]
      simp only []
      rw [hEnrun fuel (by omega)]
    · intro v hv
      rcases List.mem_append.1 hv with hm | hm
      · exact hL02 v hm
      · exact hEn2 v hm
    · rw [List.pairwise_append]
      refine ⟨hL0co, hEnco, ?_⟩
      intro u hu v hv
      apply coprime_of_primes
      intro q hq hqu hqv
      obtain ⟨pc2, hpc2mem, hqpc2⟩ := hEnprimes v hv q hq hqv
      exact coprime_prime_dvd pc.1 pc2.1 q (hco.1 pc2 hpc2mem) hq
        (hL0p1 u hu q hq hqu) hqpc2
    · intro v hv q hq hqv
      rcases List.mem_append.1 hv with hm | hm
      · exact ⟨pc, List.mem_cons_self pc rest, hL0p1 v hm q hq hqv⟩
      · obtain ⟨pc2, hmem, hd⟩ := hEnprimes v hm q hq hqv
        exact ⟨pc2, List.mem_cons_of_mem pc hmem, hd⟩
    · intro pc2 hmem
      rcases List.mem_cons.1 hmem with heq | hmem2
      · subst heq
        exact ⟨fo_append_left L0 En _ hL0foa, fo_append_left L0 En _ hL0fob⟩
      · obtain ⟨h1, h2⟩ := hEnfo pc2 hmem2
        exact ⟨fo_append_right L0 En _ h1, fo_append_right L0 En _ h2⟩

/-- Contract of `cbextend` for a non-empty pairwise-coprime base of values
at least 2 and a positive `b`: for large enough fuel it returns a fixed
list of pairwise-coprime values at least 2, built from primes of `b` and
of the base, over which `b` and every base element factor. -/
theorem cbextend_contract (P : List Nat) (b : Nat) (hb : 0 < b)
    (hP : P ≠ []) (hP2 : ∀ v ∈ P, 2 ≤ v)
    (hPco : List.Pairwise Nat.Coprime P) :
    ∃ fuel0 L, (∀ fuel, fuel0 ≤ fuel → cbextend fuel P b = some L) ∧
      (∀ v ∈ L, 2 ≤ v) ∧ List.Pairwise Nat.Coprime L ∧
      (∀ v ∈ L, ∀ q, q.Prime → q ∣ v → q ∣ b ∨ ∃ u ∈ P, q ∣ u) ∧
      (∀ x ∈ P, FactorsOver x L) ∧ FactorsOver b L := by
  have hlen : 0 < P.length := List.length_pos.mpr hP
  have hgetD2 : ∀ j, j < P.length → 2 ≤ P.getD j 0 := fun j hj =>
    hP2 _ (getD_mem_of_lt P j hj)
  have hcoidx : ∀ i j, i < j → j < P.length →
      Nat.Coprime (P.getD i 0) (P.getD j 0) := by
    intro i j hij hj
    exact pairwise_getD_coprime P hPco i j (by omega) hj (by omega)
  set x := array_prod P with hxdef
  have hx0 : 0 < x := array_prod_pos P (fun v hv => by
    have := hP2 v hv; omega)
  set av := (gcd_ppi_ppo b x).2.1 with havdef
  set r := (gcd_ppi_ppo b x).2.2 with hrdef
  have hbspec := gcd_ppi_ppo_spec b x hb
  have havr : av * r = b := hbspec.2.1
  have hne := Nat.mul_ne_zero_iff.mp (show av * r ≠ 0 by rw [havr]; omega)
  have hav0 : 0 < av := by omega
  have hr0 : 0 < r := by omega
  have hrx : Nat.Coprime r x := ppo_coprime b x hb
  have havprimes : ∀ q, q.Prime → q ∣ av → q ∣ x := ppi_primes b x hb
  have hrbdvd : r ∣ b := ⟨av, by rw [Nat.mul_comm]; exact havr.symm⟩
  have hsplit := split_spec P hcoidx (P.length - 1 - 0) 0 (P.length - 1) av
    rfl (by omega) (by omega) hav0
  set S := array_split av P with hSdef
  have hSeq : S = split av P 0 (P.length - 1) := by
    rw [hSdef, array_split, if_pos hlen]
  have hSlen : S.length = P.length := by
    rw [hSeq, hsplit.1]
    omega
  have hprodx : prod P 0 (P.length - 1) = x := by
    rw [hxdef, array_prod, if_pos hlen]
  have hSprod : S.prod = av := by
    rw [hSeq, hsplit.2.1, hprodx]
    exact ppi_eq_self av x hav0 havprimes
  have hSpos : ∀ v ∈ S, 1 ≤ v := by
    rw [hSeq]
    exact split_ge_one P (P.length - 1 - 0) 0 (P.length - 1) av rfl hav0
  have hSprimes : ∀ j, j < P.length → ∀ q, q.Prime → q ∣ S.getD j 0 →
      q ∣ P.getD j 0 := by
    intro j hj q hq hqd
    rw [hSeq] at hqd
    have h2 := hsplit.2.2 j (by rw [hsplit.1]; omega) q hq hqd
    simpa using h2
  have hzip_len : (P.zip S).length = P.length := by
    rw [List.length_zip, hSlen]
    omega
  have hzipmem : ∀ pc ∈ P.zip S, ∃ i, i < P.length ∧
      pc.1 = P.getD i 0 ∧ pc.2 = S.getD i 0 := by
    intro pc hpc
    obtain ⟨i, hi, hpceq⟩ := List.mem_iff_getElem.mp hpc
    have hiP : i < P.length := by rw [hzip_len] at hi; exact hi
    have hiS : i < S.length := by omega
    subst hpceq
    rw [List.getElem_zip]
    refine ⟨i, hiP, ?_, ?_⟩
    · rw [List.getD_eq_getElem P 0 hiP]
    · rw [List.getD_eq_getElem S 0 hiS]
  have hzip_h : ∀ pc ∈ P.zip S, 2 ≤ pc.1 ∧ 0 < pc.2 ∧
      (∀ q, q.Prime → q ∣ pc.2 → q ∣ pc.1) := by
    intro pc hpc
    obtain ⟨i, hi, h1, h2⟩ := hzipmem pc hpc
    refine ⟨?_, ?_, ?_⟩
    · rw [h1]
      exact hgetD2 i hi
    · rw [h2]
      exact hSpos _ (getD_mem_of_lt S i (by omega))
    · intro q hq hqd
      rw [h2] at hqd
      rw [h1]
      exact hSprimes i hi q hq hqd
  have hzip_co : List.Pairwise (fun u v => Nat.Coprime u.1 v.1) (P.zip S) := by
    rw [List.pairwise_iff_getElem]
    intro i j hi hj hij
    have hiP : i < P.length := by rw [hzip_len] at hi; exact hi
    have hjP : j < P.length := by rw [hzip_len] at hj; exact hj
    rw [List.getElem_zip, List.getElem_zip]
    show Nat.Coprime P[i] P[j]
    have hco := pairwise_getD_coprime P hPco i j hiP hjP (by omega)
    rw [List.getD_eq_getElem P 0 hiP, List.getD_eq_getElem P 0 hjP] at hco
    exact hco
  obtain ⟨fuelA, En, hEnrun, hEn2, hEnco, hEnprimes, hEnfo⟩ :=
    append_cb_list_contract (P.zip S) hzip_h hzip_co
  have hEnprimesx : ∀ v ∈ En, ∀ q, q.Prime → q ∣ v → ∃ u ∈ P, q ∣ u := by
    intro v hv q hq hqv
    obtain ⟨pc, hpcmem, hqpc⟩ := hEnprimes v hv q hq hqv
    obtain ⟨i, hi, h1, _⟩ := hzipmem pc hpcmem
    rw [h1] at hqpc
    exact ⟨P.getD i 0, getD_mem_of_lt P i hi, hqpc⟩
  set e2 : List Nat := if r ≠ 1 then [r] else [] with he2def
  have he2mem : ∀ v ∈ e2, v = r := by
    intro v hv
    rw [he2def] at hv
    by_cases hr1 : r ≠ 1
    · rw [if_pos hr1] at hv
      exact List.mem_singleton.mp hv
    · rw [if_neg hr1] at hv
      simp at hv
  refine ⟨fuelA, e2 ++ En, ?_, ?_, ?_, ?_, ?_, ?_⟩
  · intro fuel hfuel
    simp only [cbextend]
    rw [if_neg (show ¬ P.length = 0 by omega), ← hxdef,
      show (ppi_ppo b x).1 = av from rfl, show (ppi_ppo b x).2 = r from rfl,
      ← hSdef, if_neg (show ¬ P.length ≠ S.length by
        intro hne2; exact hne2 hSlen.symm),
      hEnrun fuel hfuel]
    simp only []
    rw [← he2def, List.nil_append]
  · intro v hv
    rcases List.mem_append.1 hv with hm | hm
    · have hvr := he2mem v hm
      subst hvr
      have : r ≠ 1 := by
        intro hr1
        rw [he2def, hr1] at hm
        simp at hm
      omega
    · exact hEn2 v hm
  · rw [List.pairwise_append]
    refine ⟨?_, hEnco, ?_⟩
    · rw [he2def]
      by_cases hr1 : r ≠ 1
      · rw [if_pos hr1]
        exact List.pairwise_singleton Nat.Coprime r
      · rw [if_neg hr1]
        exact List.Pairwise.nil
    · intro u hu v hv
      have hur := he2mem u hu
      subst hur
      apply coprime_of_primes
      intro q hq hqr hqv
      obtain ⟨w2, hw2mem, hqw2⟩ := hEnprimesx v hv q hq hqv
      obtain ⟨i, hi, hw2eq⟩ := List.mem_iff_getElem.mp hw2mem
      have hqx : q ∣ x := by
        apply dvd_trans _ (getD_dvd_array_prod P i hi)
        rw [List.getD_eq_getElem P 0 hi, hw2eq]
        exact hqw2
      exact coprime_prime_dvd r x q hrx hq hqr hqx
  · intro v hv q hq hqv
    rcases List.mem_append.1 hv with hm | hm
    · have hvr := he2mem v hm
      subst hvr
      exact Or.inl (dvd_trans hqv hrbdvd)
    · exact Or.inr (hEnprimesx v hm q hq hqv)
  · intro u hu
    obtain ⟨i, hi, hieq⟩ := List.mem_iff_getElem.mp hu
    have hizip : i < (P.zip S).length := by omega
    have hfo := (hEnfo _ (List.getElem_mem hizip)).1
    rw [List.getElem_zip] at hfo
    have hfo2 : FactorsOver u En := by
      rw [← hieq]
      exact hfo
    exact fo_append_right e2 En u hfo2
  · have hfoS : ∀ y ∈ S, FactorsOver y En := by
      intro y hy
      obtain ⟨i, hi, hieq⟩ := List.mem_iff_getElem.mp hy
      have hizip : i < (P.zip S).length := by omega
      have hfo := (hEnfo _ (List.getElem_mem hizip)).2
      rw [List.getElem_zip] at hfo
      rw [← hieq]
      exact hfo
    have hfoav : FactorsOver av En := by
      rw [← hSprod]
      exact fo_list_prod En S hfoS
    have hfor : FactorsOver r (e2 ++ En) := by
      by_cases hr1 : r = 1
      · rw [hr1]
        exact fo_one _
      · apply fo_mem
        apply List.mem_append_left
        rw [he2def, if_pos hr1]
        exact List.mem_singleton.mpr rfl
    have hfob : FactorsOver (av * r) (e2 ++ En) :=
      fo_mul _ _ _ (fo_append_right e2 En av hfoav) hfor
    rwa [havr] at hfob

/-- `prod` over a range equals the power product with all exponents 1. -/
theorem prod_eq_pows_seg (l : List Nat) : ∀ d f t, t - f = d → f ≤ t →
    prod l f t = pows_seg l (fun _ => 1) f t := by
  intro d
  induction d using Nat.strong_induction_on with
  | _ d ih =>
    intro f t hd hft
    by_cases h0 : t - f = 0
    · have htf : t = f := by omega
      subst htf
      rw [prod_base l t t (by omega), pows_seg_base, pow_one]
    · rw [prod_step l f t h0,
        pows_seg_split l (fun _ => 1) f t (t - (t - f) / 2 - 1) (by omega)
          (by omega),
        ih (t - (t - f) / 2 - 1 - f) (by omega) f (t - (t - f) / 2 - 1) rfl
          (by omega),
        ih (t - (t - (t - f) / 2)) (by omega) (t - (t - f) / 2) t rfl
          (by omega)]
      have h1 : t - (t - f) / 2 - 1 + 1 = t - (t - f) / 2 := by omega
      rw [h1]

/-- `array_prod` is the plain product of the list. -/
theorem array_prod_eq_prod (l : List Nat) : array_prod l = l.prod := by
  by_cases hlen : l.length > 0
  · rw [array_prod, if_pos hlen,
      prod_eq_pows_seg l (l.length - 1 - 0) 0 (l.length - 1) rfl (by omega)]
    unfold pows_seg
    have h1 : l.length - 1 + 1 - 0 = l.length := by omega
    rw [h1]
    have h2 : (List.range l.length).map (fun j => l.getD (0 + j) 0 ^ 1)
        = l := by
      apply List.ext_getElem (by simp)
      intro i h1i h2i
      simp only [List.getElem_map, List.getElem_range]
      rw [pow_one, Nat.zero_add, List.getD_eq_getElem l 0 h2i]
    rw [h2]
  · have hnil : l = [] := by
      cases l with
      | nil => rfl
      | cons a l2 => simp at hlen
    subst hnil
    rfl

/-- Prime exponent of the product of a filtered selection of entries of a
pairwise-coprime list, in the presence of an entry divisible by the
prime: only that entry can contribute. -/
theorem filter_prod_fact (Q : List Nat) (hQ1 : ∀ v ∈ Q, 1 ≤ v)
    (hQco : List.Pairwise Nat.Coprime Q) (cond : Nat → Bool) (q : Nat)
    (hq : q.Prime) (k0 : Nat) (hk0 : k0 < Q.length)
    (hqk0 : q ∣ Q.getD k0 0) :
    ((((List.range Q.length).filter cond).map
      (fun k => Q.getD k 0)).prod).factorization q
      = (if cond k0 then (Q.getD k0 0).factorization q else 0) := by
  rw [list_prod_fact q _ (by
    intro v hv
    rw [List.mem_map] at hv
    obtain ⟨k, hk, hkv⟩ := hv
    have hkmem := List.mem_of_mem_filter hk
    rw [List.mem_range] at hkmem
    have := hQ1 _ (getD_mem_of_lt Q k hkmem)
    omega)]
  rw [List.map_map]
  have hzero : ∀ k ∈ (List.range Q.length).filter cond, k ≠ k0 →
      ((fun v => v.factorization q) ∘ (fun k => Q.getD k 0)) k = 0 := by
    intro k hk hkk
    have hkmem := List.mem_of_mem_filter hk
    rw [List.mem_range] at hkmem
    show (Q.getD k 0).factorization q = 0
    by_contra hne
    have hpos1 : 1 ≤ Q.getD k 0 := hQ1 _ (getD_mem_of_lt Q k hkmem)
    have hdvd : q ∣ Q.getD k 0 :=
      (fact_pos_iff _ q (by omega) hq).mpr (by omega)
    exact coprime_prime_dvd _ _ q
      (pairwise_getD_coprime Q hQco k k0 hkmem hk0 hkk) hq hdvd hqk0
  rw [map_sum_eq_single _ _ ((List.nodup_range Q.length).filter cond) k0
    hzero]
  by_cases hcond : cond k0 = true
  · rw [if_pos (List.mem_filter.mpr ⟨List.mem_range.mpr hk0, hcond⟩),
      if_pos hcond]
    rfl
  · rw [if_neg (fun hmem => hcond (List.mem_filter.mp hmem).2),
      if_neg (by simpa using hcond)]

/-- Prime exponent of the product of a filtered selection when no entry is
divisible by the prime: it vanishes. -/
theorem filter_prod_fact_none (Q : List Nat) (hQ1 : ∀ v ∈ Q, 1 ≤ v)
    (cond : Nat → Bool) (q : Nat) (hq : q.Prime)
    (hnone : ∀ k, k < Q.length → ¬ q ∣ Q.getD k 0) :
    ((((List.range Q.length).filter cond).map
      (fun k => Q.getD k 0)).prod).factorization q = 0 := by
  rw [list_prod_fact q _ (by
    intro v hv
    rw [List.mem_map] at hv
    obtain ⟨k, hk, hkv⟩ := hv
    have hkmem := List.mem_of_mem_filter hk
    rw [List.mem_range] at hkmem
    have := hQ1 _ (getD_mem_of_lt Q k hkmem)
    omega)]
  rw [List.map_map]
  apply List.sum_eq_zero
  intro v hv
  rw [List.mem_map] at hv
  obtain ⟨k, hk, hkv⟩ := hv
  have hkmem := List.mem_of_mem_filter hk
  rw [List.mem_range] at hkmem
  rw [← hkv]
  show (Q.getD k 0).factorization q = 0
  by_contra hne
  have hpos1 : 1 ≤ Q.getD k 0 := hQ1 _ (getD_mem_of_lt Q k hkmem)
  exact hnone k hkmem ((fact_pos_iff _ q (by omega) hq).mpr (by omega))

/-- `bit` is the indicator of `testBit`. -/
theorem bit_eq_testBit (i k : Nat) :
    bit i k = (if k.testBit i then 1 else 0) := by
  rw [bit, Nat.one_shiftLeft, Nat.and_two_pow]
  cases h2 : k.testBit i
  · simp [h2]
  · have hne : 2 ^ i ≠ 0 := by
      have := Nat.two_pow_pos i
      omega
    simp [h2, hne]

/-- `bit` takes only the values 0 and 1. -/
theorem bit_cases (i k : Nat) : bit i k = 0 ∨ bit i k = 1 := by
  rw [bit_eq_testBit]
  cases k.testBit i
  · simp
  · simp

/-- Numbers below `2^b` agreeing on bits `0 .. b-1` are equal. -/
theorem bit_agree (bc k k2 : Nat) (hk : k < 2 ^ bc) (hk2 : k2 < 2 ^ bc)
    (h : ∀ i, i < bc → bit i k = bit i k2) : k = k2 := by
  apply Nat.eq_of_testBit_eq
  intro i
  by_cases hi : i < bc
  · have hbit := h i hi
    rw [bit_eq_testBit, bit_eq_testBit] at hbit
    cases h1 : k.testBit i <;> cases h2 : k2.testBit i <;>
      rw [h1, h2] at hbit <;> simp at hbit ⊢
  · have hle : 2 ^ bc ≤ 2 ^ i :=
      Nat.pow_le_pow_right (by norm_num) (by omega)
    rw [Nat.testBit_eq_false_of_lt (by omega),
      Nat.testBit_eq_false_of_lt (by omega)]

/-- A filter over `range n` whose condition holds exactly at `k` yields
the singleton `[k]`. -/
theorem filter_singleton_range : ∀ n k, k < n → ∀ cond : Nat → Bool,
    (∀ j, j < n → (cond j = true ↔ j = k)) →
    (List.range n).filter cond = [k] := by
  intro n
  induction n with
  | zero => intro k hk; omega
  | succ n ih =>
    intro k hk cond hcond
    rw [List.range_succ, List.filter_append]
    by_cases hkn : k = n
    · subst hkn
      have h1 : (List.range k).filter cond = [] := by
        rw [List.filter_eq_nil_iff]
        intro j hj
        rw [List.mem_range] at hj
        rw [hcond j (by omega)]
        omega
      have h2 : List.filter cond [k] = [k] := by
        rw [List.filter_singleton, (hcond k (by omega)).mpr rfl]
        rfl
      rw [h1, h2]
      rfl
    · have hklt : k < n := by omega
      have h2 : List.filter cond [n] = [] := by
        rw [List.filter_singleton]
        have : cond n = false := by
          by_contra hc
          have : cond n = true := by
            cases h3 : cond n
            · exact absurd h3 hc
            · rfl
          exact hkn ((hcond n (by omega)).mp this).symm
        rw [this]
        rfl
      rw [h2, ih k hklt cond (fun j hj => hcond j (by omega))]
      rfl

/-- Members of a bit selection are members of the selected list. -/
theorem select_bits_mem (Q : List Nat) (i c u : Nat)
    (hu : u ∈ select_bits Q i c) : u ∈ Q := by
  rw [select_bits, List.mem_map] at hu
  obtain ⟨k, hk, hku⟩ := hu
  have hkmem := List.mem_of_mem_filter hk
  rw [List.mem_range] at hkmem
  rw [← hku]
  exact getD_mem_of_lt Q k hkmem

/-- Contract of the `cbmerge` loop: starting from a non-empty
pairwise-coprime base `s` of values at least 2, the remaining rounds
produce a base of the same kind over which every element of `s` and every
bit-selection product of `Q` for the processed bit positions factor. -/
theorem cbmerge_loop_contract (Q : List Nat) (hQ2 : ∀ v ∈ Q, 2 ≤ v) :
    ∀ rem i s, s ≠ [] → (∀ v ∈ s, 2 ≤ v) → List.Pairwise Nat.Coprime s →
    ∃ fuel0 R, (∀ fuel, fuel0 ≤ fuel →
        cbmerge_loop fuel Q i rem s = some R) ∧
      (∀ v ∈ R, 2 ≤ v) ∧ List.Pairwise Nat.Coprime R ∧
      (∀ v ∈ R, ∀ q, q.Prime → q ∣ v →
        (∃ u ∈ s, q ∣ u) ∨ (∃ u ∈ Q, q ∣ u)) ∧
      (∀ x ∈ s, FactorsOver x R) ∧
      (∀ i2 c, i ≤ i2 → i2 < i + rem → c ≤ 1 →
        FactorsOver (array_prod (select_bits Q i2 c)) R) ∧
      R ≠ [] := by
  intro rem
  induction rem with
  | zero =>
    intro i s hs hs2 hsco
    refine ⟨0, s, fun fuel _ => rfl, hs2, hsco, ?_,
      fun x hx => fo_mem s x hx, ?_, hs⟩
    · intro v hv q hq hqv
      exact Or.inl ⟨v, hv, hqv⟩
    · intro i2 c h1 h2
      omega
  | succ rem ih =>
    intro i s hs hs2 hsco
    have hQpos : ∀ v ∈ Q, 0 < v := fun v hv => by have := hQ2 v hv; omega
    have hx00 : 0 < array_prod (select_bits Q i 0) :=
      array_prod_pos _ (fun v hv => hQpos v (select_bits_mem Q i 0 v hv))
    obtain ⟨fuelA, T, hTrun, hT2, hTco, hTprimes, hTfoP, hTfob⟩ :=
      cbextend_contract s (array_prod (select_bits Q i 0)) hx00 hs hs2 hsco
    have hT : T ≠ [] := by
      intro hTnil
      obtain ⟨v0, hv0⟩ := List.exists_mem_of_ne_nil s hs
      have hfo := hTfoP v0 hv0
      rw [hTnil] at hfo
      have h1 := fo_nil v0 hfo
      have h2 := hs2 v0 hv0
      omega
    have hx10 : 0 < array_prod (select_bits Q i 1) :=
      array_prod_pos _ (fun v hv => hQpos v (select_bits_mem Q i 1 v hv))
    obtain ⟨fuelB, S2, hS2run, hS22, hS2co, hS2primes, hS2foT, hS2fob⟩ :=
      cbextend_contract T (array_prod (select_bits Q i 1)) hx10 hT hT2 hTco
    have hS2ne : S2 ≠ [] := by
      intro hnil
      obtain ⟨v0, hv0⟩ := List.exists_mem_of_ne_nil T hT
      have hfo := hS2foT v0 hv0
      rw [hnil] at hfo
      have h1 := fo_nil v0 hfo
      have h2 := hT2 v0 hv0
      omega
    obtain ⟨fuelC, R, hRrun, hR2, hRco, hRprimes, hRfoS2, hRfosel, hRne⟩ :=
      ih (i + 1) S2 hS2ne hS22 hS2co
    refine ⟨max fuelA (max fuelB fuelC), R, ?_, hR2, hRco, ?_, ?_, ?_, hRne⟩
    · intro fuel hfuel
      rw [cbmerge_loop_succ, hTrun fuel (by omega)]
      simp only []
      rw [hS2run fuel (by omega)]
      simp only []
      exact hRrun fuel (by omega)
    · intro v hv q hq hqv
      rcases hRprimes v hv q hq hqv with ⟨u, hu, hqu⟩ | hQside
      · rcases hS2primes u hu q hq hqu with hqx1 | ⟨u2, hu2, hqu2⟩
        · obtain ⟨u3, hu3, hq3⟩ := array_prod_prime _ q hq hqx1
          exact Or.inr ⟨u3, select_bits_mem Q i 1 u3 hu3, hq3⟩
        · rcases hTprimes u2 hu2 q hq hqu2 with hqx0 | ⟨u4, hu4, hq4⟩
          · obtain ⟨u5, hu5, hq5⟩ := array_prod_prime _ q hq hqx0
            exact Or.inr ⟨u5, select_bits_mem Q i 0 u5 hu5, hq5⟩
          · exact Or.inl ⟨u4, hu4, hq4⟩
      · exact Or.inr hQside
    · intro x hx
      have h1 : FactorsOver x T := hTfoP x hx
      have h2 : FactorsOver x S2 := fo_elem T S2 x h1 hS2foT
      exact fo_elem S2 R x h2 hRfoS2
    · intro i2 c hi2 hi2b hc
      by_cases hii : i2 = i
      · subst hii
        rcases Nat.le_one_iff_eq_zero_or_eq_one.mp hc with hc0 | hc1
        · subst hc0
          have h2 : FactorsOver (array_prod (select_bits Q i2 0)) S2 :=
            fo_elem T S2 _ hTfob hS2foT
          exact fo_elem S2 R _ h2 hRfoS2
        · subst hc1
          exact fo_elem S2 R _ hS2fob hRfoS2
      · exact hRfosel i2 c (by omega) (by omega) hc

/-- Contract of `cbmerge`: merging a non-empty pairwise-coprime base `P`
with a pairwise-coprime base `Q` (both of values at least 2) yields, for
large enough fuel, a base of the same kind over which every element of
both inputs factors, built only from primes of the inputs. -/
theorem cbmerge_contract (P Q : List Nat) (hP : P ≠ [])
    (hP2 : ∀ v ∈ P, 2 ≤ v) (hPco : List.Pairwise Nat.Coprime P)
    (hQ2 : ∀ v ∈ Q, 2 ≤ v) (hQco : List.Pairwise Nat.Coprime Q) :
    ∃ fuel0 R, (∀ fuel, fuel0 ≤ fuel → cbmerge fuel P Q = some R) ∧
      (∀ v ∈ R, 2 ≤ v) ∧ List.Pairwise Nat.Coprime R ∧
      (∀ v ∈ R, ∀ q, q.Prime → q ∣ v →
        (∃ u ∈ P, q ∣ u) ∨ (∃ u ∈ Q, q ∣ u)) ∧
      (∀ x ∈ P, FactorsOver x R) ∧ (∀ x ∈ Q, FactorsOver x R) ∧
      R ≠ [] := by
  obtain ⟨fuel0, R, hRrun, hR2, hRco, hRprimes, hRfoP, hRfosel, hRne⟩ :=
    cbmerge_loop_contract Q hQ2 (find_b Q.length) 0 P hP hP2 hPco
  have hfb := find_b_loop_spec Q.length (Q.length - 2 ^ 0) 0 rfl
  have hQlen : Q.length ≤ 2 ^ find_b Q.length := hfb.1
  have hb1 : 1 ≤ find_b Q.length := hfb.2.1
  have hR1 : ∀ x ∈ R, 1 ≤ x := fun x hx => by have := hR2 x hx; omega
  have hQ1 : ∀ v ∈ Q, 1 ≤ v := fun v hv => by have := hQ2 v hv; omega
  have hselpos : ∀ i2 c, 0 < array_prod (select_bits Q i2 c) := fun i2 c =>
    array_prod_pos _ (fun v hv => by
      have := hQ2 v (select_bits_mem Q i2 c v hv)
      omega)
  have hselfact : ∀ i2 c q, q.Prime → ∀ k0, k0 < Q.length →
      q ∣ Q.getD k0 0 →
      (array_prod (select_bits Q i2 c)).factorization q =
        (if bit i2 k0 = c then (Q.getD k0 0).factorization q else 0) := by
    intro i2 c q hq k0 hk0 hqk0
    rw [array_prod_eq_prod, select_bits,
      filter_prod_fact Q hQ1 hQco _ q hq k0 hk0 hqk0]
    by_cases h : bit i2 k0 = c
    · rw [if_pos (decide_eq_true h), if_pos h]
    · rw [if_neg (fun h2 => h (of_decide_eq_true h2)), if_neg h]
  have hselfact0 : ∀ i2 c q, q.Prime →
      (∀ k, k < Q.length → ¬ q ∣ Q.getD k 0) →
      (array_prod (select_bits Q i2 c)).factorization q = 0 := by
    intro i2 c q hq hnone
    rw [array_prod_eq_prod, select_bits]
    exact filter_prod_fact_none Q hQ1 _ q hq hnone
  refine ⟨fuel0, R, hRrun, hR2, hRco, hRprimes, hRfoP, ?_, hRne⟩
  intro y hy
  obtain ⟨k, hk, hkeq⟩ := List.mem_iff_getElem.mp hy
  have hy2 : 2 ≤ y := hQ2 y hy
  have key : ∀ j, j ≤ find_b Q.length → ∃ A, 0 < A ∧ FactorsOver A R ∧
      ∀ q, q.Prime → A.factorization q =
        (((((List.range Q.length).filter
          (fun k2 => decide (∀ i2, i2 < j → bit i2 k2 = bit i2 k))).map
          (fun k2 => Q.getD k2 0)).prod)).factorization q := by
    intro j
    induction j with
    | zero =>
      intro _
      refine ⟨array_prod (select_bits Q 0 0) * array_prod (select_bits Q 0 1),
        Nat.mul_pos (hselpos 0 0) (hselpos 0 1),
        fo_mul R _ _ (hRfosel 0 0 (by omega) (by omega) (by omega))
          (hRfosel 0 1 (by omega) (by omega) (by omega)), ?_⟩
      intro q hq
      by_cases hex : ∃ k0, k0 < Q.length ∧ q ∣ Q.getD k0 0
      · obtain ⟨k0, hk0, hqk0⟩ := hex
        rw [fact_mul_apply _ _ q (by have := hselpos 0 0; omega)
            (by have := hselpos 0 1; omega),
          hselfact 0 0 q hq k0 hk0 hqk0, hselfact 0 1 q hq k0 hk0 hqk0,
          filter_prod_fact Q hQ1 hQco _ q hq k0 hk0 hqk0,
          if_pos (decide_eq_true (fun i2 hi2 =>
            absurd hi2 (Nat.not_lt_zero i2)))]
        rcases bit_cases 0 k0 with h0 | h0
        · rw [if_pos h0, if_neg (by rw [h0]; omega)]
          omega
        · rw [if_neg (by rw [h0]; omega), if_pos h0]
          omega
      · push_neg at hex
        rw [fact_mul_apply _ _ q (by have := hselpos 0 0; omega)
            (by have := hselpos 0 1; omega),
          hselfact0 0 0 q hq hex, hselfact0 0 1 q hq hex,
          filter_prod_fact_none Q hQ1 _ q hq hex]
    | succ j ihj =>
      intro hjb
      obtain ⟨A, hA0, hAfo, hAchar⟩ := ihj (by omega)
      refine ⟨Nat.gcd A (array_prod (select_bits Q j (bit j k))),
        Nat.gcd_pos_of_pos_left _ hA0,
        fo_gcd R hR1 hRco A _ hAfo
          (hRfosel j (bit j k) (by omega) (by omega) (by
            rcases bit_cases j k with h | h <;> omega)), ?_⟩
      intro q hq
      rw [fact_gcd_apply A _ q (by omega) (by have := hselpos j (bit j k); omega)]
      by_cases hex : ∃ k0, k0 < Q.length ∧ q ∣ Q.getD k0 0
      · obtain ⟨k0, hk0, hqk0⟩ := hex
        rw [hAchar q hq, hselfact j (bit j k) q hq k0 hk0 hqk0,
          filter_prod_fact Q hQ1 hQco _ q hq k0 hk0 hqk0,
          filter_prod_fact Q hQ1 hQco _ q hq k0 hk0 hqk0]
        have hsplitcond : (∀ i2, i2 < j + 1 → bit i2 k0 = bit i2 k) ↔
            ((∀ i2, i2 < j → bit i2 k0 = bit i2 k) ∧
              bit j k0 = bit j k) := by
          constructor
          · intro h
            exact ⟨fun i2 hi2 => h i2 (by omega), h j (by omega)⟩
          · intro h i2 hi2
            by_cases hij : i2 = j
            · subst hij
              exact h.2
            · exact h.1 i2 (by omega)
        by_cases h1 : ∀ i2, i2 < j → bit i2 k0 = bit i2 k
        · by_cases h2 : bit j k0 = bit j k
          · rw [if_pos (decide_eq_true h1), if_pos h2,
              if_pos (decide_eq_true (hsplitcond.mpr ⟨h1, h2⟩)),
              Nat.min_self]
          · rw [if_pos (decide_eq_true h1), if_neg h2,
              if_neg (fun hc => h2 (hsplitcond.mp (of_decide_eq_true hc)).2),
              Nat.min_zero]
        · rw [if_neg (fun hc => h1 (of_decide_eq_true hc)),
            if_neg (fun hc => h1 (hsplitcond.mp (of_decide_eq_true hc)).1),
            Nat.zero_min]
      · push_neg at hex
        rw [hAchar q hq, hselfact0 j (bit j k) q hq hex,
          filter_prod_fact_none Q hQ1 _ q hq hex,
          filter_prod_fact_none Q hQ1 _ q hq hex, Nat.min_self]
  obtain ⟨A, hA0, hAfo, hAchar⟩ := key (find_b Q.length) (le_refl _)
  have hfilter : (List.range Q.length).filter
      (fun k2 => decide (∀ i2, i2 < find_b Q.length →
        bit i2 k2 = bit i2 k)) = [k] := by
    apply filter_singleton_range Q.length k hk
    intro j2 hj2
    rw [decide_eq_true_eq]
    constructor
    · intro hall
      exact bit_agree (find_b Q.length) j2 k (by omega) (by omega) hall
    · intro heq
      subst heq
      intro i2 _
      rfl
  have hAy : A = y := by
    apply fact_ext A y (by omega) (by omega)
    intro q hq
    rw [hAchar q hq, hfilter]
    simp only [List.map_cons, List.map_nil, List.prod_cons, List.prod_nil,
      Nat.mul_one]
    rw [List.getD_eq_getElem Q 0 hk, hkeq]
  rw [← hAy]
  exact hAfo

/-- Full contract of `cb` on an index range of positive values: for all
large enough fuel it returns a fixed pairwise-coprime list of values at
least 2 whose primes come from the range, over which every value of the
range factors. -/
theorem cb_contract (s : List Nat) (hpos : ∀ v ∈ s, 0 < v) :
    ∀ d f t, t - f = d → f ≤ t → t < s.length →
    ∃ fuel0 out, (∀ fuel, fuel0 ≤ fuel → cb fuel s f t = some out) ∧
      (∀ v ∈ out, 2 ≤ v) ∧ List.Pairwise Nat.Coprime out ∧
      (∀ v ∈ out, ∀ q, q.Prime → q ∣ v →
        ∃ i, f ≤ i ∧ i ≤ t ∧ q ∣ s.getD i 0) ∧
      (∀ i, f ≤ i → i ≤ t → FactorsOver (s.getD i 0) out) := by
  intro d
  induction d using Nat.strong_induction_on with
  | _ d ih =>
    intro f t hd hft hlen
    by_cases h0 : t - f = 0
    · have htf : t = f := by omega
      subst htf
      have hv0 : 0 < s.getD t 0 := hpos _ (getD_mem_of_lt s t (by omega))
      by_cases hv1 : s.getD t 0 = 1
      · refine ⟨0, [], ?_, by simp, List.Pairwise.nil, by simp, ?_⟩
        · intro fuel _
          rw [cb_base fuel s t t (by omega), if_neg (by omega),
            if_neg (by omega)]
        · intro i hfi hit
          have hit2 : i = t := by omega
          subst hit2
          rw [hv1]
          exact fo_one []
      · refine ⟨0, [s.getD t 0], ?_, ?_,
          List.pairwise_singleton Nat.Coprime _, ?_, ?_⟩
        · intro fuel _
          rw [cb_base fuel s t t (by omega), if_neg (by omega),
            if_pos hv1]
        · intro v hv
          rw [List.mem_singleton] at hv
          omega
        · intro v hv q hq hqv
          rw [List.mem_singleton] at hv
          subst hv
          exact ⟨t, le_refl t, le_refl t, hqv⟩
        · intro i hfi hit
          have hit2 : i = t := by omega
          subst hit2
          exact fo_mem _ _ (List.mem_singleton.mpr rfl)
    · obtain ⟨fuelL, pl, hprun, hp2, hpco, hpprimes, hpfo⟩ :=
        ih (t - (t - f) / 2 - 1 - f) (by omega) f (t - (t - f) / 2 - 1) rfl
          (by omega) (by omega)
      obtain ⟨fuelR, qr, hqrun, hq2, hqco, hqprimes, hqfo⟩ :=
        ih (t - (t - (t - f) / 2)) (by omega) (t - (t - f) / 2) t rfl
          (by omega) hlen
      by_cases hpnil : pl = []
      · by_cases hqnil : qr = []
        · refine ⟨max fuelL fuelR, [], ?_, by simp, List.Pairwise.nil,
            by simp, ?_⟩
          · intro fuel hfuel
            rw [cb_step fuel s f t h0, hprun fuel (by omega)]
            simp only []
            rw [hqrun fuel (by omega)]
            simp only []
            rw [hpnil, hqnil]
            simp
          · intro i hfi hit
            by_cases hmid : i ≤ t - (t - f) / 2 - 1
            · have hfo := hpfo i hfi hmid
              rw [hpnil] at hfo
              rw [fo_nil _ hfo]
              exact fo_one []
            · have hfo := hqfo i (by omega) hit
              rw [hqnil] at hfo
              rw [fo_nil _ hfo]
              exact fo_one []
        · refine ⟨max fuelL fuelR, qr, ?_, hq2, hqco, ?_, ?_⟩
          · intro fuel hfuel
            rw [cb_step fuel s f t h0, hprun fuel (by omega)]
            simp only []
            rw [hqrun fuel (by omega)]
            simp only []
            rw [if_neg (by
                intro hand
                rw [hpnil] at hand
                simp at hand),
              if_neg (by
                intro hand
                exact (List.length_pos.mpr hqnil).ne (hand.1.symm)),
              if_pos ⟨by
                have := List.length_pos.mpr hqnil
                omega, by rw [hpnil]; rfl⟩]
          · intro v hv q hq hqv
            obtain ⟨i, h1, h2, h3⟩ := hqprimes v hv q hq hqv
            exact ⟨i, by omega, h2, h3⟩
          · intro i hfi hit
            by_cases hmid : i ≤ t - (t - f) / 2 - 1
            · have hfo := hpfo i hfi hmid
              rw [hpnil] at hfo
              rw [fo_nil _ hfo]
              exact fo_one qr
            · exact hqfo i (by omega) hit
      · by_cases hqnil : qr = []
        · refine ⟨max fuelL fuelR, pl, ?_, hp2, hpco, ?_, ?_⟩
          · intro fuel hfuel
            rw [cb_step fuel s f t h0, hprun fuel (by omega)]
            simp only []
            rw [hqrun fuel (by omega)]
            simp only []
            rw [if_neg (by
                intro hand
                rw [hqnil] at hand
                simp at hand),
              if_pos ⟨by rw [hqnil]; rfl, by
                have := List.length_pos.mpr hpnil
                omega⟩]
          · intro v hv q hq hqv
            obtain ⟨i, h1, h2, h3⟩ := hpprimes v hv q hq hqv
            exact ⟨i, h1, by omega, h3⟩
          · intro i hfi hit
            by_cases hmid : i ≤ t - (t - f) / 2 - 1
            · exact hpfo i hfi hmid
            · have hfo := hqfo i (by omega) hit
              rw [hqnil] at hfo
              rw [fo_nil _ hfo]
              exact fo_one pl
        · obtain ⟨fuelM, R, hMrun, hR2, hRco, hRprimes, hRfoP, hRfoQ,
            hRne⟩ := cbmerge_contract pl qr hpnil hp2 hpco hq2 hqco
          refine ⟨max (max fuelL fuelR) fuelM, R, ?_, hR2, hRco, ?_, ?_⟩
          · intro fuel hfuel
            rw [cb_step fuel s f t h0, hprun fuel (by omega)]
            simp only []
            rw [hqrun fuel (by omega)]
            simp only []
            rw [if_pos ⟨by
                have := List.length_pos.mpr hqnil
                omega, by
                have := List.length_pos.mpr hpnil
                omega⟩]
            exact hMrun fuel (by omega)
          · intro v hv q hq hqv
            rcases hRprimes v hv q hq hqv with ⟨u, hu, hqu⟩ | ⟨u, hu, hqu⟩
            · obtain ⟨i, h1, h2, h3⟩ := hpprimes u hu q hq hqu
              exact ⟨i, h1, by omega, h3⟩
            · obtain ⟨i, h1, h2, h3⟩ := hqprimes u hu q hq hqu
              exact ⟨i, by omega, h2, h3⟩
          · intro i hfi hit
            by_cases hmid : i ≤ t - (t - f) / 2 - 1
            · exact fo_elem pl R _ (hpfo i hfi hmid) hRfoP
            · exact fo_elem qr R _ (hqfo i (by omega) hit) hRfoQ

unseal prod split cb find_b_loop append_cb append_cb_loop in
theorem array_cb_6_10_15 : array_cb 100 [6, 10, 15] = some [5, 2, 3] := by
  decide

/-- C1: for every non-empty list of positive values, `cb` over the whole
array yields, for all large enough fuel, a list of pairwise-coprime values
at least 2 over which every input value factors (a coprime base for the
input), non-empty as soon as some input is at least 2; and on the example
`{6, 10, 15}` the output is exactly the base `{2, 3, 5}` (in the order
`[5, 2, 3]`). -/
theorem claim_C1 :
    (∀ s : List Nat, (∀ v ∈ s, 0 < v) → s ≠ [] →
      ∃ fuel0 out, (∀ fuel, fuel0 ≤ fuel → array_cb fuel s = some out) ∧
        (∀ v ∈ out, 2 ≤ v) ∧ List.Pairwise Nat.Coprime out ∧
        (∀ x ∈ s, FactorsOver x out) ∧
        ((∃ v ∈ s, 2 ≤ v) → out ≠ [])) ∧
    array_cb 100 [6, 10, 15] = some [5, 2, 3] ∧
    List.Perm [5, 2, 3] [2, 3, 5] := by
  refine ⟨?_, array_cb_6_10_15, by decide⟩
  intro s hpos hs
  have hlen : 0 < s.length := List.length_pos.mpr hs
  obtain ⟨fuel0, out, hrun, h2, hco, hprimes, hfo⟩ :=
    cb_contract s hpos (s.length - 1 - 0) 0 (s.length - 1) rfl (by omega)
      (by omega)
  have hfoall : ∀ x ∈ s, FactorsOver x out := by
    intro x hx
    obtain ⟨i, hi, hieq⟩ := List.mem_iff_getElem.mp hx
    have hfo2 := hfo i (by omega) (by omega)
    rw [List.getD_eq_getElem s 0 hi, hieq] at hfo2
    exact hfo2
  refine ⟨fuel0, out, ?_, h2, hco, hfoall, ?_⟩
  · intro fuel hfuel
    rw [array_cb, if_pos hlen]
    exact hrun fuel hfuel
  · intro hex hnil
    obtain ⟨v0, hv0mem, hv02⟩ := hex
    have hfo0 := hfoall v0 hv0mem
    rw [hnil] at hfo0
    have := fo_nil v0 hfo0
    omega

/-- Witness for C1: the universal part applied to the input `[21, 10]`. -/
theorem claim_C1_witness :
    ∃ fuel0 out, (∀ fuel, fuel0 ≤ fuel →
        array_cb fuel [21, 10] = some out) ∧
      (∀ v ∈ out, 2 ≤ v) ∧ List.Pairwise Nat.Coprime out ∧
      (∀ x ∈ [21, 10], FactorsOver x out) ∧
      ((∃ v ∈ [21, 10], 2 ≤ v) → out ≠ []) :=
  claim_C1.1 [21, 10] (by decide) (by decide)

end Copri
